import Mathlib

/-!
# A verification of the Re-Pair compressor (nicolaprezza/Re-Pair)

This file gives a shallow embedding in Lean 4 of the data structures and of the
two-phase Re-Pair engine of the repository (the skippable text
`internal/skippable_text.hpp`, the position index, the two pair queues, the
engine `rp.cpp` / `repair.cpp`, and the stack-based decompressor), and proves
or refutes the specification claims about them.

Machine integers (`uint32_t`) are modelled as `Nat`; none of the arithmetic
performed by the program on valid inputs overflows 32 bits, and the reserved
sentinel `~0` is modelled as the explicit constant `BLANK = 2^32 - 1`.
`std::vector` / `sdsl::int_vector` are modelled as `List Nat` with the usual
out-of-range conventions (`getD` with default, `set` out of range is a no-op).
The direct-address tables (`pair_hash`, the 256 x 256 scratch tables) are
modelled as sparse association lists with the same read/write semantics:
an absent key reads as the table's initialization value.
-/

set_option autoImplicit false

namespace RePair

/-- The reserved sentinel `BLANK = ~ctype(0)` for 32-bit symbols. -/
def BLANK : Nat := 2 ^ 32 - 1

/-- Symbol pairs `cpair = pair<ctype,ctype>`. -/
abbrev CPair := Nat × Nat

/-- The reserved null pair `{~0, ~0}` (identical to the text's blank pair). -/
def nullPair : CPair := (BLANK, BLANK)

/-- wrapping decrement of a `uint32_t` counter (`x--` at `x = 0` wraps to `~0`). -/
def dec32 (x : Nat) : Nat := if x = 0 then 2 ^ 32 - 1 else x - 1

/-! ## Skippable text (`internal/skippable_text.hpp`)

A fixed-length symbol sequence with logical deletion: `blank` marks erased
positions, and the first and last position of every maximal run of blanks
store the run's length in the symbol array `T`, so that navigation can jump
a whole run in one step. -/

structure SkippableText where
  /-- text length `n` (including blank positions) -/
  n : Nat
  /-- the symbol array; at blank positions it stores skip lengths -/
  T : List Nat
  /-- marks blank (logically deleted) positions -/
  blank : List Bool
  /-- the counter `non_blank_characters` -/
  nonBlank : Nat
  deriving Repr, DecidableEq

namespace SkippableText

/-- `skippable_text(n)`: text of length `n` filled with character 0, all live.
(The constructor's `assert(n>0)` is checked by the top-level driver.) -/
def init (n : Nat) : SkippableText :=
  { n := n
    T := List.replicate n 0
    blank := List.replicate n false
    nonBlank := n }

/-- raw read of the symbol array (`T[i]`). -/
def rawT (S : SkippableText) (i : Nat) : Nat := S.T.getD i 0

/-- `is_blank(i)`. -/
def isBlank (S : SkippableText) (i : Nat) : Bool := S.blank.getD i false

/-- `operator[](i)`: the `i`-th character, `BLANK` at blank positions. -/
def get (S : SkippableText) (i : Nat) : Nat :=
  if S.isBlank i then BLANK else S.rawT i

/-- `set(i, c)` (used only during the initial fill). -/
def set (S : SkippableText) (i : Nat) (c : Nat) : SkippableText :=
  { S with T := S.T.set i c }

/-- `blank_pair()`. -/
def blankPair : CPair := (BLANK, BLANK)

/-- `pair_starting_at(i)`: the pair `(T[i], next live symbol)`, skipping the
run of blanks after `i` via the skip length stored at `i+1`; the blank pair
if `i` is blank, is the last live position, or the run reaches the end. -/
def pairStartingAt (S : SkippableText) (i : Nat) : CPair :=
  if i = S.n - 1 ∨ (S.isBlank (i+1) ∧ i + S.rawT (i+1) + 1 ≥ S.n) then blankPair
  else if S.get i = BLANK then blankPair
  else
    let first := S.rawT i
    let second := if S.isBlank (i+1) then S.rawT (i + S.rawT (i+1) + 1) else S.rawT (i+1)
    (first, second)

/-- `next_pair(i)`: the pair that follows the pair starting at `i`. -/
def nextPair (S : SkippableText) (i : Nat) : CPair :=
  if i = S.n - 1 ∨ (S.isBlank (i+1) ∧ i + S.rawT (i+1) + 1 ≥ S.n) then blankPair
  else if S.get i = BLANK then blankPair
  else
    let nextPos := if S.isBlank (i+1) then i + S.rawT (i+1) + 1 else i + 1
    S.pairStartingAt nextPos

/-- `pair_ending_at(i)`: the pair `(previous live symbol, T[i])`, skipping the
run of blanks before `i` via the skip length stored at `i-1`. -/
def pairEndingAt (S : SkippableText) (i : Nat) : CPair :=
  if i = 0 ∨ (S.isBlank (i-1) ∧ i < S.rawT (i-1) + 1) then blankPair
  else if S.get i = BLANK then blankPair
  else
    let first := if S.isBlank (i-1) then S.rawT (i - (S.rawT (i-1) + 1)) else S.rawT (i-1)
    (first, S.rawT i)

/-- `replace(i, X)`: replace the pair starting at live position `i` by `X`:
blank the position of the pair's second symbol, merge the adjacent blank
runs, record the merged run's length at its first and last position, and
write `X` at `i`. -/
def replace (S : SkippableText) (i : Nat) (X : Nat) : SkippableText :=
  let iNext := if S.isBlank (i+1) then i + S.rawT (i+1) + 1 else i + 1
  let len := iNext - (i+1)
  let nextLen := if iNext = S.n - 1 then 0
                 else if S.isBlank (iNext+1) then S.rawT (iNext+1) else 0
  let blank' := S.blank.set iNext true
  let newLen := len + nextLen + 1
  let T' := ((S.T.set (i+1) newLen).set (i+newLen) newLen).set i X
  { S with T := T', blank := blank', nonBlank := dec32 S.nonBlank }

/-- `size()`. -/
def size (S : SkippableText) : Nat := S.n

/-- `number_of_non_blank_characters()`. -/
def numberOfNonBlankCharacters (S : SkippableText) : Nat := S.nonBlank

/-- The live content of the text: the symbols at non-blank positions, in
text order (this is what the engine emits as `T_c` at the end). -/
def liveSyms (S : SkippableText) : List Nat :=
  ((List.range S.n).filter (fun i => ¬ S.isBlank i)).map S.rawT

/-- `get_max_symbol()` of the final skippable text.
Modelled from the spec: the final `skippable_text` tracks the largest symbol
currently stored; the spec only uses it for the clustering fall-back test
("If the current max symbol exceeds the scratch table's size, fall back to
comparison sort"). Modelled as the maximum over all live symbols. -/
def getMaxSymbol (S : SkippableText) : Nat :=
  (S.liveSyms).foldl max 0

end SkippableText

/-! ## Arena-backed doubly-linked list (`ll_vec.hpp` in `ll_el.hpp`)

Elements are stored contiguously in an arena `V`; `next_el`/`prev_el` chain
the occupied slots (newest first) and the free slots (`first_empty` list).
A slot is free iff its element is the null element (`F_ab = ~0`). -/

/-- The null index / null frequency sentinel `~itype(0)`. -/
def NULLI : Nat := 2 ^ 32 - 1

/-- A linked-list element `ll_el`: quadruple `<ab, P_ab, L_ab, F_ab>`.
The default constructor leaves `ab` uninitialized in C++ (modelled as `(0,0)`)
and sets `F_ab = null`, which marks the element as null. -/
structure LLEl where
  ab : CPair := (0, 0)
  P : Nat := 0
  L : Nat := 0
  F : Nat := NULLI
  deriving Repr, DecidableEq

instance : Inhabited LLEl := ⟨{}⟩

/-- `is_null()`. -/
def LLEl.isNull (e : LLEl) : Bool := e.F = NULLI

structure LLVec where
  V : List LLEl
  nextEl : List Nat
  prevEl : List Nat
  n : Nat
  firstEl : Nat
  firstEmpty : Nat
  deriving Repr, DecidableEq

namespace LLVec

/-- `ll_vec()`: empty list with one allocated slot. -/
def init : LLVec :=
  { V := [{}], nextEl := [NULLI], prevEl := [NULLI],
    n := 0, firstEl := NULLI, firstEmpty := 0 }

instance : Inhabited LLVec := ⟨init⟩

/-- `operator[](i)`. -/
def get (l : LLVec) (i : Nat) : LLEl := l.V.getD i {}

/-- `size()`. -/
def size (l : LLVec) : Nat := l.n

/-- `capacity()`. -/
def capacity (l : LLVec) : Nat := l.V.length

/-- `head()` of the final `ll_vec`.
Modelled from the spec: `max()` of the low-frequency queue "returns the head
pair of the non-empty list with the largest index"; the head of the list is
the element its `first_el` pointer designates. -/
def head (l : LLVec) : CPair := (l.get l.firstEl).ab

/-- `insert(x)`: if no free slot is left, grow the arena by 50% (at least 1)
and chain the new slots into the free list; then fill the first free slot and
link it at the front of the occupied list. Returns the slot index. -/
def insert (l : LLVec) (x : LLEl) : Nat × LLVec :=
  let l :=
    if l.firstEmpty = NULLI then
      let oldSize := l.n
      let newSize := l.n + (if l.n / 2 = 0 then 1 else l.n / 2)
      let V' := l.V ++ List.replicate (newSize - l.V.length) ({} : LLEl)
      let next0 := l.nextEl ++ List.replicate (newSize - l.nextEl.length) 0
      let prev0 := l.prevEl ++ List.replicate (newSize - l.prevEl.length) 0
      let next' := (List.range (newSize - oldSize)).foldl
        (fun a k => a.set (oldSize + k) (if oldSize + k + 1 = newSize then NULLI else oldSize + k + 1)) next0
      let prev' := (List.range (newSize - oldSize)).foldl
        (fun a k => a.set (oldSize + k) (if oldSize + k = oldSize then NULLI else oldSize + k - 1)) prev0
      { l with V := V', nextEl := next', prevEl := prev', firstEmpty := oldSize }
    else l
  let insertPos := l.firstEmpty
  let firstEmpty' := l.nextEl.getD insertPos NULLI
  let V' := l.V.set insertPos x
  let next' := l.nextEl.set insertPos l.firstEl
  let prev' := l.prevEl.set insertPos NULLI
  let prev'' := if l.firstEl ≠ NULLI then prev'.set l.firstEl insertPos else prev'
  (insertPos,
    { V := V', nextEl := next', prevEl := prev'',
      n := l.n + 1, firstEl := insertPos, firstEmpty := firstEmpty' })

/-- `remove(i)`: null the slot, push it on the free list, and unlink it from
the occupied chain. -/
def remove (l : LLVec) (i : Nat) : LLVec :=
  let V' := l.V.set i {}
  let prev := l.prevEl.getD i NULLI
  let next := l.nextEl.getD i NULLI
  let next' := l.nextEl.set i l.firstEmpty
  let firstEmpty' := i
  if prev = NULLI then
    { l with V := V', nextEl := next', firstEmpty := firstEmpty',
             firstEl := next, n := dec32 l.n }
  else
    let next'' := next'.set prev next
    let prev' := if next ≠ NULLI then l.prevEl.set next prev else l.prevEl
    { l with V := V', nextEl := next'', prevEl := prev',
             firstEmpty := firstEmpty', n := dec32 l.n }

/-- overwrite the element stored at slot `i` (the in-place field updates
`F[freq][offset].P_ab = ...` of the low-frequency queue). -/
def setEl (l : LLVec) (i : Nat) (e : LLEl) : LLVec :=
  { l with V := l.V.set i e }

/-- the walk of `compact()` along the occupied chain collecting elements
in chain order (guarded by fuel; the C++ loop diverges on a corrupted chain). -/
def walk (l : LLVec) : Nat → Nat → List LLEl
  | 0, _ => []
  | fuel+1, cur => if cur = NULLI then [] else l.get cur :: l.walk fuel (l.nextEl.getD cur NULLI)

/-- `compact()`: drop the free slots, re-pack the `n` elements contiguously
in chain order, and rebuild the chain pointers. -/
def compact (l : LLVec) : LLVec :=
  if l.n = 0 then init
  else
    let tmp0 := l.walk (l.V.length + 1) l.firstEl
    let tmp := (tmp0.take l.n) ++ List.replicate (l.n - tmp0.length) ({} : LLEl)
    { V := tmp
      nextEl := (List.range l.n).map (fun i => if i = l.n - 1 then NULLI else i + 1)
      prevEl := (List.range l.n).map (fun i => if i = 0 then NULLI else i - 1)
      n := l.n, firstEl := 0, firstEmpty := NULLI }

end LLVec

/-! ## Sparse association tables

`unordered_map` and the direct-address `pair_hash` / scratch tables are
modelled as association lists where the newest binding is consulted first;
an absent key reads as the table's initialization value. -/

/-- lookup with default. -/
def assocGet {α β : Type} [DecidableEq α] (m : List (α × β)) (k : α) (d : β) : β :=
  match m.find? (fun e => e.1 = k) with
  | some e => e.2
  | none => d

/-- membership test. -/
def assocMem {α β : Type} [DecidableEq α] (m : List (α × β)) (k : α) : Bool :=
  (m.find? (fun e => e.1 = k)).isSome

/-- overwrite binding (`operator[] =`). -/
def assocSet {α β : Type} [DecidableEq α] (m : List (α × β)) (k : α) (v : β) : List (α × β) :=
  (k, v) :: m.filter (fun e => ¬ e.1 = k)

/-- `insert`: no-op if the key is already present (like `unordered_map::insert`). -/
def assocIns {α β : Type} [DecidableEq α] (m : List (α × β)) (k : α) (v : β) : List (α × β) :=
  if assocMem m k then m else (k, v) :: m

/-- `erase`. -/
def assocDel {α β : Type} [DecidableEq α] (m : List (α × β)) (k : α) : List (α × β) :=
  m.filter (fun e => ¬ e.1 = k)

/-! ## High-frequency queue (`hf_queue_v2`, the variant used by `rp.cpp`)

A `pair_hash` mapping pairs directly to triples `<P_ab, L_ab, F_ab>`, plus
the vector `pairs_in_hash` of every pair ever inserted (with stale entries);
`max()` linearly scans that vector, filtering through `contains`. -/

structure HfQ where
  minFreq : Nat
  maxD : Nat
  H : List (CPair × (Nat × Nat × Nat))
  pairsInHash : List CPair
  n : Nat
  deriving Repr, DecidableEq

namespace HfQ

/-- `init(max_alphabet_size, min_freq)`. -/
def init (maxD minFreq : Nat) : HfQ :=
  { minFreq := minFreq, maxD := maxD, H := [], pairsInHash := [], n := 0 }

/-- `contains(ab)`, through `pair_hash::count` (the null pair is never in
the table). -/
def contains (q : HfQ) (ab : CPair) : Bool :=
  if ab = nullPair then false else assocMem q.H ab

/-- `operator[](ab)`: the triple `<P_ab, L_ab, F_ab>`. -/
def getT (q : HfQ) (ab : CPair) : Nat × Nat × Nat :=
  assocGet q.H ab (0, 0, 0)

/-- `minimum_frequency()`. -/
def minimumFrequency (q : HfQ) : Nat := q.minFreq

/-- `size()`. -/
def size (q : HfQ) : Nat := q.n

/-- `max()`: linear scan of `pairs_in_hash`, keeping the first pair whose
frequency strictly exceeds the best so far; the null pair on an empty queue. -/
def qmax (q : HfQ) : CPair :=
  if q.n = 0 then nullPair
  else
    let r := q.pairsInHash.foldl
      (fun (acc : Nat × CPair) p =>
        if q.contains p then
          let f := (q.getT p).2.2
          if f > acc.1 then (f, p) else acc
        else acc)
      (0, nullPair)
    r.2

/-- `remove(ab)`. -/
def remove (q : HfQ) (ab : CPair) : HfQ :=
  { q with H := assocDel q.H ab, n := dec32 q.n }

/-- `decrease(ab)`: decrease `F_ab` by 1. Does not remove the pair. -/
def decrease (q : HfQ) (ab : CPair) : HfQ :=
  let t := q.getT ab
  { q with H := assocSet q.H ab (t.1, t.2.1, dec32 t.2.2) }

/-- `insert(el)`. -/
def insert (q : HfQ) (el : LLEl) : HfQ :=
  { q with H := assocIns q.H el.ab (el.P, el.L, el.F),
           pairsInHash := q.pairsInHash ++ [el.ab],
           n := q.n + 1 }

/-- `update(el)`: overwrite the values of an element already in the queue. -/
def update (q : HfQ) (el : LLEl) : HfQ :=
  { q with H := assocSet q.H el.ab (el.P, el.L, el.F) }

/-- `nullpair()`. -/
def nullpair (_ : HfQ) : CPair := nullPair

end HfQ

/-! ## Low-frequency queue (`lf_queue.hpp`, final version in the pack)

A vector `F` of arena linked lists, one per frequency in `[0, max_freq]`,
a hash mapping each pair to its coordinates `(freq, offset)`, and the
descending cursor `MAX`. -/

structure LfQ where
  maxSize : Nat
  maxFreq : Nat
  MAX : Nat
  n : Nat
  F : List LLVec
  H : List (CPair × (Nat × Nat))
  deriving Repr, DecidableEq

namespace LfQ

/-- `lf_queue(max_size, max_freq)` (the engine passes only the frequency
bound; `max_size` is set to unlimited by the constructor itself). -/
def init (maxFreq : Nat) : LfQ :=
  { maxSize := NULLI, maxFreq := maxFreq, MAX := maxFreq, n := 0,
    F := List.replicate (maxFreq + 1) LLVec.init, H := [] }

/-- `contains(ab)`. -/
def contains (q : LfQ) (ab : CPair) : Bool := assocMem q.H ab

/-- the list at frequency `f`. -/
def listAt (q : LfQ) (f : Nat) : LLVec := q.F.getD f LLVec.init

/-- `operator[](ab)`: the triple `<P_ab, L_ab, F_ab>` read through the
coordinates stored in the hash. -/
def getT (q : LfQ) (ab : CPair) : Nat × Nat × Nat :=
  let coord := assocGet q.H ab (0, 0)
  let e := (q.listAt coord.1).get coord.2
  (e.P, e.L, e.F)

/-- the descending-cursor walk of `max()`:
`while(MAX > 1 && F[MAX].size() == 0){MAX--;}`. -/
def descend (F : List LLVec) : Nat → Nat
  | 0 => 0
  | m+1 =>
    if m + 1 > 1 ∧ (F.getD (m+1) LLVec.init).size = 0 then descend F m
    else m + 1

/-- `max()`: the null pair if the queue is empty; otherwise walk the cursor
down over empty lists and return the head pair of the current list.
(The cursor mutation is returned alongside the result.) -/
def qmax (q : LfQ) : CPair × LfQ :=
  if q.n = 0 then (nullPair, q)
  else
    let m := descend q.F q.MAX
    ((q.listAt m).head, { q with MAX := m })

/-- `compact_ll(f)`: compact the arena of `F[f]` and rewrite the hash
coordinates of its elements. -/
def compactLl (q : LfQ) (f : Nat) : LfQ :=
  let Fl := (q.listAt f).compact
  let H' := (List.range Fl.size).foldl
    (fun h i => assocSet h (Fl.get i).ab (f, i)) q.H
  { q with F := q.F.set f Fl, H := H' }

/-- `remove(ab)`: unlink from its frequency list and from the hash;
compact the list when it becomes less than half full. -/
def remove (q : LfQ) (ab : CPair) : LfQ :=
  let coord := assocGet q.H ab (0, 0)
  let Fl := (q.listAt coord.1).remove coord.2
  let q := { q with F := q.F.set coord.1 Fl, H := assocDel q.H ab }
  let q := if (q.listAt coord.1).size < (q.listAt coord.1).capacity / 2
           then q.compactLl coord.1 else q
  { q with n := dec32 q.n }

/-- `decrease(ab)`: remove the pair, lower its frequency by 1, and re-insert
it into the lower list; when the frequency drops below 2, drop it for good. -/
def decrease (q : LfQ) (ab : CPair) : LfQ :=
  let coord := assocGet q.H ab (0, 0)
  let e := (q.listAt coord.1).get coord.2
  let q := q.remove ab
  let e := { e with F := dec32 e.F }
  if e.F < 2 then q
  else
    let r := (q.listAt e.F).insert e
    let q := { q with F := q.F.set e.F r.2 }
    { q with H := assocIns q.H ab (e.F, r.1), n := q.n + 1 }

/-- `insert(el)`. -/
def insert (q : LfQ) (el : LLEl) : LfQ :=
  let f := el.F
  let r := (q.listAt f).insert el
  { q with F := q.F.set f r.2,
           H := assocIns q.H el.ab (f, r.1),
           n := q.n + 1 }

/-- `minimum_frequency()`. -/
def minimumFrequency (_ : LfQ) : Nat := 2

/-- `update(el)`: overwrite `P_ab` and `L_ab` of an element already in the
queue (its frequency must be unchanged). -/
def update (q : LfQ) (el : LLEl) : LfQ :=
  let coord := assocGet q.H el.ab (0, 0)
  let Fl := q.listAt coord.1
  let e := Fl.get coord.2
  { q with F := q.F.set coord.1 (Fl.setEl coord.2 { e with P := el.P, L := el.L }) }

/-- `nullpair()`. -/
def nullpair (_ : LfQ) : CPair := nullPair

/-- `size()`. -/
def size (q : LfQ) : Nat := q.n

end LfQ


/-! ## Position index (`text_positions`, final version `text_positions_hf`)

An array of text offsets that can be clustered (grouped by the pair starting
at each offset) over arbitrary sub-ranges by an in-place counting sort, with
a scratch table `H[a][b] = (begin, next end)` and a bitmap marking the first
occurrence of each distinct pair. -/

/-- structural insertion of an element into a sorted list (the sorting
primitive used to model `std::sort`; structural so the kernel can evaluate). -/
def orderedInsert {α : Type} (le : α → α → Bool) (x : α) : List α → List α
  | [] => [x]
  | y :: ys => if le x y then x :: y :: ys else y :: orderedInsert le x ys

/-- insertion sort by a boolean comparison. -/
def insSort {α : Type} (le : α → α → Bool) (l : List α) : List α :=
  l.foldr (orderedInsert le) []

/-- floor of `n ^ 0.4` (the scratch-table sizing exponent), with the exact
rational exponent 2/5 standing in for the C++ `std::pow(n, 0.4)`. -/
def pow04 (n : Nat) : Nat :=
  (List.range (n + 1)).foldl (fun acc k => if k ^ 5 ≤ n ^ 2 then k else acc) 0

structure TextPositions where
  TP : List Nat
  maxd : Nat
  Htab : List (CPair × (Nat × Nat))
  deriving Repr, DecidableEq

namespace TextPositions

/-- `text_positions(T, min_freq)`: count the frequency of every ordered byte
pair of the initial text in a 256 x 256 table, lay out one cluster per pair
with count `>= min_freq` (visiting the table in row-major order), and fill
the clusters in a single pass over the text.
(The count table is sparse: a pair that never occurs keeps count 0 and is
never read back by the fill pass, so its `null` marker is not materialized.) -/
def init (T : SkippableText) (minFreq : Nat) : TextPositions :=
  let maxd := max (pow04 T.size) 256
  let F0 : List (CPair × Nat) := (List.range (T.size - 1)).foldl
    (fun F i =>
      let p := T.pairStartingAt i
      assocSet F p (assocGet F p 0 + 1)) []
  -- The C++ walks the whole 256 x 256 count table in row-major order,
  -- replacing each count below `min_freq` by `null` and each qualifying
  -- count by its cumulative cluster offset. Only pairs that occur in the
  -- text affect the result, so the embedding folds over the pairs present
  -- in the table in the same (lexicographic) visiting order.
  let present := insSort
    (fun (p q : CPair) => decide (p.1 < q.1 ∨ (p.1 = q.1 ∧ p.2 ≤ q.2)))
    (F0.map Prod.fst)
  let step := present.foldl
    (fun (st : List (CPair × Nat) × Nat) p =>
      let t := assocGet st.1 p 0
      if t < minFreq then
        (if t = 0 then st.1 else assocSet st.1 p NULLI, st.2)
      else
        (assocSet st.1 p st.2, st.2 + t))
    (F0, 0)
  let fill := (List.range (T.size - 1)).foldl
    (fun (st : List Nat × List (CPair × Nat)) i =>
      let p := T.pairStartingAt i
      let v := assocGet st.2 p 0
      if v ≠ NULLI then (st.1.set v i, assocSet st.2 p (v + 1)) else st)
    (List.replicate step.2 0, step.1)
  { TP := fill.1, maxd := maxd, Htab := [] }

/-- `operator[](i)`. -/
def get (tp : TextPositions) (i : Nat) : Nat := tp.TP.getD i 0

/-- `size()`. -/
def size (tp : TextPositions) : Nat := tp.TP.length

/-- `fill_with_text_positions()` (named `resize()` in `text_positions_hf`):
replace the content with the text positions `0, ..., n-1`, unsorted. -/
def fillWithTextPositions (tp : TextPositions) (T : SkippableText) : TextPositions :=
  { tp with TP := List.range T.size }

/-- the comparison sort fall-back `nlogn_sort(i,j)` (`std::sort` by the pair
starting at each offset; modelled as a stable merge sort on the slice —
deterministic stand-in for the unstable `std::sort`). -/
def nlognSort (tp : TextPositions) (T : SkippableText) (i j : Nat) : TextPositions :=
  let slice := (tp.TP.drop i).take (j - i)
  let sorted := insSort
    (fun x y => decide (T.pairStartingAt x ≤ T.pairStartingAt y)) slice
  { tp with TP := tp.TP.take i ++ sorted ++ tp.TP.drop (i + (j - i)) }

/-- one step state of the in-place clustering loop. -/
structure ClusterSt where
  TP : List Nat
  H : List (CPair × (Nat × Nat))
  flags : List Bool
  t : Nat
  k : Nat
  deriving Repr

/-- the third (in-place swapping) step of `cluster(i,j)`: each position either
already lies inside its pair's current cluster window (advance, possibly
extending the window) or is swapped to the end of its pair's window. -/
def clusterLoop (T : SkippableText) (i j nullStart : Nat) :
    Nat → ClusterSt → ClusterSt
  | 0, st => st
  | fuel+1, st =>
    if st.k ≥ j then st
    else
      let ab := T.pairStartingAt (st.TP.getD st.k 0)
      let w := if ab = nullPair then (nullStart, st.t) else assocGet st.H ab (0, 0)
      if st.k ≥ w.1 ∧ st.k ≤ w.2 then
        let flags' := st.flags.set (st.k - i) (decide (st.k = w.1 ∧ ab ≠ nullPair))
        let k' := st.k + 1
        let st' :=
          if ab = nullPair then
            { st with flags := flags', k := k',
                      t := st.t + (if w.2 = k' then 1 else 0) }
          else
            { st with flags := flags', k := k',
                      H := assocSet st.H ab (w.1, w.2 + (if w.2 = k' then 1 else 0)) }
        clusterLoop T i j nullStart fuel st'
      else
        let a := st.TP.getD st.k 0
        let b := st.TP.getD w.2 0
        let TP' := (st.TP.set st.k b).set w.2 a
        let st' :=
          if ab = nullPair then { st with TP := TP', t := st.t + 1 }
          else { st with TP := TP', H := assocSet st.H ab (w.1, w.2 + 1) }
        clusterLoop T i j nullStart fuel st'

/-- `cluster(i,j)` (named `sort(i,j)` in the sources): in-place counting sort
of `TP[i..j)` by the pair starting at each offset, falling back to the
comparison sort when the largest live symbol overflows the scratch table.
Blank offsets and offsets with no pair cluster at the end of the range. -/
def cluster (tp : TextPositions) (T : SkippableText) (i j : Nat) : TextPositions :=
  if T.getMaxSymbol ≥ tp.maxd then tp.nlognSort T i j
  else
    -- first step: count frequencies, marking first occurrences
    let s1 := (List.range (j - i)).foldl
      (fun (st : List (CPair × (Nat × Nat)) × List Bool) o =>
        let k := i + o
        if ¬ T.isBlank (tp.TP.getD k 0) then
          let ab := T.pairStartingAt (tp.TP.getD k 0)
          if ab ≠ nullPair then
            let w := assocGet st.1 ab (0, 0)
            ((assocSet st.1 ab (w.1 + 1, w.2)),
              st.2.set (k - i) (decide (w.1 = 0)))
          else st
        else st)
      (tp.Htab, List.replicate (j - i) false)
    -- second step: cumulate frequencies
    let s2 := (List.range (j - i)).foldl
      (fun (st : List (CPair × (Nat × Nat)) × Nat) o =>
        let k := i + o
        if s1.2.getD (k - i) false then
          let ab := T.pairStartingAt (tp.TP.getD k 0)
          let temp := (assocGet st.1 ab (0, 0)).1
          (assocSet st.1 ab (st.2, st.2), st.2 + temp)
        else st)
      (s1.1, i)
    let nullStart := s2.2
    -- third step: cluster in place
    let st0 : ClusterSt :=
      { TP := tp.TP, H := s2.1, flags := List.replicate (j - i) false,
        t := s2.2, k := i }
    let stF := clusterLoop T i j nullStart ((j - i) * (j - i) + 2 * (j - i) + 2) st0
    -- restore the scratch table
    let Hr := (List.range (j - i)).foldl
      (fun H o =>
        let k := i + o
        if stF.flags.getD (k - i) false then
          assocSet H (T.pairStartingAt (stF.TP.getD k 0)) (0, 0)
        else H)
      stF.H
    { tp with TP := stF.TP, Htab := Hr }

/-- `cluster()` over the whole array. -/
def clusterAll (tp : TextPositions) (T : SkippableText) : TextPositions :=
  tp.cluster T 0 tp.size

end TextPositions


/-! ## The Re-Pair engine (`rp.cpp`)

`substitution_round`, `synchronize` and `synchro_or_remove_pair` are C++
templates over the queue type; they are embedded once, parametrized by a
record of the queue operations. The `while` loops of the engine take an
explicit fuel argument (exhausting the fuel stops the loop early). -/

open SkippableText (blankPair)

/-- the queue interface used by the engine templates. `qmax` returns the
(possibly cursor-mutated) queue alongside the maximum pair. -/
structure QOps (Qt : Type) where
  qmax : Qt → CPair × Qt
  contains : Qt → CPair → Bool
  getT : Qt → CPair → Nat × Nat × Nat
  decrease : Qt → CPair → Qt
  remove : Qt → CPair → Qt
  insert : Qt → LLEl → Qt
  update : Qt → LLEl → Qt
  minFreq : Qt → Nat

/-- the operations of the high-frequency queue. -/
def hfOps : QOps HfQ :=
  { qmax := fun q => (q.qmax, q), contains := HfQ.contains, getT := HfQ.getT,
    decrease := HfQ.decrease, remove := HfQ.remove, insert := HfQ.insert,
    update := HfQ.update, minFreq := HfQ.minimumFrequency }

/-- the operations of the low-frequency queue. -/
def lfOps : QOps LfQ :=
  { qmax := LfQ.qmax, contains := LfQ.contains, getT := LfQ.getT,
    decrease := LfQ.decrease, remove := LfQ.remove, insert := LfQ.insert,
    update := LfQ.update, minFreq := LfQ.minimumFrequency }

/-- the extension count of the inner `while` of the run-scanning loops that
compare against a pair `XY` fixed at the start of the run (`synchronize`):
`while(j < hi-1 && XY != blank && XY == pair(TP[j+1])) j++,k++`. -/
def runExtFix (T : SkippableText) (tp : TextPositions) (XY : CPair) (hi : Nat) :
    Nat → Nat → Nat
  | 0, _ => 0
  | fuel+1, j =>
    if j < hi - 1 ∧ XY ≠ blankPair ∧ XY = T.pairStartingAt (tp.get (j+1)) then
      1 + runExtFix T tp XY hi fuel (j+1)
    else 0

/-- the extension count of the inner `while` of the run-scanning loops that
compare the pair at the current offset against the next one
(`new_high_frequency_queue`):
`while(j < hi-1 && pair(TP[j]) != blank && pair(TP[j]) == pair(TP[j+1])) j++`. -/
def runExtChain (T : SkippableText) (tp : TextPositions) (hi : Nat) :
    Nat → Nat → Nat
  | 0, _ => 0
  | fuel+1, j =>
    if j < hi - 1 ∧ T.pairStartingAt (tp.get j) ≠ blankPair ∧
        T.pairStartingAt (tp.get j) = T.pairStartingAt (tp.get (j+1)) then
      1 + runExtChain T tp hi fuel (j+1)
    else 0

/-- the run scan of `synchronize`: decompose `TP[lo..hi)` into runs of equal
pairs, record the run length of `AB`, insert every other pair whose run
reaches the minimum frequency, and refresh `AB` itself. -/
def syncScan {Qt : Type} (ops : QOps Qt) (T : SkippableText) (tp : TextPositions)
    (AB : CPair) (hi : Nat) : Nat → Nat → Qt × Nat → Qt × Nat
  | 0, _, st => st
  | fuel+1, j, st =>
    if j ≥ hi then st
    else
      let p := j
      let XY := T.pairStartingAt (tp.get j)
      let e := runExtFix T tp XY hi hi j
      let k := e + 1
      let freq' := if XY = AB then k else st.2
      let Q' :=
        if k ≥ ops.minFreq st.1 then
          if XY ≠ AB then ops.insert st.1 { ab := XY, P := p, L := k, F := k }
          else ops.update st.1 { ab := AB, P := p, L := k, F := k }
        else st.1
      syncScan ops T tp AB hi fuel (j + e + 1) (Q', freq')

/-- `synchronize(Q, TP, T, AB)`: re-cluster the range recorded for `AB`, scan
it for runs, and remove `AB` when its refreshed in-range count fell below the
minimum frequency. -/
def synchronize {Qt : Type} (ops : QOps Qt) (Q : Qt) (tp : TextPositions)
    (T : SkippableText) (AB : CPair) : Qt × TextPositions :=
  let tr := ops.getT Q AB
  let P := tr.1
  let L := tr.2.1
  let tp' := tp.cluster T P (P + L)
  let r := syncScan ops T tp' AB (P + L) (L + 1) P (Q, 0)
  let Q' := if r.2 < ops.minFreq r.1 then ops.remove r.1 AB else r.1
  (Q', tp')

/-- `synchro_or_remove_pair(Q, TP, T, ab)`: synchronize `ab`'s range when at
most half its tracked entries are still valid; otherwise drop `ab` if its
frequency fell below the cutoff, else leave it alone. -/
def synchroOrRemove {Qt : Type} (ops : QOps Qt) (Q : Qt) (tp : TextPositions)
    (T : SkippableText) (ab : CPair) : Qt × TextPositions :=
  let tr := ops.getT Q ab
  let F := tr.2.2
  let L := tr.2.1
  if F ≤ L / 2 then synchronize ops Q tp T ab
  else if F < ops.minFreq Q then (ops.remove Q ab, tp)
  else (Q, tp)

/-- engine state threaded through the substitution rounds; `freqs` records the
value returned by each round (the selected pair's `F_ab` at selection). -/
structure EngineSt (Qt : Type) where
  Q : Qt
  tp : TextPositions
  T : SkippableText
  G : List CPair
  X : Nat
  freqs : List Nat

/-- the replace pass of `substitution_round`: for each tracked offset still
starting `AB`, capture the contexts `xA` and `By`, replace the occurrence by
`X`, and decrease the two neighbor pairs when they are queued and not `AB`. -/
def replacePass {Qt : Type} (ops : QOps Qt) (tp : TextPositions) (AB : CPair)
    (X P L : Nat) (T0 : SkippableText) (Q0 : Qt) : SkippableText × Qt :=
  (List.range L).foldl
    (fun (st : SkippableText × Qt) o =>
      let T := st.1
      let i := tp.get (P + o)
      if T.pairStartingAt i = AB then
        let xA := T.pairEndingAt i
        let By := T.nextPair i
        let T' := T.replace i X
        let Q1 := if ops.contains st.2 xA ∧ xA ≠ AB then ops.decrease st.2 xA else st.2
        let Q2 := if ops.contains Q1 By ∧ By ≠ AB then ops.decrease Q1 By else Q1
        (T', Q2)
      else st)
    (T0, Q0)

/-- the resynchronize pass of `substitution_round`: for each tracked offset
now holding `X`, reconstruct the disappeared neighbor pairs `xA` and `By`
(handling the overlap cases `x = X` and `y = X`) and synchronize-or-remove
each of them if queued and distinct from `AB`. -/
def resyncPass {Qt : Type} (ops : QOps Qt) (T : SkippableText) (AB : CPair)
    (X P L : Nat) (Q0 : Qt) (tp0 : TextPositions) : Qt × TextPositions :=
  (List.range L).foldl
    (fun (st : Qt × TextPositions) o =>
      let i := st.2.get (P + o)
      if T.get i = X then
        let xX := T.pairEndingAt i
        let Xy := T.pairStartingAt i
        let x := if xX.1 = X then AB.2 else xX.1
        let y := if Xy.2 = X then AB.1 else Xy.2
        let xA := if xX = blankPair then xX else (x, AB.1)
        let By := if Xy = blankPair then Xy else (AB.2, y)
        let st1 := if ops.contains st.1 By ∧ By ≠ AB
                   then synchroOrRemove ops st.1 st.2 T By else st
        let st2 := if ops.contains st1.1 xA ∧ xA ≠ AB
                   then synchroOrRemove ops st1.1 st1.2 T xA else st1
        st2
      else st)
    (Q0, tp0)

/-- `substitution_round(Q, TP, T)`: select the maximum pair, append the new
grammar rule, run the replace pass and the resynchronize pass, synchronize
the replaced pair's own range (which removes it), and mint the next symbol. -/
def substitutionRound {Qt : Type} (ops : QOps Qt) (st : EngineSt Qt) :
    EngineSt Qt :=
  let m := ops.qmax st.Q
  let AB := m.1
  let Q := m.2
  let G' := st.G ++ [AB]
  let tr := ops.getT Q AB
  let P := tr.1
  let L := tr.2.1
  let F := tr.2.2
  let rp := replacePass ops st.tp AB st.X P L st.T Q
  let T' := rp.1
  let rs := resyncPass ops T' AB st.X P L rp.2 st.tp
  let sy := synchronize ops rs.1 rs.2 T' AB
  { Q := sy.1, tp := sy.2, T := T', G := G', X := st.X + 1,
    freqs := st.freqs ++ [F] }

/-- the engine loop `while(Q.max() != Q.nullpair()) substitution_round(...)`,
with fuel. -/
def engineLoop {Qt : Type} (ops : QOps Qt) : Nat → EngineSt Qt → EngineSt Qt
  | 0, st => st
  | fuel+1, st =>
    let m := ops.qmax st.Q
    let st' := { st with Q := m.2 }
    if m.1 = nullPair then st'
    else engineLoop ops fuel (substitutionRound ops st')

/-- floor of `n ^ 0.66` (the phase cutoff `std::pow(n, alpha)` with
`alpha = 0.66`), with the exact rational exponent 33/50 standing in for the
C++ double computation. -/
def pow066 (n : Nat) : Nat :=
  (List.range (n + 1)).foldl (fun acc k => if k ^ 50 ≤ n ^ 33 then k else acc) 0

/-- the fill loop of `new_high_frequency_queue` (its first pass only counts
the number of runs for a progress message and has no effect on the state). -/
def hfFillLoop (T : SkippableText) (tp : TextPositions) (minFreq : Nat) :
    Nat → Nat → HfQ → HfQ
  | 0, _, Q => Q
  | fuel+1, j, Q =>
    if j ≥ tp.size then Q
    else
      let Pab := j
      let e := runExtChain T tp tp.size tp.size j
      let k := e + 1
      let ab := if e = 0 then blankPair else T.pairStartingAt (tp.get (j + e - 1))
      let Q' := if k ≥ minFreq then Q.insert { ab := ab, P := Pab, L := k, F := k } else Q
      hfFillLoop T tp minFreq fuel (j + e + 1) Q'

/-- `new_high_frequency_queue(Q, TP, T, min_freq)`: allocate the queue with
capacity `256 + n / min_freq` and insert one record per run of length at
least `min_freq` in the clustered position index. -/
def newHighFrequencyQueue (tp : TextPositions) (T : SkippableText)
    (minFreq : Nat) : HfQ :=
  let maxD := 256 + T.size / minFreq
  hfFillLoop T tp minFreq (tp.size + 1) 0 (HfQ.init maxD minFreq)

/-- the low-frequency fill loop of `compute_repair`: scan the globally
clustered position index, counting run lengths between unequal neighbors,
and insert every run of length greater than 1 when it ends. (The final run
is never processed; it is always the cluster of offsets with no pair.) -/
def lfFill (T : SkippableText) (tp : TextPositions) (Q0 : LfQ) : LfQ :=
  let r := (List.range (tp.size - 1)).foldl
    (fun (st : Nat × LfQ) o =>
      let i := o + 1
      if T.pairStartingAt (tp.get i) = T.pairStartingAt (tp.get (i-1)) then
        (st.1 + 1, st.2)
      else
        let f := st.1
        let Q' :=
          if f > 1 then
            let ab := T.pairStartingAt (tp.get (i-1))
            st.2.insert { ab := ab, P := i - f, L := f, F := f }
          else st.2
        (1, Q'))
    (1, Q0)
  r.2

/-- the observable outcome of `compute_repair`, together with the final
engine state (used to state claims about termination and the final text). -/
structure RepairRun where
  A : List Nat
  G : List CPair
  Tc : List Nat
  T : SkippableText
  hfq : HfQ
  lfq : LfQ
  hfFreqs : List Nat
  lfFreqs : List Nat
  minHighFrequency : Nat
  sigma : Nat

/-- `compute_repair` on a non-empty byte string: compute the cutoff
`max(2, n^0.66)`, fill the text through the first-occurrence alphabet map,
build the position index and the high-frequency queue, run the
high-frequency rounds, re-fill and re-cluster the position index, fill the
low-frequency queue, run the low-frequency rounds, and emit the live text. -/
def computeRepairCore (fuelHF fuelLF : Nat) (w : List Nat) : RepairRun :=
  let n := w.length
  let mh0 := pow066 n
  let minHF := if mh0 < 2 then 2 else mh0
  let fill := w.foldl
    (fun (st : List (Nat × Nat) × List Nat × Nat × SkippableText × Nat) c =>
      let st :=
        if assocGet st.1 c NULLI = NULLI then
          (assocSet st.1 c st.2.2.1, st.2.1 ++ [c], st.2.2.1 + 1, st.2.2.2)
        else st
      (st.1, st.2.1, st.2.2.1,
        st.2.2.2.1.set st.2.2.2.2 (assocGet st.1 c NULLI), st.2.2.2.2 + 1))
    ([], [], 0, SkippableText.init n, 0)
  let A := fill.2.1
  let sigma := fill.2.2.1
  let T0 := fill.2.2.2.1
  let tp0 := TextPositions.init T0 minHF
  let hfq0 := newHighFrequencyQueue tp0 T0 minHF
  let hf := engineLoop hfOps fuelHF
    { Q := hfq0, tp := tp0, T := T0, G := [], X := sigma, freqs := [] }
  let tp1 := (hf.tp.fillWithTextPositions hf.T).clusterAll hf.T
  let lfq0 := lfFill hf.T tp1 (LfQ.init (minHF - 1))
  let lf := engineLoop lfOps fuelLF
    { Q := lfq0, tp := tp1, T := hf.T, G := hf.G, X := hf.X, freqs := [] }
  let Tc := (List.range lf.T.size).foldl
    (fun acc i => if ¬ lf.T.isBlank i then acc ++ [lf.T.get i] else acc) []
  { A := A, G := lf.G, Tc := Tc, T := lf.T, hfq := hf.Q, lfq := lf.Q,
    hfFreqs := hf.freqs, lfFreqs := lf.freqs,
    minHighFrequency := minHF, sigma := sigma }

/-- `compute_repair` at the top level. On the empty input the constructors'
preconditions fail (`skippable_text` asserts `n > 0`, and the position-index
constructor underflows `T->size() - 1` and reads out of bounds), so no triple
is produced: the result is `none`. -/
def repairFuel (fuelHF fuelLF : Nat) (w : List Nat) : Option RepairRun :=
  if w.length = 0 then none else some (computeRepairCore fuelHF fuelLF w)

/-! ## The decompressor (`decompress` in `rp.cpp`)

Stack-based expansion of the triple `(A, G, T_c)`: push each symbol of `T_c`
in turn and repeatedly pop, emitting `A[X]` for alphabet symbols and pushing
the two right-hand symbols of `G[X - |A|]` for non-terminals. -/

/-- the number of pops the inner `while` performs for one pushed symbol
(the size of the symbol's derivation tree); for a well-formed grammar the
recursion depth is below `X + 1`. -/
def nodesF (G : List CPair) (sigma : Nat) : Nat → Nat → Nat
  | 0, _ => 1
  | fuel+1, X =>
    if X < sigma then 1
    else
      let ab := G.getD (X - sigma) (0, 0)
      1 + nodesF G sigma fuel ab.1 + nodesF G sigma fuel ab.2

/-- derivation-tree size of a symbol. -/
def nodesD (G : List CPair) (sigma X : Nat) : Nat := nodesF G sigma (X + 1) X

/-- the inner `while(!S.empty())` loop of `decompress`, with fuel: pop the
top symbol; emit `A[X]` if it is an alphabet symbol, else push the two
symbols of its rule. -/
def decompressRun (A : List Nat) (G : List CPair) :
    Nat → List Nat → List Nat → List Nat
  | 0, _, buf => buf
  | fuel+1, S, buf =>
    match S with
    | [] => buf
    | X :: S2 =>
      if X < A.length then decompressRun A G fuel S2 (buf ++ [A.getD X 0])
      else
        let ab := G.getD (X - A.length) (0, 0)
        decompressRun A G fuel (ab.1 :: ab.2 :: S2) buf

/-- `decompress(A, G, Tc)`: expand the symbols of `Tc` one after the other,
each inner loop running until the stack empties again (its iteration count
is the symbol's derivation-tree size). -/
def decompress (A : List Nat) (G : List CPair) (Tc : List Nat) : List Nat :=
  Tc.foldl (fun buf X => decompressRun A G (nodesD G A.length X) [X] buf) []

/-- the expansion of one symbol into alphabet-symbol indices (the reference
semantics the stack machine is proved against). -/
def expandF (G : List CPair) (sigma : Nat) : Nat → Nat → List Nat
  | 0, _ => []
  | fuel+1, X =>
    if X < sigma then [X]
    else
      let ab := G.getD (X - sigma) (0, 0)
      expandF G sigma fuel ab.1 ++ expandF G sigma fuel ab.2

/-- full expansion of a symbol under a grammar. -/
def expandSym (G : List CPair) (sigma X : Nat) : List Nat := expandF G sigma (X + 1) X


/-! ## `hf_queue` of `hf_queue.hpp` (first version; used by `repair.cpp`)

The queue is a pair of a hash `H : pair -> arena index` and the arena linked
list `B`. Its `decrease` removes the pair itself as soon as the decremented
frequency falls below the queue minimum, compacting the arena when it becomes
less than half full. -/

structure HfQueueHpp where
  maxSize : Nat
  minFreq : Nat
  B : LLVec
  H : List (CPair × Nat)
  deriving Repr, DecidableEq

namespace HfQueueHpp

/-- `hf_queue(max_size, min_freq)`. -/
def init (maxSize minFreq : Nat) : HfQueueHpp :=
  { maxSize := maxSize, minFreq := minFreq, B := LLVec.init, H := [] }

/-- `contains(ab)`. -/
def contains (q : HfQueueHpp) (ab : CPair) : Bool := assocMem q.H ab

/-- `operator[](ab)`: the triple `<P_ab, L_ab, F_ab>` stored at `B[H[ab]]`. -/
def getT (q : HfQueueHpp) (ab : CPair) : Nat × Nat × Nat :=
  let e := q.B.get (assocGet q.H ab 0)
  (e.P, e.L, e.F)

/-- the `F_ab` component of `operator[](ab)`. -/
def getF (q : HfQueueHpp) (ab : CPair) : Nat := (q.getT ab).2.2

/-- `size()`. -/
def size (q : HfQueueHpp) : Nat := q.B.size

/-- `remove(ab)`. -/
def remove (q : HfQueueHpp) (ab : CPair) : HfQueueHpp :=
  { q with B := q.B.remove (assocGet q.H ab 0), H := assocDel q.H ab }

/-- `compact_ll()`: compact the arena and rewrite the hash indices. -/
def compactLl (q : HfQueueHpp) : HfQueueHpp :=
  let B2 := q.B.compact
  let H2 := (List.range B2.size).foldl
    (fun h i => assocSet h (B2.get i).ab i) q.H
  { q with B := B2, H := H2 }

/-- `decrease(ab)`: decrease `B[H[ab]].F_ab` by 1; if the frequency becomes
smaller than the queue minimum, remove the pair, and compact the arena when
more than half of its entries are empty. -/
def decrease (q : HfQueueHpp) (ab : CPair) : HfQueueHpp :=
  let idx := assocGet q.H ab 0
  let e := q.B.get idx
  let q1 := { q with B := q.B.setEl idx { e with F := dec32 e.F } }
  if (q1.B.get idx).F < q1.minFreq then
    let q2 := q1.remove ab
    if q2.B.size < q2.B.capacity / 2 then q2.compactLl else q2
  else q1

/-- `insert(el)` (this early version constructs the stored element from the
pair alone: `B.insert(ab)` stores `<ab, 0, 0, 0>`). -/
def insert (q : HfQueueHpp) (el : LLEl) : HfQueueHpp :=
  let r := q.B.insert { ab := el.ab, P := 0, L := 0, F := 0 }
  { q with B := r.2, H := assocIns q.H el.ab r.1 }

end HfQueueHpp

/-! ## The replace pass of `substitution_round` in `repair.cpp`

This older engine guards `decrease(By)` with `xA != AB` (where the guard on
`xA` uses `xA != AB`): the third conjunct tests the wrong neighbor. -/

/-- for each tracked offset of `TP[P..P+L)` still starting `AB`: capture
`xA` and `By`, replace by `X`, and decrease the neighbors under the guards
written in `repair.cpp` (the guard of `decrease(By)` tests `xA != AB`). -/
def replacePassRepairCpp (tp : TextPositions) (AB : CPair) (X P L : Nat)
    (T0 : SkippableText) (Q0 : HfQueueHpp) : SkippableText × HfQueueHpp :=
  (List.range L).foldl
    (fun (st : SkippableText × HfQueueHpp) o =>
      let T := st.1
      let i := tp.get (P + o)
      if T.pairStartingAt i = AB then
        let xA := T.pairEndingAt i
        let By := T.nextPair i
        let T2 := T.replace i X
        let Q1 := if xA ≠ blankPair ∧ st.2.contains xA ∧ xA ≠ AB
                  then st.2.decrease xA else st.2
        let Q2 := if By ≠ blankPair ∧ Q1.contains By ∧ xA ≠ AB
                  then Q1.decrease By else Q1
        (T2, Q2)
      else st)
    (T0, Q0)

/-- the guard of `decrease(By)` as written in `repair.cpp` (line 288). -/
def codeByGuard (Q : HfQueueHpp) (xA By AB : CPair) : Bool :=
  By ≠ blankPair ∧ Q.contains By ∧ xA ≠ AB

/-- Modelled from the spec: the claimed guard of `decrease(By)` — `By` is
non-blank, `By` is in the queue, and `By` differs from `AB` (symmetric to
the guard on `xA`). -/
def specByGuard (Q : HfQueueHpp) (By AB : CPair) : Bool :=
  By ≠ blankPair ∧ Q.contains By ∧ By ≠ AB

/-! ## Default output name (`main` of `rp.cpp`, decompress mode) -/

/-- `out.find_last_of(".")`. -/
def findLastDot (inp : List Char) : Option Nat :=
  (List.range inp.length).foldl
    (fun acc i => if inp.getD i ' ' = '.' then some i else acc) none

/-- the default decompression output name computed by `main`: locate the
last dot; if there is one, strip the extension when it equals `.rp` and
append `.decompressed` otherwise; a name without any dot is left unchanged. -/
def defaultDecompressOut (inp : List Char) : List Char :=
  match findLastDot inp with
  | none => inp
  | some dot =>
    let name := inp.take dot
    let ext := (inp.drop dot).take (inp.length - dot)
    if ext = ['.', 'r', 'p'] then name else inp ++ ".decompressed".toList

/-- Modelled from the spec: the claimed default output name — "if `<input>`
ends in `.rp`, default output strips the extension; otherwise appends
`.decompressed`." -/
def specDefaultDecompressOut (inp : List Char) : List Char :=
  if ['.', 'r', 'p'].isSuffixOf inp then inp.take (inp.length - 3)
  else inp ++ ".decompressed".toList

/-! ## Helpers for stating the claims -/

/-- the ordered pairs of adjacent symbols of a sequence. -/
def adjacentPairs (l : List Nat) : List CPair := l.zip l.tail

/-- test that a sequence is non-increasing. -/
def nonIncreasingB : List Nat → Bool
  | [] => true
  | [_] => true
  | a :: b :: r => decide (b ≤ a) && nonIncreasingB (b :: r)

/-- a sequence is non-increasing. -/
def nonIncreasing (l : List Nat) : Prop := nonIncreasingB l = true

instance (l : List Nat) : Decidable (nonIncreasing l) :=
  inferInstanceAs (Decidable (nonIncreasingB l = true))


/-! ## Concrete instances used by the claims -/

/-- the byte string `"cabcabdab"`. -/
def wC2 : List Nat := [99, 97, 98, 99, 97, 98, 100, 97, 98]

/-- the run of `compute_repair` on `"cabcabdab"`. -/
def repairRunC2 : RepairRun := computeRepairCore 30 30 wC2

/-- the byte string `"abaaabbb"`. -/
def wC7 : List Nat := [97, 98, 97, 97, 97, 98, 98, 98]

/-- the run of `compute_repair` on `"abaaabbb"`. -/
def repairRunC7 : RepairRun := computeRepairCore 30 30 wC7

/-- the text `"aaaa"` as filled by `repair.cpp` (alphabet map `a -> 0`). -/
def textAAAA : SkippableText :=
  (((((SkippableText.init 4).set 0 0).set 1 0).set 2 0).set 3 0)

/-- a position index listing the offsets `0, 1, 2` (the cluster of the pair
`(0,0)` of `"aaaa"`). -/
def tpC3 : TextPositions := { TP := [0, 1, 2], maxd := 256, Htab := [] }

/-- an `hf_queue` (of `repair.cpp`) holding the pair `(0,0)` with
`P = 0, L = 3, F = 3` and minimum frequency 2. -/
def qC3 : HfQueueHpp :=
  { maxSize := 10, minFreq := 2,
    B := { V := [{ ab := (0, 0), P := 0, L := 3, F := 3 }],
           nextEl := [NULLI], prevEl := [NULLI],
           n := 1, firstEl := 0, firstEmpty := NULLI },
    H := [((0, 0), 0)] }

/-- an `hf_queue` holding the pair `(0,1)` with `F = 2` at the queue's own
minimum frequency 2. -/
def qC4 : HfQueueHpp :=
  { maxSize := 10, minFreq := 2,
    B := { V := [{ ab := (0, 1), P := 0, L := 5, F := 2 }],
           nextEl := [NULLI], prevEl := [NULLI],
           n := 1, firstEl := 0, firstEmpty := NULLI },
    H := [((0, 1), 0)] }


/-! ## Abstract view of a skippable text

A reachable skippable text is, up to representation, a list of live symbols
each followed by a blank gap; the gap records its length at its first and
last position (with arbitrary stale values in between). The operations are
proved against this abstraction. -/

/-- one entry per live position: the live symbol and the stored contents of
the blank gap that follows it. -/
abbrev AbsText := List (Nat × List Nat)

/-- the symbol array encoded by an abstract text. -/
def encT (abs : AbsText) : List Nat := (abs.map (fun e => e.1 :: e.2)).flatten

/-- the blank bitmap encoded by an abstract text. -/
def encB (abs : AbsText) : List Bool :=
  (abs.map (fun e => false :: e.2.map (fun _ => true))).flatten

/-- the concrete arrays of `S` are the encoding of `abs` (the
`non_blank_characters` counter is not constrained: it is pure bookkeeping). -/
def TextEnc (S : SkippableText) (abs : AbsText) : Prop :=
  S.T = encT abs ∧ S.blank = encB abs ∧ S.n = (encT abs).length

/-- a well-formed gap stores its length at its first and its last position
(trivially true of the empty gap). -/
def gapWF (g : List Nat) : Prop :=
  g.getD 0 0 = g.length ∧ g.getD (g.length - 1) 0 = g.length

/-- well-formedness of an abstract text: live symbols are not the `BLANK`
sentinel (the structure's `set` asserts `c != BLANK`) and all gaps are
well-formed. -/
def absWF (abs : AbsText) : Prop := ∀ e ∈ abs, e.1 ≠ BLANK ∧ gapWF e.2

/-- the representation invariant of the skippable text. -/
def TextInv (S : SkippableText) : Prop := ∃ abs, TextEnc S abs ∧ absWF abs

/-- concrete position of the `k`-th live entry. -/
def posOf : AbsText → Nat → Nat
  | _, 0 => 0
  | [], _+1 => 0
  | e :: rest, k+1 => (1 + e.2.length) + posOf rest k

/-- the merged gap written by `replace`: the old gap, the erased symbol's
slot and the following gap, with the merged length (`g.length + 1 +
g2.length`) stored at both ends (indices `0` and `g.length + g2.length`). -/
def mergedGap (g : List Nat) (s2 : Nat) (g2 : List Nat) : List Nat :=
  ((g ++ s2 :: g2).set 0 (g.length + 1 + g2.length)).set
    (g.length + g2.length) (g.length + 1 + g2.length)

/-- the abstract effect of `replace` at live index `k`: entry `k` now holds
the new symbol followed by the merged gap, and entry `k+1` disappears. -/
def absReplace (abs : AbsText) (k : Nat) (X : Nat) : AbsText :=
  abs.take k ++
    [(X, mergedGap (abs.getD k (0, [])).2 (abs.getD (k+1) (0, [])).1
        (abs.getD (k+1) (0, [])).2)] ++
    abs.drop (k + 2)

/-- `[l, r]` is a maximal run of blank positions. -/
def maxRun (S : SkippableText) (l r : Nat) : Prop :=
  l ≤ r ∧ r < S.n ∧ (∀ j, l ≤ j → j ≤ r → S.isBlank j = true) ∧
  (l = 0 ∨ S.isBlank (l - 1) = false) ∧
  (r = S.n - 1 ∨ S.isBlank (r + 1) = false)

/-- every maximal blank run stores its total length in the symbol array at
both its first and its last position. -/
def runsStoreLen (S : SkippableText) : Prop :=
  ∀ l r, maxRun S l r → S.rawT l = r + 1 - l ∧ S.rawT r = r + 1 - l

/-- expansion of a symbol sequence under a grammar. -/
def expandList (G : List CPair) (sigma : Nat) (l : List Nat) : List Nat :=
  (l.map (expandSym G sigma)).flatten

/-- grammar well-formedness: the right-hand symbols of the `k`-th rule are
strictly below the symbol it defines. -/
def GWF (sigma : Nat) (G : List CPair) : Prop :=
  ∀ k, k < G.length → (G.getD k (0, 0)).1 < sigma + k ∧ (G.getD k (0, 0)).2 < sigma + k

/-- every pair of a list is bounded by `bound` (or is the reserved null
pair, which the engine loop never selects). -/
def pairsBelow (bound : Nat) (ps : List CPair) : Prop :=
  ∀ p ∈ ps, (p.1 < bound ∧ p.2 < bound) ∨ p = nullPair

/-- every pair value stored anywhere in the high-frequency queue. -/
def hfPairs (q : HfQ) : List CPair := q.pairsInHash ++ q.H.map (fun e => e.1)

/-- every pair value stored anywhere in the low-frequency queue (including
the `ab` fields of free arena slots). -/
def lfPairs (q : LfQ) : List CPair :=
  (q.F.map (fun Fl => Fl.V.map (fun e => e.ab))).flatten ++ q.H.map (fun e => e.1)

/-- the live symbols of a symbol array and a blank bitmap, structurally. -/
def liveOfL : List Nat → List Bool → List Nat
  | t :: T, false :: B => t :: liveOfL T B
  | _ :: T, true :: B => liveOfL T B
  | _, _ => []

/-- a concrete skippable text with one blank run of length 3 (positions 2-4,
storing the length 3 at both ends), used to instantiate the text-invariant
claims. -/
def SC9 : SkippableText :=
  { n := 6, T := [5, 6, 3, 9, 3, 7],
    blank := [false, false, true, true, true, false], nonBlank := 3 }

/-- the abstract view of `SC9`. -/
def absC9 : AbsText := [(5, []), (6, [3, 9, 3]), (7, [])]

/-- the all-live text `[0, 1, 0, 1]` used as the `replace` counterexample. -/
def SC5 : SkippableText :=
  { n := 4, T := [0, 1, 0, 1],
    blank := [false, false, false, false], nonBlank := 4 }

/-- well-formedness of a symbol relative to an alphabet size and a grammar:
terminals are below `sigma`, and a non-terminal has an in-range rule whose
two right-hand symbols are strictly smaller and themselves well-formed.
Exactly the symbols that the engine can ever write into the text are
well-formed (a garbage rule appended from a corrupted queue defines a symbol
that never reaches the text). -/
inductive SymWF (sigma : Nat) (G : List CPair) : Nat → Prop
  | base : ∀ X, X < sigma → SymWF sigma G X
  | rule : ∀ X, sigma ≤ X → X - sigma < G.length →
      (G.getD (X - sigma) (0, 0)).1 < X →
      (G.getD (X - sigma) (0, 0)).2 < X →
      SymWF sigma G (G.getD (X - sigma) (0, 0)).1 →
      SymWF sigma G (G.getD (X - sigma) (0, 0)).2 →
      SymWF sigma G X

/-- the engine-state invariant threading the decode equation through the
substitution rounds: the text is a well-formed encoded text whose live
symbols are in range and well-formed, and expanding them yields the original
(mapped) input `w'`. -/
def EngInv (sigma : Nat) (w' : List Nat) {Qt : Type} (st : EngineSt Qt) : Prop :=
  1 ≤ sigma ∧ st.X = sigma + st.G.length ∧
  ∃ abs, TextEnc st.T abs ∧ absWF abs ∧
    (∀ e ∈ abs, e.1 < st.X ∧ SymWF sigma st.G e.1) ∧
    expandList st.G sigma (abs.map (fun e => e.1)) = w'

/-- the invariant carried through the replace pass of one substitution round:
the text is an encoded well-formed abstract text whose live symbols are below
the bound `b` and well-formed over the (already extended) grammar, and their
expansion is `w'`. -/
def PassInv (sigma : Nat) (G' : List CPair) (w' : List Nat) (b : Nat)
    (T : SkippableText) : Prop :=
  ∃ abs, TextEnc T abs ∧ absWF abs ∧
    (∀ e ∈ abs, e.1 < b ∧ SymWF sigma G' e.1) ∧
    expandList G' sigma (abs.map (fun e => e.1)) = w'

/-- one step of the alphabet-remapping fill loop of `compute_repair` (the
same function that `computeRepairCore` folds over the input); the state is
`(H, A, sigma, T, j)`. -/
def fillStep (st : List (Nat × Nat) × List Nat × Nat × SkippableText × Nat)
    (c : Nat) : List (Nat × Nat) × List Nat × Nat × SkippableText × Nat :=
  let st :=
    if assocGet st.1 c NULLI = NULLI then
      (assocSet st.1 c st.2.2.1, st.2.1 ++ [c], st.2.2.1 + 1, st.2.2.2)
    else st
  (st.1, st.2.1, st.2.2.1,
    st.2.2.2.1.set st.2.2.2.2 (assocGet st.1 c NULLI), st.2.2.2.2 + 1)

/-- the invariant of the fill loop: `sigma` counts the distinct characters
seen so far (one slot of `A` each), the text arrays keep their initial
length and all-live bitmap, the map `H` inverts `A`, and the first `j`
text positions hold the remapped input. -/
def FillSt (n : Nat) (w : List Nat)
    (st : List (Nat × Nat) × List Nat × Nat × SkippableText × Nat) : Prop :=
  st.2.2.1 = st.2.1.length ∧
  st.2.2.1 ≤ st.2.2.2.2 ∧
  (st.2.2.2.2 = 0 ∨ 1 ≤ st.2.2.1) ∧
  st.2.2.2.1.n = n ∧
  st.2.2.2.1.blank = List.replicate n false ∧
  st.2.2.2.1.T.length = n ∧
  (∀ c, assocGet st.1 c NULLI ≠ NULLI →
      assocGet st.1 c NULLI < st.2.2.1 ∧
      st.2.1.getD (assocGet st.1 c NULLI) 0 = c) ∧
  (∀ i, i < st.2.2.2.2 →
      st.2.2.2.1.T.getD i 0 < st.2.2.1 ∧
      st.2.1.getD (st.2.2.2.1.T.getD i 0) 0 = w.getD i 0)

/-- the result of the fill loop of `compute_repair` (definitionally the
`fill` of `computeRepairCore`). -/
def repairFill (w : List Nat) :
    List (Nat × Nat) × List Nat × Nat × SkippableText × Nat :=
  w.foldl fillStep ([], [], 0, SkippableText.init w.length, 0)

/-- the cutoff `min_high_frequency` (definitionally the `minHF` of
`computeRepairCore`). -/
def repairMinHF (w : List Nat) : Nat :=
  if pow066 w.length < 2 then 2 else pow066 w.length

/-- the engine state after the high-frequency rounds (definitionally the
`hf` of `computeRepairCore`). -/
def repairHf (fuelHF : Nat) (w : List Nat) : EngineSt HfQ :=
  engineLoop hfOps fuelHF
    { Q := newHighFrequencyQueue
        (TextPositions.init (repairFill w).2.2.2.1 (repairMinHF w))
        (repairFill w).2.2.2.1 (repairMinHF w),
      tp := TextPositions.init (repairFill w).2.2.2.1 (repairMinHF w),
      T := (repairFill w).2.2.2.1, G := [], X := (repairFill w).2.2.1,
      freqs := [] }

/-- the re-clustered position index before the low-frequency phase
(definitionally the `tp1` of `computeRepairCore`). -/
def repairTp1 (fuelHF : Nat) (w : List Nat) : TextPositions :=
  ((repairHf fuelHF w).tp.fillWithTextPositions (repairHf fuelHF w).T).clusterAll
    (repairHf fuelHF w).T

/-- the engine state after the low-frequency rounds (definitionally the
`lf` of `computeRepairCore`). -/
def repairLf (fuelHF fuelLF : Nat) (w : List Nat) : EngineSt LfQ :=
  engineLoop lfOps fuelLF
    { Q := lfFill (repairHf fuelHF w).T (repairTp1 fuelHF w)
        (LfQ.init (repairMinHF w - 1)),
      tp := repairTp1 fuelHF w, T := (repairHf fuelHF w).T,
      G := (repairHf fuelHF w).G, X := (repairHf fuelHF w).X, freqs := [] }

/-! # Supporting lemmas -/

/-- a substitution round appends exactly the selected pair to the grammar. -/
theorem substitutionRound_G {Qt : Type} (ops : QOps Qt) (s : EngineSt Qt) :
    (substitutionRound ops s).G = s.G ++ [(ops.qmax s.Q).1] := rfl

/-- the engine loop never shrinks the grammar. -/
theorem engineLoop_G_mono {Qt : Type} (ops : QOps Qt) :
    ∀ (f : Nat) (s : EngineSt Qt), s.G.length ≤ (engineLoop ops f s).G.length := by
  intro f
  induction f with
  | zero => intro s; exact Nat.le_refl _
  | succ f ih =>
    intro s
    simp only [engineLoop]
    by_cases h : (ops.qmax s.Q).1 = nullPair
    · simp [h]
    · simp only [h, if_false]
      refine Nat.le_trans ?_ (ih _)
      rw [substitutionRound_G]
      simp

/-! ## List toolkit -/

/-- preservation of an invariant along a left fold. -/
theorem foldl_inv {α β : Type} (f : β → α → β) (P : β → Prop)
    (h : ∀ b a, P b → P (f b a)) :
    ∀ (l : List α) (b : β), P b → P (l.foldl f b) := by
  intro l
  induction l with
  | nil => intro b hb; exact hb
  | cons a l ih => intro b hb; exact ih _ (h _ _ hb)

theorem getD_set_self {α : Type} (l : List α) (i : Nat) (v d : α)
    (h : i < l.length) : (l.set i v).getD i d = v := by
  rw [List.getD_eq_getElem?_getD, List.getElem?_set_self h]; rfl

theorem getD_set_ne {α : Type} (l : List α) (i j : Nat) (v d : α) (h : i ≠ j) :
    (l.set i v).getD j d = l.getD j d := by
  rw [List.getD_eq_getElem?_getD, List.getElem?_set_ne h,
    ← List.getD_eq_getElem?_getD]

theorem getD_mem' {α : Type} (l : List α) (k : Nat) (d : α) (h : k < l.length) :
    l.getD k d ∈ l := by
  rw [List.getD_eq_getElem l d h]; exact List.getElem_mem h

/-- a fold that appends the image of each element passing a test equals the
filtered map. -/
theorem foldl_filter_map {α β : Type} (p : α → Prop) [DecidablePred p]
    (f : α → β) :
    ∀ (l : List α) (acc : List β),
      l.foldl (fun acc i => if p i then acc ++ [f i] else acc) acc
        = acc ++ (l.filter (fun i => p i)).map f := by
  intro l
  induction l with
  | nil => intro acc; simp
  | cons a l ih =>
    intro acc
    by_cases h : p a
    · simp [List.foldl_cons, h, ih, List.filter_cons]
    · simp [List.foldl_cons, h, ih, List.filter_cons]

/-! ## Encoding toolkit -/

theorem encT_nil : encT [] = [] := rfl

theorem encT_cons (e : Nat × List Nat) (abs : AbsText) :
    encT (e :: abs) = e.1 :: (e.2 ++ encT abs) := by
  simp [encT]

theorem encB_nil : encB [] = [] := rfl

theorem encB_cons (e : Nat × List Nat) (abs : AbsText) :
    encB (e :: abs) = false :: (e.2.map (fun _ => true) ++ encB abs) := by
  simp [encB]

theorem encT_append (l1 l2 : AbsText) : encT (l1 ++ l2) = encT l1 ++ encT l2 := by
  simp [encT]

theorem encB_append (l1 l2 : AbsText) : encB (l1 ++ l2) = encB l1 ++ encB l2 := by
  simp [encB]

theorem encB_length (abs : AbsText) : (encB abs).length = (encT abs).length := by
  induction abs with
  | nil => rfl
  | cons e abs ih => simp [encT_cons, encB_cons, ih]

theorem posOf_nil (k : Nat) : posOf [] k = 0 := by cases k <;> rfl

theorem posOf_zero (abs : AbsText) : posOf abs 0 = 0 := by cases abs <;> rfl

theorem posOf_cons_succ (e : Nat × List Nat) (abs : AbsText) (k : Nat) :
    posOf (e :: abs) (k+1) = (1 + e.2.length) + posOf abs k := rfl

/-- the position of the `k`-th live entry is the length of the encoding of
the first `k` entries. -/
theorem posOf_take (abs : AbsText) : ∀ k, posOf abs k = (encT (abs.take k)).length := by
  induction abs with
  | nil => intro k; rw [posOf_nil]; simp [encT_nil]
  | cons e abs ih =>
    intro k
    cases k with
    | zero => simp [posOf_zero, encT_nil]
    | succ k =>
      rw [posOf_cons_succ, List.take_succ_cons, encT_cons, ih k]
      simp; omega

theorem posOf_le_length (abs : AbsText) (k : Nat) :
    posOf abs k ≤ (encT abs).length := by
  rw [posOf_take]
  have : encT (abs.take k) ++ encT (abs.drop k) = encT abs := by
    rw [← encT_append, List.take_append_drop]
  calc (encT (abs.take k)).length ≤ (encT (abs.take k)).length + (encT (abs.drop k)).length := by omega
    _ = (encT abs).length := by rw [← List.length_append, this]

theorem posOf_succ_eq (abs : AbsText) : ∀ k, k < abs.length →
    posOf abs (k+1) = posOf abs k + 1 + (abs.getD k (0, [])).2.length := by
  induction abs with
  | nil => intro k hk; simp at hk
  | cons e abs ih =>
    intro k hk
    cases k with
    | zero =>
      rw [posOf_cons_succ, posOf_zero, posOf_zero]
      simp [List.getD_cons_zero]
    | succ k =>
      have hk' : k < abs.length := by simpa using hk
      rw [posOf_cons_succ, posOf_cons_succ, ih k hk', List.getD_cons_succ]
      omega

theorem posOf_at_length (abs : AbsText) : posOf abs abs.length = (encT abs).length := by
  rw [posOf_take, List.take_length]

theorem posOf_lt_length (abs : AbsText) (k : Nat) (hk : k < abs.length) :
    posOf abs k < (encT abs).length := by
  have h1 := posOf_succ_eq abs k hk
  have h2 := posOf_le_length abs (k+1)
  omega

/-- reading the encoded arrays at a live position. -/
theorem enc_getD_live (abs : AbsText) : ∀ k, k < abs.length →
    (encT abs).getD (posOf abs k) 0 = (abs.getD k (0, [])).1 ∧
    (encB abs).getD (posOf abs k) false = false := by
  induction abs with
  | nil => intro k hk; simp at hk
  | cons e abs ih =>
    intro k hk
    cases k with
    | zero =>
      rw [posOf_zero, encT_cons, encB_cons]
      simp [List.getD_cons_zero]
    | succ k =>
      have hk' : k < abs.length := by simpa using hk
      rw [posOf_cons_succ, encT_cons, encB_cons]
      have hidx : (1 + e.2.length) + posOf abs k = (e.2.length + posOf abs k) + 1 := by omega
      rw [hidx, List.getD_cons_succ, List.getD_cons_succ, List.getD_cons_succ]
      rw [List.getD_append_right _ _ _ _ (by omega)]
      rw [List.getD_append_right _ _ _ _ (by simp)]
      simp only [List.length_map]
      have hsub : e.2.length + posOf abs k - e.2.length = posOf abs k := by omega
      rw [hsub]
      exact ih k hk'

theorem getD_map_const_true (l : List Nat) (off : Nat) (h : off < l.length) :
    (l.map (fun _ => true)).getD off false = true := by
  rw [List.getD_eq_getElem?_getD, List.getElem?_map,
    List.getElem?_eq_getElem (by simpa using h)]
  rfl

/-- reading the encoded arrays inside the gap of entry `k`. -/
theorem enc_getD_gap (abs : AbsText) : ∀ k off, k < abs.length →
    off < (abs.getD k (0, [])).2.length →
    (encT abs).getD (posOf abs k + 1 + off) 0 = (abs.getD k (0, [])).2.getD off 0 ∧
    (encB abs).getD (posOf abs k + 1 + off) false = true := by
  induction abs with
  | nil => intro k off hk; simp at hk
  | cons e abs ih =>
    intro k off hk hoff
    cases k with
    | zero =>
      rw [posOf_zero, encT_cons, encB_cons]
      simp only [List.getD_cons_zero] at hoff
      have hidx : 0 + 1 + off = off + 1 := by omega
      rw [hidx, List.getD_cons_succ, List.getD_cons_succ]
      rw [List.getD_append _ _ _ _ hoff]
      rw [List.getD_append _ _ _ _ (by simpa using hoff)]
      exact ⟨by simp [List.getD_cons_zero], getD_map_const_true _ _ hoff⟩
    | succ k =>
      have hk' : k < abs.length := by simpa using hk
      simp only [List.getD_cons_succ] at hoff ⊢
      rw [posOf_cons_succ, encT_cons, encB_cons]
      have hidx : (1 + e.2.length) + posOf abs k + 1 + off
          = (e.2.length + (posOf abs k + 1 + off)) + 1 := by omega
      rw [hidx, List.getD_cons_succ, List.getD_cons_succ]
      rw [List.getD_append_right _ _ _ _ (by omega)]
      rw [List.getD_append_right _ _ _ _ (by simp)]
      simp only [List.length_map]
      have hsub : e.2.length + (posOf abs k + 1 + off) - e.2.length
          = posOf abs k + 1 + off := by omega
      rw [hsub]
      exact ih k off hk' hoff

/-- every position below the total length lies in the block of some entry. -/
theorem pos_decomp (abs : AbsText) : ∀ p, p < (encT abs).length →
    ∃ k off, k < abs.length ∧ off ≤ (abs.getD k (0, [])).2.length ∧
      p = posOf abs k + off := by
  induction abs with
  | nil => intro p hp; simp [encT_nil] at hp
  | cons e abs ih =>
    intro p hp
    rw [encT_cons] at hp
    simp only [List.length_cons, List.length_append] at hp
    by_cases hple : p ≤ e.2.length
    · exact ⟨0, p, by simp, by simpa [List.getD_cons_zero] using hple,
        by rw [posOf_zero]; omega⟩
    · have hp' : p - (1 + e.2.length) < (encT abs).length := by omega
      obtain ⟨k, off, hk, hoff, heq⟩ := ih _ hp'
      refine ⟨k + 1, off, by simpa using hk, ?_, ?_⟩
      · simpa [List.getD_cons_succ] using hoff
      · rw [posOf_cons_succ]; omega

/-! ## Characterizing `pair_starting_at` on encoded texts -/

theorem zero_ne_BLANK : (0 : Nat) ≠ BLANK := by decide

theorem psa_blank (S : SkippableText) (i : Nat) (h : S.isBlank i = true) :
    S.pairStartingAt i = blankPair := by
  unfold SkippableText.pairStartingAt
  split
  · rfl
  · have hg : S.get i = BLANK := by simp [SkippableText.get, h]
    rw [if_pos hg]

theorem psa_last (S : SkippableText) (i : Nat) (h : i = S.n - 1) :
    S.pairStartingAt i = blankPair := by
  unfold SkippableText.pairStartingAt
  rw [if_pos (Or.inl h)]

theorem psa_oob (S : SkippableText) (i : Nat) (hT : S.T.length ≤ i)
    (hB : S.blank.length ≤ i) (_hn : S.n ≤ i) (hne : i ≠ S.n - 1) :
    S.pairStartingAt i = (0, 0) := by
  have h1 : S.isBlank (i+1) = false := by
    unfold SkippableText.isBlank
    exact List.getD_eq_default _ _ (by omega)
  have h0 : S.isBlank i = false := by
    unfold SkippableText.isBlank
    exact List.getD_eq_default _ _ hB
  have h2 : S.rawT i = 0 := by
    unfold SkippableText.rawT
    exact List.getD_eq_default _ _ hT
  have h3 : S.rawT (i+1) = 0 := by
    unfold SkippableText.rawT
    exact List.getD_eq_default _ _ (by omega)
  have h4 : S.get i = 0 := by simp [SkippableText.get, h0, h2]
  unfold SkippableText.pairStartingAt
  rw [if_neg (by simp [hne, h1]), if_neg (by rw [h4]; exact zero_ne_BLANK)]
  simp [h1, h2, h3]

/-- every in-range non-blank position of an encoded text is the position of
some live entry. -/
theorem live_pos (S : SkippableText) (abs : AbsText) (hT : TextEnc S abs)
    (i : Nat) (hin : i < S.n) (hnb : S.isBlank i = false) :
    ∃ k, k < abs.length ∧ i = posOf abs k := by
  obtain ⟨hTT, hTB, hTn⟩ := hT
  obtain ⟨k, off, hk, hoff, heq⟩ := pos_decomp abs i (by omega)
  cases hoffz : off with
  | zero => exact ⟨k, hk, by omega⟩
  | succ off' =>
    exfalso
    have hgap := (enc_getD_gap abs k off' hk (by omega)).2
    have hblk : S.isBlank (posOf abs k + 1 + off') = true := by
      unfold SkippableText.isBlank
      rw [hTB]
      exact hgap
    have hidx : posOf abs k + 1 + off' = i := by omega
    rw [hidx, hnb] at hblk
    exact Bool.noConfusion hblk

theorem psa_live (S : SkippableText) (abs : AbsText) (hT : TextEnc S abs)
    (hW : absWF abs) (k : Nat) (hk : k + 1 < abs.length) :
    S.pairStartingAt (posOf abs k)
      = ((abs.getD k (0, [])).1, (abs.getD (k+1) (0, [])).1) := by
  obtain ⟨hTT, hTB, hTn⟩ := hT
  have hk0 : k < abs.length := by omega
  have hlive := enc_getD_live abs k hk0
  have hlive1 := enc_getD_live abs (k+1) hk
  have hsucc := posOf_succ_eq abs k hk0
  have hlt := posOf_lt_length abs (k+1) hk
  have hrawi : S.rawT (posOf abs k) = (abs.getD k (0, [])).1 := by
    unfold SkippableText.rawT; rw [hTT]; exact hlive.1
  have hblki : S.isBlank (posOf abs k) = false := by
    unfold SkippableText.isBlank; rw [hTB]; exact hlive.2
  have hWk := hW _ (getD_mem' abs k (0, []) hk0)
  have hget : S.get (posOf abs k) = (abs.getD k (0, [])).1 := by
    unfold SkippableText.get
    rw [hblki]
    simp only [Bool.false_eq_true, if_false]
    exact hrawi
  have hrawn : S.rawT (posOf abs (k+1)) = (abs.getD (k+1) (0, [])).1 := by
    unfold SkippableText.rawT; rw [hTT]; exact hlive1.1
  cases hgap : (abs.getD k (0, [])).2 with
  | nil =>
    have h1 : posOf abs (k+1) = posOf abs k + 1 := by rw [hsucc, hgap]; simp
    have hblk1 : S.isBlank (posOf abs k + 1) = false := by
      unfold SkippableText.isBlank; rw [hTB]
      have h := hlive1.2
      rw [h1] at h
      exact h
    have hraw1 : S.rawT (posOf abs k + 1) = (abs.getD (k+1) (0, [])).1 := by
      rw [← h1]; exact hrawn
    have hne : ¬ (posOf abs k = S.n - 1) := by rw [hTn]; omega
    unfold SkippableText.pairStartingAt
    rw [if_neg (by simp [hne, hblk1]), if_neg (by rw [hget]; exact hWk.1)]
    simp [hblk1, hrawi, hraw1]
  | cons a g' =>
    have hblk1 : S.isBlank (posOf abs k + 1) = true := by
      unfold SkippableText.isBlank; rw [hTB]
      exact (enc_getD_gap abs k 0 hk0 (by rw [hgap]; simp)).2
    have hraw1 : S.rawT (posOf abs k + 1) = (a :: g').length := by
      unfold SkippableText.rawT; rw [hTT]
      have h := (enc_getD_gap abs k 0 hk0 (by rw [hgap]; simp)).1
      have h2 := (hW _ (getD_mem' abs k (0, []) hk0)).2.1
      rw [hgap] at h h2
      exact h.trans h2
    have hidx2 : posOf abs k + (a :: g').length + 1 = posOf abs (k+1) := by
      rw [hsucc, hgap]; simp only [List.length_cons]; omega
    have hne : ¬ (posOf abs k = S.n - 1) := by
      rw [hTn]; omega
    have hnge : ¬ (posOf abs k + S.rawT (posOf abs k + 1) + 1 ≥ S.n) := by
      rw [hraw1, hidx2, hTn]; omega
    unfold SkippableText.pairStartingAt
    rw [if_neg (by
      intro hc
      rcases hc with hc | hc
      · exact hne hc
      · exact hnge hc.2), if_neg (by rw [hget]; exact hWk.1)]
    rw [hblk1, hraw1, hidx2]
    simp [hrawi, hrawn]

theorem psa_live_last (S : SkippableText) (abs : AbsText) (hT : TextEnc S abs)
    (hW : absWF abs) (k : Nat) (hk : k + 1 = abs.length) :
    S.pairStartingAt (posOf abs k) = blankPair := by
  obtain ⟨hTT, hTB, hTn⟩ := hT
  have hk0 : k < abs.length := by omega
  have hsucc := posOf_succ_eq abs k hk0
  have hend : posOf abs (k+1) = (encT abs).length := by
    rw [hk, posOf_at_length]
  cases hgap : (abs.getD k (0, [])).2 with
  | nil =>
    apply psa_last
    rw [hTn]
    rw [hgap] at hsucc
    simp at hsucc
    omega
  | cons a g' =>
    have hblk1 : S.isBlank (posOf abs k + 1) = true := by
      unfold SkippableText.isBlank
      rw [hTB]
      exact (enc_getD_gap abs k 0 hk0 (by rw [hgap]; simp)).2
    have hraw1 : S.rawT (posOf abs k + 1) = (a :: g').length := by
      unfold SkippableText.rawT; rw [hTT]
      have h := (enc_getD_gap abs k 0 hk0 (by rw [hgap]; simp)).1
      have h2 := (hW _ (getD_mem' abs k (0, []) hk0)).2.1
      rw [hgap] at h h2
      exact h.trans h2
    have hge : posOf abs k + S.rawT (posOf abs k + 1) + 1 ≥ S.n := by
      rw [hraw1, hTn]
      rw [hgap] at hsucc
      simp only [List.length_cons] at hsucc ⊢
      omega
    unfold SkippableText.pairStartingAt
    rw [if_pos (Or.inr ⟨hblk1, hge⟩)]

/-- a non-blank result of `pair_starting_at` is either the pair of
consecutive live symbols at some live entry, or the out-of-range artefact
`(0, 0)`. -/
theorem psa_cases (S : SkippableText) (abs : AbsText) (hT : TextEnc S abs)
    (hW : absWF abs) (i : Nat)
    (hne : S.pairStartingAt i ≠ blankPair) :
    (∃ k, k + 1 < abs.length ∧ i = posOf abs k ∧
      S.pairStartingAt i = ((abs.getD k (0, [])).1, (abs.getD (k+1) (0, [])).1)) ∨
    (S.n ≤ i ∧ S.pairStartingAt i = (0, 0)) := by
  by_cases hi : i < S.n
  · cases hblk : S.isBlank i with
    | true => exact absurd (psa_blank S i hblk) hne
    | false =>
      obtain ⟨k, hk, hik⟩ := live_pos S abs hT i hi hblk
      by_cases hklast : k + 1 < abs.length
      · left
        exact ⟨k, hklast, hik, by rw [hik]; exact psa_live S abs hT hW k hklast⟩
      · have hkeq : k + 1 = abs.length := by omega
        rw [hik] at hne
        exact absurd (psa_live_last S abs hT hW k hkeq) hne
  · right
    obtain ⟨hTT, hTB, hTn⟩ := hT
    by_cases hlast : i = S.n - 1
    · exact absurd (psa_last S i hlast) hne
    · refine ⟨by omega, psa_oob S i ?_ ?_ (by omega) hlast⟩
      · rw [hTT]; omega
      · rw [hTB, encB_length]; omega

/-! ## The abstract effect of `replace` -/

theorem set_replicate_self {α : Type} (v : α) :
    ∀ (m i : Nat), (List.replicate m v).set i v = List.replicate m v := by
  intro m
  induction m with
  | zero => intro i; rfl
  | succ m ih =>
    intro i
    cases i with
    | zero => rw [List.replicate_succ, List.set_cons_zero]
    | succ i => rw [List.replicate_succ, List.set_cons_succ, ih]

theorem mergedGap_length (g : List Nat) (s2 : Nat) (g2 : List Nat) :
    (mergedGap g s2 g2).length = g.length + 1 + g2.length := by
  simp [mergedGap]; omega

theorem mergedGap_WF (g : List Nat) (s2 : Nat) (g2 : List Nat) :
    gapWF (mergedGap g s2 g2) := by
  have hbase : (g ++ s2 :: g2).length = g.length + 1 + g2.length := by
    simp; omega
  have hlen := mergedGap_length g s2 g2
  constructor
  · rw [hlen]
    by_cases h0 : g.length + g2.length = 0
    · unfold mergedGap
      rw [h0, getD_set_self]
      rw [List.length_set]; omega
    · unfold mergedGap
      rw [getD_set_ne _ _ _ _ _ (by omega), getD_set_self]
      omega
  · rw [hlen]
    have hidx : g.length + 1 + g2.length - 1 = g.length + g2.length := by omega
    rw [hidx]
    unfold mergedGap
    rw [getD_set_self]
    rw [List.length_set]; omega

theorem mergedGap_map_true (g : List Nat) (s2 : Nat) (g2 : List Nat) :
    (mergedGap g s2 g2).map (fun _ => true)
      = List.replicate (g.length + 1 + g2.length) true := by
  rw [← mergedGap_length g s2 g2, List.map_const']

theorem absReplace_mem (abs : AbsText) (k X : Nat) (e : Nat × List Nat)
    (he : e ∈ absReplace abs k X) :
    e ∈ abs ∨ e = (X, mergedGap (abs.getD k (0, [])).2 (abs.getD (k+1) (0, [])).1
      (abs.getD (k+1) (0, [])).2) := by
  unfold absReplace at he
  rcases List.mem_append.mp he with h | h
  · rcases List.mem_append.mp h with h | h
    · exact Or.inl (List.take_subset _ _ h)
    · exact Or.inr (List.mem_singleton.mp h)
  · exact Or.inl (List.drop_subset _ _ h)

theorem absReplace_WF (abs : AbsText) (k X : Nat) (hW : absWF abs)
    (hX : X ≠ BLANK) : absWF (absReplace abs k X) := by
  intro e he
  rcases absReplace_mem abs k X e he with h | h
  · exact hW e h
  · rw [h]
    exact ⟨hX, mergedGap_WF _ _ _⟩

theorem absReplace_length (abs : AbsText) (k X : Nat) (hk : k + 1 < abs.length) :
    (absReplace abs k X).length + 1 = abs.length := by
  unfold absReplace
  simp
  omega

theorem absReplace_map_fst (abs : AbsText) (k X : Nat) :
    (absReplace abs k X).map (fun e => e.1)
      = (abs.map (fun e => e.1)).take k ++ [X] ++ (abs.map (fun e => e.1)).drop (k+2) := by
  unfold absReplace
  simp [List.map_take, List.map_drop]

/-- the entry-list decomposition of an abstract text around index `k`. -/
theorem abs_split (abs : AbsText) (k : Nat) (hk : k + 1 < abs.length) :
    abs = abs.take k ++ abs.getD k (0, []) :: abs.getD (k+1) (0, []) :: abs.drop (k+2) := by
  have hd1 : abs.drop k = abs.getD k (0, []) :: abs.drop (k+1) := by
    rw [List.drop_eq_getElem_cons (show k < abs.length by omega)]
    rw [List.getD_eq_getElem abs (0, []) (show k < abs.length by omega)]
  have hd2 : abs.drop (k+1) = abs.getD (k+1) (0, []) :: abs.drop (k+2) := by
    rw [List.drop_eq_getElem_cons hk, List.getD_eq_getElem abs (0, []) hk]
  conv_lhs => rw [← List.take_append_drop k abs, hd1, hd2]

theorem set_append_off {α : Type} (p t : List α) (j : Nat) (v : α) :
    (p ++ t).set (p.length + j) v = p ++ t.set j v := by
  rw [List.set_append_right _ _ (Nat.le_add_right _ _)]
  have h : p.length + j - p.length = j := by omega
  rw [h]

theorem set_cons_one {α : Type} (x : α) (t : List α) (v : α) :
    (x :: t).set 1 v = x :: t.set 0 v := rfl

/-- `replace` at the position of live entry `k` (which has a live successor)
produces exactly the encoding of the abstract replacement. -/
theorem replace_live (S : SkippableText) (abs : AbsText) (hT : TextEnc S abs)
    (hW : absWF abs) (k : Nat) (hk : k + 1 < abs.length) (X : Nat) :
    TextEnc (S.replace (posOf abs k) X) (absReplace abs k X) := by
  obtain ⟨hTT, hTB, hTn⟩ := hT
  have hk0 : k < abs.length := by omega
  have hsucc := posOf_succ_eq abs k hk0
  have hsucc2 : posOf abs (k+2)
      = posOf abs (k+1) + 1 + (abs.getD (k+1) (0, [])).2.length :=
    posOf_succ_eq abs (k+1) hk
  have hlt1 := posOf_lt_length abs (k+1) hk
  have hle2 := posOf_le_length abs (k+2)
  have hWk := hW _ (getD_mem' abs k (0, []) hk0)
  have hWk1 := hW _ (getD_mem' abs (k+1) (0, []) hk)
  have hp1 : posOf abs (k+1) = posOf abs k + (abs.getD k (0, [])).2.length + 1 := by
    rw [hsucc]; omega
  -- the computed skip lands one past the current entry's gap
  have hiNext :
      (if S.isBlank (posOf abs k + 1) = true
        then posOf abs k + S.rawT (posOf abs k + 1) + 1
        else posOf abs k + 1)
      = posOf abs k + (abs.getD k (0, [])).2.length + 1 := by
    cases hgap : (abs.getD k (0, [])).2 with
    | nil =>
      have h1 : posOf abs (k+1) = posOf abs k + 1 := by rw [hsucc, hgap]; simp
      have hlive1 := enc_getD_live abs (k+1) hk
      have hblk1 : S.isBlank (posOf abs k + 1) = false := by
        unfold SkippableText.isBlank; rw [hTB, ← h1]; exact hlive1.2
      rw [hblk1]
      simp [hgap]
    | cons a g' =>
      have hblk1 : S.isBlank (posOf abs k + 1) = true := by
        unfold SkippableText.isBlank; rw [hTB]
        exact (enc_getD_gap abs k 0 hk0 (by rw [hgap]; simp)).2
      have hraw1 : S.rawT (posOf abs k + 1) = (a :: g').length := by
        unfold SkippableText.rawT; rw [hTT]
        have h := (enc_getD_gap abs k 0 hk0 (by rw [hgap]; simp)).1
        have h2 := hWk.2.1
        rw [hgap] at h h2
        exact h.trans h2
      rw [hblk1, hraw1]
      simp
  -- the trailing-run length read by `replace` is the successor's gap length
  have hnextLen :
      (if posOf abs k + (abs.getD k (0, [])).2.length + 1 = S.n - 1 then 0
       else if S.isBlank (posOf abs k + (abs.getD k (0, [])).2.length + 1 + 1) = true
            then S.rawT (posOf abs k + (abs.getD k (0, [])).2.length + 1 + 1)
            else 0)
      = (abs.getD (k+1) (0, [])).2.length := by
    by_cases hL : posOf abs k + (abs.getD k (0, [])).2.length + 1 = S.n - 1
    · rw [if_pos hL]
      rw [hTn] at hL
      omega
    · rw [if_neg hL]
      cases hgap2 : (abs.getD (k+1) (0, [])).2 with
      | nil =>
        have hidx : posOf abs k + (abs.getD k (0, [])).2.length + 1 + 1
            = posOf abs (k+2) := by
          rw [hsucc2, hgap2]
          simp only [List.length_nil, Nat.add_zero]
          omega
        by_cases hk2 : k + 2 < abs.length
        · have hlive2 := enc_getD_live abs (k+2) hk2
          have hb : S.isBlank (posOf abs k + (abs.getD k (0, [])).2.length + 1 + 1)
              = false := by
            unfold SkippableText.isBlank; rw [hTB, hidx]; exact hlive2.2
          rw [hb]; simp [hgap2]
        · have hk2e : k + 2 = abs.length := by omega
          have hb : S.isBlank (posOf abs k + (abs.getD k (0, [])).2.length + 1 + 1)
              = false := by
            unfold SkippableText.isBlank
            rw [hTB, hidx, hk2e, posOf_at_length]
            exact List.getD_eq_default _ _ (by rw [encB_length])
          rw [hb]; simp [hgap2]
      | cons c g2' =>
        have hidx : posOf abs (k+1) + 1 + 0
            = posOf abs k + (abs.getD k (0, [])).2.length + 1 + 1 := by omega
        have hblk2 : S.isBlank (posOf abs k + (abs.getD k (0, [])).2.length + 1 + 1)
            = true := by
          unfold SkippableText.isBlank; rw [hTB, ← hidx]
          exact (enc_getD_gap abs (k+1) 0 hk (by rw [hgap2]; simp)).2
        have hraw2 : S.rawT (posOf abs k + (abs.getD k (0, [])).2.length + 1 + 1)
            = (c :: g2').length := by
          unfold SkippableText.rawT; rw [hTT, ← hidx]
          have h := (enc_getD_gap abs (k+1) 0 hk (by rw [hgap2]; simp)).1
          have h2 := hWk1.2.1
          rw [hgap2] at h h2
          exact h.trans h2
        rw [hblk2, hraw2]
        simp
  -- `replace` as three explicit writes
  have hrepl : S.replace (posOf abs k) X =
      { S with
        T := ((S.T.set (posOf abs k + 1)
                ((abs.getD k (0, [])).2.length + (abs.getD (k+1) (0, [])).2.length + 1)).set
              (posOf abs k +
                ((abs.getD k (0, [])).2.length + (abs.getD (k+1) (0, [])).2.length + 1))
              ((abs.getD k (0, [])).2.length + (abs.getD (k+1) (0, [])).2.length + 1)).set
              (posOf abs k) X
        blank := S.blank.set (posOf abs k + (abs.getD k (0, [])).2.length + 1) true
        nonBlank := dec32 S.nonBlank } := by
    simp only [SkippableText.replace]
    rw [hiNext]
    have hlen' : posOf abs k + (abs.getD k (0, [])).2.length + 1 - (posOf abs k + 1)
        = (abs.getD k (0, [])).2.length := by omega
    rw [hlen', hnextLen]
  rw [hrepl]
  have hpre : (encT (abs.take k)).length = posOf abs k := (posOf_take abs k).symm
  have hTsplit : encT abs = encT (abs.take k) ++
      ((abs.getD k (0, [])).1 :: ((abs.getD k (0, [])).2 ++
        ((abs.getD (k+1) (0, [])).1 :: ((abs.getD (k+1) (0, [])).2 ++
          encT (abs.drop (k+2)))))) := by
    conv_lhs => rw [abs_split abs k hk]
    rw [encT_append, encT_cons, encT_cons]
  have hBsplit : encB abs = encB (abs.take k) ++
      (false :: ((abs.getD k (0, [])).2.map (fun _ => true) ++
        (false :: ((abs.getD (k+1) (0, [])).2.map (fun _ => true) ++
          encB (abs.drop (k+2)))))) := by
    conv_lhs => rw [abs_split abs k hk]
    rw [encB_append, encB_cons, encB_cons]
  have hRsplitT : encT (absReplace abs k X) = encT (abs.take k) ++
      (X :: (mergedGap (abs.getD k (0, [])).2 (abs.getD (k+1) (0, [])).1
        (abs.getD (k+1) (0, [])).2 ++ encT (abs.drop (k+2)))) := by
    simp [absReplace, encT_append, encT_cons, encT_nil]
  have hRsplitB : encB (absReplace abs k X) = encB (abs.take k) ++
      (false :: ((mergedGap (abs.getD k (0, [])).2 (abs.getD (k+1) (0, [])).1
        (abs.getD (k+1) (0, [])).2).map (fun _ => true) ++ encB (abs.drop (k+2)))) := by
    simp [absReplace, encB_append, encB_cons, encB_nil]
  have hN : (abs.getD k (0, [])).2.length + (abs.getD (k+1) (0, [])).2.length + 1
      = (abs.getD k (0, [])).2.length + 1 + (abs.getD (k+1) (0, [])).2.length := by
    omega
  refine ⟨?_, ?_, ?_⟩
  · -- T component
    show ((S.T.set (posOf abs k + 1)
            ((abs.getD k (0, [])).2.length + (abs.getD (k+1) (0, [])).2.length + 1)).set
          (posOf abs k +
            ((abs.getD k (0, [])).2.length + (abs.getD (k+1) (0, [])).2.length + 1))
          ((abs.getD k (0, [])).2.length + (abs.getD (k+1) (0, [])).2.length + 1)).set
          (posOf abs k) X
        = encT (absReplace abs k X)
    rw [hN, hRsplitT, hTT, hTsplit]
    have hi1 : posOf abs k + 1 = (encT (abs.take k)).length + 1 := by rw [hpre]
    rw [hi1, set_append_off]
    have hi3 : posOf abs k +
        ((abs.getD k (0, [])).2.length + 1 + (abs.getD (k+1) (0, [])).2.length)
        = (encT (abs.take k)).length +
          ((abs.getD k (0, [])).2.length + (abs.getD (k+1) (0, [])).2.length + 1) := by
      rw [hpre]; omega
    rw [hi3, set_append_off]
    have hi0 : posOf abs k = (encT (abs.take k)).length + 0 := by rw [hpre]; omega
    rw [hi0, set_append_off]
    congr 1
    rw [set_cons_one, List.set_cons_succ, List.set_cons_zero]
    have hassoc : (abs.getD k (0, [])).2 ++
        ((abs.getD (k+1) (0, [])).1 :: ((abs.getD (k+1) (0, [])).2 ++
          encT (abs.drop (k+2))))
        = ((abs.getD k (0, [])).2 ++
            (abs.getD (k+1) (0, [])).1 :: (abs.getD (k+1) (0, [])).2) ++
          encT (abs.drop (k+2)) := by
      simp
    rw [hassoc]
    have hcond1 : 0 < ((abs.getD k (0, [])).2 ++
        (abs.getD (k+1) (0, [])).1 :: (abs.getD (k+1) (0, [])).2).length := by
      simp only [List.length_append, List.length_cons]
      omega
    rw [List.set_append_left _ _ hcond1]
    have hcond2 : (abs.getD k (0, [])).2.length + (abs.getD (k+1) (0, [])).2.length <
        (((abs.getD k (0, [])).2 ++
          (abs.getD (k+1) (0, [])).1 :: (abs.getD (k+1) (0, [])).2).set 0
          ((abs.getD k (0, [])).2.length + 1 + (abs.getD (k+1) (0, [])).2.length)).length := by
      rw [List.length_set]
      simp only [List.length_append, List.length_cons]
      omega
    rw [List.set_append_left _ _ hcond2]
    rfl
  · -- blank component
    show S.blank.set (posOf abs k + (abs.getD k (0, [])).2.length + 1) true
        = encB (absReplace abs k X)
    rw [hRsplitB, hTB, hBsplit]
    have hpreB : (encB (abs.take k)).length = posOf abs k := by
      rw [encB_length]; exact hpre
    have hi1 : posOf abs k + (abs.getD k (0, [])).2.length + 1
        = (encB (abs.take k)).length + ((abs.getD k (0, [])).2.length + 1) := by
      rw [hpreB]; omega
    rw [hi1, set_append_off, List.set_cons_succ]
    have hcond3 : ((abs.getD k (0, [])).2.map (fun _ => true)).length ≤
        (abs.getD k (0, [])).2.length := by
      simp
    rw [List.set_append_right _ _ hcond3]
    have hj : (abs.getD k (0, [])).2.length -
        ((abs.getD k (0, [])).2.map (fun _ => true)).length = 0 := by
      simp
    rw [hj, List.set_cons_zero]
    rw [mergedGap_map_true]
    have h1 : (abs.getD k (0, [])).2.length + 1 + (abs.getD (k+1) (0, [])).2.length
        = (abs.getD k (0, [])).2.length + ((abs.getD (k+1) (0, [])).2.length + 1) := by
      omega
    rw [h1, List.replicate_add, List.replicate_succ]
    simp [List.map_const']
  · -- length component
    show S.n = (encT (absReplace abs k X)).length
    rw [hTn, hRsplitT, hTsplit]
    simp only [List.length_append, List.length_cons, mergedGap_length]
    omega

/-! ## `replace` out of range, and the live-symbol view -/

/-- out of range, `replace` only decrements the bookkeeping counter. -/
theorem replace_oob (S : SkippableText) (i X : Nat) (hT : S.T.length ≤ i)
    (hB : S.blank.length ≤ i) (hn : S.n ≤ i) :
    S.replace i X = { S with nonBlank := dec32 S.nonBlank } := by
  have h1 : S.isBlank (i+1) = false := by
    unfold SkippableText.isBlank
    exact List.getD_eq_default _ _ (by omega)
  have h2 : S.isBlank (i+1+1) = false := by
    unfold SkippableText.isBlank
    exact List.getD_eq_default _ _ (by omega)
  simp only [SkippableText.replace]
  rw [if_neg (by rw [h1]; simp)]
  rw [if_neg (show ¬ (i + 1 = S.n - 1) by omega)]
  rw [if_neg (by rw [h2]; simp)]
  have h3 : i + 1 - (i + 1) + 0 + 1 = 1 := by omega
  rw [h3]
  have hsT1 : S.T.set (i + 1) 1 = S.T := List.set_eq_of_length_le (by omega)
  rw [hsT1]
  have hsT2 : S.T.set (i + 1) 1 = S.T := List.set_eq_of_length_le (by omega)
  rw [hsT2]
  have hsT3 : S.T.set i X = S.T := List.set_eq_of_length_le hT
  rw [hsT3]
  have hsB : S.blank.set (i + 1) true = S.blank := List.set_eq_of_length_le (by omega)
  rw [hsB]

theorem liveOfL_blank_front :
    ∀ (g : List Nat) (T : List Nat) (B : List Bool),
      liveOfL (g ++ T) (g.map (fun _ => true) ++ B) = liveOfL T B := by
  intro g
  induction g with
  | nil => intro T B; rfl
  | cons a g ih =>
    intro T B
    rw [List.cons_append, List.map_cons, List.cons_append]
    rw [show liveOfL (a :: (g ++ T)) (true :: (g.map (fun _ => true) ++ B))
        = liveOfL (g ++ T) (g.map (fun _ => true) ++ B) from rfl]
    exact ih T B

theorem liveOfL_enc (abs : AbsText) :
    liveOfL (encT abs) (encB abs) = abs.map (fun e => e.1) := by
  induction abs with
  | nil => rfl
  | cons e abs ih =>
    rw [encT_cons, encB_cons]
    show liveOfL (e.1 :: (e.2 ++ encT abs)) (false :: (e.2.map (fun _ => true) ++ encB abs))
        = e.1 :: abs.map (fun x => x.1)
    rw [liveOfL]
    rw [liveOfL_blank_front, ih]

theorem range_filter_map_liveOfL :
    ∀ (T : List Nat) (B : List Bool), B.length = T.length →
      ((List.range T.length).filter (fun i => ¬ B.getD i false)).map
          (fun i => T.getD i 0)
        = liveOfL T B := by
  intro T
  induction T with
  | nil =>
    intro B hB
    simp only [List.length_nil, List.range_zero, List.filter_nil, List.map_nil]
    rfl
  | cons t T ih =>
    intro B hB
    cases B with
    | nil => simp at hB
    | cons b B =>
      have hB' : B.length = T.length := by simpa using hB
      rw [List.length_cons, List.range_succ_eq_map]
      rw [List.filter_cons]
      have hfm : (List.map Nat.succ (List.range T.length)).filter
            (fun i => ¬ (b :: B).getD i false)
          = List.map Nat.succ ((List.range T.length).filter
              (fun i => ¬ B.getD i false)) := by
        rw [List.filter_map]
        congr 1
      cases b with
      | false =>
        rw [hfm, if_pos (show (decide ¬((false :: B).getD 0 false = true)) = true from rfl)]
        rw [List.map_cons, List.map_map]
        rw [show liveOfL (t :: T) (false :: B) = t :: liveOfL T B from rfl]
        congr 1
        exact (List.map_congr_left (fun a _ => rfl)).trans (ih B hB')
      | true =>
        rw [hfm, if_neg (show ¬ ((decide ¬((true :: B).getD 0 false = true)) = true) from Bool.false_ne_true)]
        rw [List.map_map]
        rw [show liveOfL (t :: T) (true :: B) = liveOfL T B from rfl]
        exact (List.map_congr_left (fun a _ => rfl)).trans (ih B hB')

/-- on an encoded text the live symbols are the entry symbols in order. -/
theorem liveSyms_eq (S : SkippableText) (abs : AbsText) (hT : TextEnc S abs) :
    S.liveSyms = abs.map (fun e => e.1) := by
  obtain ⟨hTT, hTB, hTn⟩ := hT
  unfold SkippableText.liveSyms
  have hfil : (List.range (encT abs).length).filter (fun i => ¬ S.isBlank i)
      = (List.range (encT abs).length).filter (fun i => ¬ (encB abs).getD i false) :=
    List.filter_congr (by
      intro x _
      unfold SkippableText.isBlank
      rw [hTB])
  rw [hTn, hfil]
  have hmap : ((List.range (encT abs).length).filter
        (fun i => ¬ (encB abs).getD i false)).map S.rawT
      = ((List.range (encT abs).length).filter
          (fun i => ¬ (encB abs).getD i false)).map (fun i => (encT abs).getD i 0) :=
    List.map_congr_left (by
      intro a _
      unfold SkippableText.rawT
      rw [hTT])
  rw [hmap, range_filter_map_liveOfL _ _ (encB_length abs), liveOfL_enc]

/-! ## Maximal blank runs and navigation -/

/-- on an encoded well-formed text, every maximal blank run stores its length
at both of its end positions. -/
theorem runs_store_len (S : SkippableText) (abs : AbsText) (hT : TextEnc S abs)
    (hW : absWF abs) : runsStoreLen S := by
  obtain ⟨hTT, hTB, hTn⟩ := hT
  intro l r hrun
  obtain ⟨hlr, hrn, hall, hleft, hright⟩ := hrun
  have habs : 0 < abs.length := by
    by_contra h
    have he : abs = [] := List.length_eq_zero.mp (by omega)
    rw [he] at hTn
    simp [encT_nil] at hTn
    omega
  have h0live : S.isBlank 0 = false := by
    have h := (enc_getD_live abs 0 habs).2
    rw [posOf_zero] at h
    unfold SkippableText.isBlank; rw [hTB]; exact h
  have hl1 : 1 ≤ l := by
    rcases Nat.eq_zero_or_pos l with h | h
    · exfalso
      have hb := hall 0 (by omega) (by omega)
      rw [h0live] at hb; exact Bool.noConfusion hb
    · exact h
  have hlm1 : S.isBlank (l - 1) = false := by
    rcases hleft with h | h
    · exact absurd h (by omega)
    · exact h
  obtain ⟨k, hk, hkeq⟩ := live_pos S abs ⟨hTT, hTB, hTn⟩ (l - 1) (by omega) hlm1
  have hWk := hW _ (getD_mem' abs k (0, []) hk)
  have hsucc := posOf_succ_eq abs k hk
  have hl : l = posOf abs k + 1 := by omega
  have hlblank := hall l (Nat.le_refl l) hlr
  have hgne : (abs.getD k (0, [])).2 ≠ [] := by
    intro hgap
    have h1 : posOf abs (k+1) = l := by rw [hsucc, hgap]; simp; omega
    by_cases hk1 : k + 1 < abs.length
    · have hlv := (enc_getD_live abs (k+1) hk1).2
      rw [h1] at hlv
      have hfalse : S.isBlank l = false := by
        unfold SkippableText.isBlank; rw [hTB]; exact hlv
      rw [hfalse] at hlblank; exact Bool.noConfusion hlblank
    · have hk1e : k + 1 = abs.length := by omega
      have he : posOf abs (k+1) = (encT abs).length := by rw [hk1e, posOf_at_length]
      omega
  have hglen1 : 0 < (abs.getD k (0, [])).2.length := List.length_pos.mpr hgne
  have hub : r < posOf abs (k+1) := by
    by_contra h
    have hble := hall (posOf abs (k+1)) (by omega) (by omega)
    by_cases hk1 : k + 1 < abs.length
    · have hlv := (enc_getD_live abs (k+1) hk1).2
      have hfalse : S.isBlank (posOf abs (k+1)) = false := by
        unfold SkippableText.isBlank; rw [hTB]; exact hlv
      rw [hfalse] at hble; exact Bool.noConfusion hble
    · have hk1e : k + 1 = abs.length := by omega
      have he : posOf abs (k+1) = (encT abs).length := by rw [hk1e, posOf_at_length]
      omega
  have hlb : posOf abs (k+1) ≤ r + 1 := by
    by_contra h
    have hoff : r - posOf abs k < (abs.getD k (0, [])).2.length := by omega
    have hb := (enc_getD_gap abs k (r - posOf abs k) hk hoff).2
    have hbb : S.isBlank (r + 1) = true := by
      unfold SkippableText.isBlank; rw [hTB]
      rw [show r + 1 = posOf abs k + 1 + (r - posOf abs k) from by omega]
      exact hb
    rcases hright with h1 | h1
    · have := posOf_le_length abs (k+1)
      omega
    · rw [hbb] at h1; exact Bool.noConfusion h1
  have hreq : r = posOf abs k + (abs.getD k (0, [])).2.length := by omega
  constructor
  · have h := (enc_getD_gap abs k 0 hk (by omega)).1
    have hval : S.rawT l = (abs.getD k (0, [])).2.length := by
      unfold SkippableText.rawT; rw [hTT]
      rw [show l = posOf abs k + 1 + 0 from by omega]
      exact h.trans hWk.2.1
    rw [hval]; omega
  · have h := (enc_getD_gap abs k ((abs.getD k (0, [])).2.length - 1) hk (by omega)).1
    have hval : S.rawT r = (abs.getD k (0, [])).2.length := by
      unfold SkippableText.rawT; rw [hTT]
      rw [show r = posOf abs k + 1 + ((abs.getD k (0, [])).2.length - 1) from by omega]
      exact h.trans hWk.2.2
    rw [hval]; omega

/-- from a live position followed by a blank, the stored skip length jumps
over the whole run to the next live position, and `pair_starting_at` reads
exactly that symbol. -/
theorem psa_skip (S : SkippableText) (abs : AbsText) (hT : TextEnc S abs)
    (hW : absWF abs) (j : Nat) (hj : j < S.n) (hlive : S.isBlank j = false)
    (hblk : S.isBlank (j+1) = true) (hin : j + S.rawT (j+1) + 1 < S.n) :
    S.isBlank (j + S.rawT (j+1) + 1) = false ∧
    (∀ m, j + 1 ≤ m → m ≤ j + S.rawT (j+1) → S.isBlank m = true) ∧
    S.pairStartingAt j = (S.rawT j, S.rawT (j + S.rawT (j+1) + 1)) := by
  obtain ⟨hTT, hTB, hTn⟩ := hT
  obtain ⟨k, hk, hkeq⟩ := live_pos S abs ⟨hTT, hTB, hTn⟩ j hj hlive
  have hWk := hW _ (getD_mem' abs k (0, []) hk)
  have hsucc := posOf_succ_eq abs k hk
  have hgne : (abs.getD k (0, [])).2 ≠ [] := by
    intro hgap
    have h1 : posOf abs (k+1) = j + 1 := by rw [hsucc, hgap]; simp; omega
    by_cases hk1 : k + 1 < abs.length
    · have hlv := (enc_getD_live abs (k+1) hk1).2
      have hfalse : S.isBlank (j+1) = false := by
        unfold SkippableText.isBlank; rw [hTB, ← h1]; exact hlv
      rw [hfalse] at hblk; exact Bool.noConfusion hblk
    · have hk1e : k + 1 = abs.length := by omega
      have he : posOf abs (k+1) = (encT abs).length := by rw [hk1e, posOf_at_length]
      have hfalse : S.isBlank (j+1) = false := by
        unfold SkippableText.isBlank
        exact List.getD_eq_default _ _ (by rw [hTB, encB_length]; omega)
      rw [hfalse] at hblk; exact Bool.noConfusion hblk
  have hglen : 0 < (abs.getD k (0, [])).2.length := List.length_pos.mpr hgne
  have hraw1 : S.rawT (j+1) = (abs.getD k (0, [])).2.length := by
    unfold SkippableText.rawT; rw [hTT]
    have h := (enc_getD_gap abs k 0 hk hglen).1
    rw [show j + 1 = posOf abs k + 1 + 0 from by omega]
    exact h.trans hWk.2.1
  have hnl : j + S.rawT (j+1) + 1 = posOf abs (k+1) := by rw [hraw1, hsucc]; omega
  have hk1 : k + 1 < abs.length := by
    by_contra h
    have hk1e : k + 1 = abs.length := by omega
    have he : posOf abs (k+1) = (encT abs).length := by rw [hk1e, posOf_at_length]
    rw [hTn] at hin
    omega
  refine ⟨?_, ?_, ?_⟩
  · have hlv := (enc_getD_live abs (k+1) hk1).2
    unfold SkippableText.isBlank; rw [hTB, hnl]; exact hlv
  · intro m hm1 hm2
    have hoff : m - (j+1) < (abs.getD k (0, [])).2.length := by
      rw [hraw1] at hm2; omega
    have hb := (enc_getD_gap abs k (m - (j+1)) hk hoff).2
    unfold SkippableText.isBlank; rw [hTB]
    rw [show m = posOf abs k + 1 + (m - (j+1)) from by omega]
    exact hb
  · have hmain := psa_live S abs ⟨hTT, hTB, hTn⟩ hW k hk1
    rw [← hkeq] at hmain
    rw [hmain]
    have h1 : S.rawT j = (abs.getD k (0, [])).1 := by
      unfold SkippableText.rawT; rw [hTT, hkeq]; exact (enc_getD_live abs k hk).1
    have h2 : S.rawT (j + S.rawT (j+1) + 1) = (abs.getD (k+1) (0, [])).1 := by
      rw [hnl]
      unfold SkippableText.rawT; rw [hTT]; exact (enc_getD_live abs (k+1) hk1).1
    rw [h1, h2]

/-- the prefix of `absReplace` below `k` is unchanged. -/
theorem absReplace_take (abs : AbsText) (k X : Nat) (hk : k + 1 < abs.length) :
    (absReplace abs k X).take k = abs.take k := by
  unfold absReplace
  have hlt : (abs.take k).length = k := by
    rw [List.length_take]
    exact Nat.min_eq_left (by omega)
  rw [List.take_append_of_le_length (by rw [List.length_append, hlt]; omega)]
  rw [List.take_append_of_le_length (le_of_eq hlt.symm)]
  rw [List.take_take, Nat.min_self]

/-- the replaced entry of `absReplace`. -/
theorem absReplace_getD (abs : AbsText) (k X : Nat) (hk : k + 1 < abs.length) :
    (absReplace abs k X).getD k (0, [])
      = (X, mergedGap (abs.getD k (0, [])).2 (abs.getD (k+1) (0, [])).1
          (abs.getD (k+1) (0, [])).2) := by
  unfold absReplace
  have hlt : (abs.take k).length = k := by
    rw [List.length_take]
    exact Nat.min_eq_left (by omega)
  rw [List.getD_append _ _ _ _ (by rw [List.length_append, hlt]; simp)]
  rw [List.getD_append_right _ _ _ _ (le_of_eq hlt), hlt, Nat.sub_self]
  rfl

theorem absReplace_posOf (abs : AbsText) (k X : Nat) (hk : k + 1 < abs.length) :
    posOf (absReplace abs k X) k = posOf abs k := by
  rw [posOf_take, posOf_take, absReplace_take abs k X hk]

/-! ## Expansion of well-formed symbols -/

theorem expandF_succ (G : List CPair) (sigma f X : Nat) :
    expandF G sigma (f+1) X
      = if X < sigma then [X]
        else expandF G sigma f (G.getD (X - sigma) (0, 0)).1
          ++ expandF G sigma f (G.getD (X - sigma) (0, 0)).2 := rfl

theorem nodesF_succ (G : List CPair) (sigma f X : Nat) :
    nodesF G sigma (f+1) X
      = if X < sigma then 1
        else 1 + nodesF G sigma f (G.getD (X - sigma) (0, 0)).1
          + nodesF G sigma f (G.getD (X - sigma) (0, 0)).2 := rfl

theorem expandF_stable (G : List CPair) (sigma : Nat) :
    ∀ X, SymWF sigma G X → ∀ f, X + 1 ≤ f →
      expandF G sigma f X = expandSym G sigma X := by
  intro X hX
  induction hX with
  | base X hXs =>
    intro f hf
    obtain ⟨f', rfl⟩ : ∃ f', f = f' + 1 := ⟨f - 1, by omega⟩
    unfold expandSym
    rw [expandF_succ, expandF_succ, if_pos hXs, if_pos hXs]
  | rule X hs hidx h1 h2 hwa hwb iha ihb =>
    intro f hf
    obtain ⟨f', rfl⟩ : ∃ f', f = f' + 1 := ⟨f - 1, by omega⟩
    unfold expandSym
    rw [expandF_succ, expandF_succ, if_neg (by omega), if_neg (by omega)]
    rw [iha f' (by omega), iha X (by omega), ihb f' (by omega), ihb X (by omega)]

theorem nodesF_stable (G : List CPair) (sigma : Nat) :
    ∀ X, SymWF sigma G X → ∀ f, X + 1 ≤ f →
      nodesF G sigma f X = nodesD G sigma X := by
  intro X hX
  induction hX with
  | base X hXs =>
    intro f hf
    obtain ⟨f', rfl⟩ : ∃ f', f = f' + 1 := ⟨f - 1, by omega⟩
    unfold nodesD
    rw [nodesF_succ, nodesF_succ, if_pos hXs, if_pos hXs]
  | rule X hs hidx h1 h2 hwa hwb iha ihb =>
    intro f hf
    obtain ⟨f', rfl⟩ : ∃ f', f = f' + 1 := ⟨f - 1, by omega⟩
    unfold nodesD
    rw [nodesF_succ, nodesF_succ, if_neg (by omega), if_neg (by omega)]
    rw [iha f' (by omega), iha X (by omega), ihb f' (by omega), ihb X (by omega)]

theorem expandSym_lt (G : List CPair) (sigma X : Nat) (h : X < sigma) :
    expandSym G sigma X = [X] := by
  unfold expandSym
  rw [expandF_succ, if_pos h]

theorem nodesD_lt (G : List CPair) (sigma X : Nat) (h : X < sigma) :
    nodesD G sigma X = 1 := by
  unfold nodesD
  rw [nodesF_succ, if_pos h]

theorem nodesD_pos (G : List CPair) (sigma X : Nat) : 1 ≤ nodesD G sigma X := by
  unfold nodesD
  rw [nodesF_succ]
  split <;> omega

theorem expandSym_ruleW (G : List CPair) (sigma X : Nat) (h : SymWF sigma G X)
    (hs : sigma ≤ X) :
    expandSym G sigma X
      = expandSym G sigma (G.getD (X - sigma) (0, 0)).1
        ++ expandSym G sigma (G.getD (X - sigma) (0, 0)).2 := by
  cases h with
  | base _ h2 => omega
  | rule _ _ hidx h1 h2 hwa hwb =>
    unfold expandSym
    rw [expandF_succ, if_neg (by omega)]
    rw [expandF_stable G sigma _ hwa X (by omega),
      expandF_stable G sigma _ hwb X (by omega)]
    rfl

theorem nodesD_ruleW (G : List CPair) (sigma X : Nat) (h : SymWF sigma G X)
    (hs : sigma ≤ X) :
    nodesD G sigma X
      = 1 + nodesD G sigma (G.getD (X - sigma) (0, 0)).1
        + nodesD G sigma (G.getD (X - sigma) (0, 0)).2 := by
  cases h with
  | base _ h2 => omega
  | rule _ _ hidx h1 h2 hwa hwb =>
    unfold nodesD
    rw [nodesF_succ, if_neg (by omega)]
    rw [nodesF_stable G sigma _ hwa X (by omega),
      nodesF_stable G sigma _ hwb X (by omega)]
    rfl

theorem SymWF_extend (G : List CPair) (sigma : Nat) (e : CPair) :
    ∀ X, SymWF sigma G X → SymWF sigma (G ++ [e]) X := by
  intro X h
  induction h with
  | base X h => exact SymWF.base X h
  | rule X hs hidx h1 h2 hwa hwb iha ihb =>
    refine SymWF.rule X hs (by rw [List.length_append]; omega) ?_ ?_ ?_ ?_
    · rw [List.getD_append _ _ _ _ hidx]; exact h1
    · rw [List.getD_append _ _ _ _ hidx]; exact h2
    · rw [List.getD_append _ _ _ _ hidx]; exact iha
    · rw [List.getD_append _ _ _ _ hidx]; exact ihb

theorem expandSym_extend (G : List CPair) (sigma : Nat) (e : CPair) :
    ∀ X, SymWF sigma G X → expandSym (G ++ [e]) sigma X = expandSym G sigma X := by
  intro X h
  induction h with
  | base X h => rw [expandSym_lt _ _ _ h, expandSym_lt _ _ _ h]
  | rule X hs hidx h1 h2 hwa hwb iha ihb =>
    have hW : SymWF sigma G X := SymWF.rule X hs hidx h1 h2 hwa hwb
    rw [expandSym_ruleW (G ++ [e]) sigma X (SymWF_extend G sigma e X hW) hs]
    rw [expandSym_ruleW G sigma X hW hs]
    rw [List.getD_append _ _ _ _ hidx]
    rw [iha, ihb]

/-- the rule entry of the freshly appended pair. -/
theorem getD_append_new (G : List CPair) (sigma : Nat) (ab : CPair) :
    (G ++ [ab]).getD (sigma + G.length - sigma) (0, 0) = ab := by
  rw [show sigma + G.length - sigma = G.length from by omega,
    List.getD_append_right _ _ _ _ (Nat.le_refl _), Nat.sub_self]
  rfl

theorem SymWF_new (G : List CPair) (sigma : Nat) (ab : CPair)
    (ha : SymWF sigma G ab.1) (hb : SymWF sigma G ab.2)
    (ha' : ab.1 < sigma + G.length) (hb' : ab.2 < sigma + G.length) :
    SymWF sigma (G ++ [ab]) (sigma + G.length) := by
  refine SymWF.rule _ (by omega) (by rw [List.length_append]; simp) ?_ ?_ ?_ ?_
  · rw [getD_append_new]; omega
  · rw [getD_append_new]; omega
  · rw [getD_append_new]; exact SymWF_extend G sigma ab ab.1 ha
  · rw [getD_append_new]; exact SymWF_extend G sigma ab ab.2 hb

theorem expandSym_new (G : List CPair) (sigma : Nat) (ab : CPair)
    (ha : SymWF sigma G ab.1) (hb : SymWF sigma G ab.2)
    (ha' : ab.1 < sigma + G.length) (hb' : ab.2 < sigma + G.length) :
    expandSym (G ++ [ab]) sigma (sigma + G.length)
      = expandSym (G ++ [ab]) sigma ab.1 ++ expandSym (G ++ [ab]) sigma ab.2 := by
  rw [expandSym_ruleW (G ++ [ab]) sigma (sigma + G.length)
    (SymWF_new G sigma ab ha hb ha' hb') (by omega)]
  rw [getD_append_new]

theorem expandList_append (G : List CPair) (sigma : Nat) (l1 l2 : List Nat) :
    expandList G sigma (l1 ++ l2)
      = expandList G sigma l1 ++ expandList G sigma l2 := by
  simp [expandList]

theorem expandList_extend (G : List CPair) (sigma : Nat) (e : CPair) (l : List Nat)
    (hl : ∀ x ∈ l, SymWF sigma G x) :
    expandList (G ++ [e]) sigma l = expandList G sigma l := by
  unfold expandList
  congr 1
  exact List.map_congr_left (fun a ha => expandSym_extend G sigma e a (hl a ha))

/-! ## Idempotence of `max()` (the cursor walk stabilizes) -/

theorem descend_fix (F : List LLVec) : ∀ m, LfQ.descend F (LfQ.descend F m) = LfQ.descend F m := by
  intro m
  induction m with
  | zero => rfl
  | succ m ih =>
    have hstep : LfQ.descend F (m+1)
        = if m + 1 > 1 ∧ (F.getD (m+1) LLVec.init).size = 0
          then LfQ.descend F m else m + 1 := rfl
    by_cases h : m + 1 > 1 ∧ (F.getD (m+1) LLVec.init).size = 0
    · have h1 : LfQ.descend F (m+1) = LfQ.descend F m := by rw [hstep, if_pos h]
      rw [h1]
      exact ih
    · have h1 : LfQ.descend F (m+1) = m + 1 := by rw [hstep, if_neg h]
      rw [h1]
      exact h1

theorem lf_qmax_idem (q : LfQ) : LfQ.qmax (LfQ.qmax q).2 = LfQ.qmax q := by
  by_cases hn : q.n = 0
  · have h1 : LfQ.qmax q = (nullPair, q) := by
      unfold LfQ.qmax
      rw [if_pos hn]
    rw [h1]
    exact h1
  · have h1 : LfQ.qmax q = ((q.listAt (LfQ.descend q.F q.MAX)).head,
        { q with MAX := LfQ.descend q.F q.MAX }) := by
      unfold LfQ.qmax
      rw [if_neg hn]
    rw [h1]
    show LfQ.qmax ({ q with MAX := LfQ.descend q.F q.MAX } : LfQ)
      = ((q.listAt (LfQ.descend q.F q.MAX)).head,
        { q with MAX := LfQ.descend q.F q.MAX })
    unfold LfQ.qmax
    rw [if_neg (show ¬ (({ q with MAX := LfQ.descend q.F q.MAX } : LfQ).n = 0) from hn)]
    show ((q.listAt (LfQ.descend q.F (LfQ.descend q.F q.MAX))).head,
        ({ q with MAX := LfQ.descend q.F (LfQ.descend q.F q.MAX) } : LfQ))
      = ((q.listAt (LfQ.descend q.F q.MAX)).head,
        { q with MAX := LfQ.descend q.F q.MAX })
    rw [descend_fix]

theorem hf_qmax_idem (q : HfQ) : hfOps.qmax (hfOps.qmax q).2 = hfOps.qmax q := rfl

theorem lfOps_qmax_idem (q : LfQ) : lfOps.qmax (lfOps.qmax q).2 = lfOps.qmax q :=
  lf_qmax_idem q

/-! ## Preservation of the engine invariant by one substitution round -/

theorem blankPair_eq_nullPair : blankPair = nullPair := rfl

theorem expandList_nil (G : List CPair) (sigma : Nat) :
    expandList G sigma [] = [] := rfl

theorem expandList_cons (G : List CPair) (sigma x : Nat) (l : List Nat) :
    expandList G sigma (x :: l) = expandSym G sigma x ++ expandList G sigma l := by
  simp [expandList]

/-- one guarded `replace` of the replace pass, at a live entry whose pair is
the selected pair, preserves the pass invariant (the replaced pair's two
components are then strictly below the new symbol `X`, so `X` itself becomes
well-formed under the extended grammar). -/
theorem passInv_replace (sigma : Nat) (G' : List CPair) (w' : List Nat)
    (X : Nat) (AB : CPair) (T : SkippableText) (abs : AbsText)
    (hT : TextEnc T abs) (hW : absWF abs)
    (hbnd : ∀ e ∈ abs, e.1 < X + 1 ∧ SymWF sigma G' e.1)
    (hdec : expandList G' sigma (abs.map (fun e => e.1)) = w')
    (hXs : sigma ≤ X) (hXB : X < BLANK)
    (hrlen : X - sigma < G'.length)
    (hrule : G'.getD (X - sigma) (0, 0) = AB)
    (hAB1 : AB.1 ≠ X) (hAB2 : AB.2 ≠ X)
    (k : Nat) (hk : k + 1 < abs.length)
    (hABk : AB = ((abs.getD k (0, [])).1, (abs.getD (k+1) (0, [])).1)) :
    PassInv sigma G' w' (X + 1) (T.replace (posOf abs k) X) := by
  have hk0 : k < abs.length := by omega
  have hmemk := hbnd _ (getD_mem' abs k (0, []) hk0)
  have hmemk1 := hbnd _ (getD_mem' abs (k+1) (0, []) hk)
  have hA1 : AB.1 = (abs.getD k (0, [])).1 := by rw [hABk]
  have hA2 : AB.2 = (abs.getD (k+1) (0, [])).1 := by rw [hABk]
  rw [hA1] at hAB1
  rw [hA2] at hAB2
  have hWX : SymWF sigma G' X := by
    refine SymWF.rule X hXs hrlen ?_ ?_ ?_ ?_ <;> rw [hrule]
    · rw [hA1]
      have := hmemk.1
      omega
    · rw [hA2]
      have := hmemk1.1
      omega
    · rw [hA1]
      exact hmemk.2
    · rw [hA2]
      exact hmemk1.2
  have hXne : X ≠ BLANK := Nat.ne_of_lt hXB
  refine ⟨absReplace abs k X, replace_live T abs hT hW k hk X,
    absReplace_WF abs k X hW hXne, ?_, ?_⟩
  · intro e he
    rcases absReplace_mem abs k X e he with h | h
    · exact hbnd e h
    · rw [h]
      exact ⟨Nat.lt_succ_self X, hWX⟩
  · have hexpX : expandSym G' sigma X
        = expandSym G' sigma (abs.getD k (0, [])).1
          ++ expandSym G' sigma (abs.getD (k+1) (0, [])).1 := by
      rw [expandSym_ruleW G' sigma X hWX hXs, hrule, hA1, hA2]
    have hsplit : abs.map (fun e => e.1)
        = (abs.take k).map (fun e => e.1)
          ++ (abs.getD k (0, [])).1 :: (abs.getD (k+1) (0, [])).1
            :: (abs.drop (k+2)).map (fun e => e.1) := by
      conv_lhs => rw [abs_split abs k hk]
      rw [List.map_append, List.map_cons, List.map_cons]
    rw [hsplit] at hdec
    rw [expandList_append, expandList_cons, expandList_cons] at hdec
    rw [absReplace_map_fst, expandList_append, expandList_append,
      expandList_cons, expandList_nil, ← List.map_take, ← List.map_drop, hexpX]
    simp only [List.append_nil, List.append_assoc] at hdec ⊢
    exact hdec

/-- the replace pass preserves the pass invariant when the selected pair does
not contain the fresh symbol. -/
theorem replacePass_inv {Qt : Type} (ops : QOps Qt) (tp : TextPositions)
    (AB : CPair) (X P L : Nat) (T0 : SkippableText) (Q0 : Qt)
    (sigma : Nat) (G' : List CPair) (w' : List Nat)
    (hXs : sigma ≤ X) (hXB : X < BLANK)
    (hrlen : X - sigma < G'.length)
    (hrule : G'.getD (X - sigma) (0, 0) = AB)
    (hABn : AB ≠ nullPair)
    (hAB1 : AB.1 ≠ X) (hAB2 : AB.2 ≠ X)
    (hinv : PassInv sigma G' w' (X + 1) T0) :
    PassInv sigma G' w' (X + 1) (replacePass ops tp AB X P L T0 Q0).1 := by
  unfold replacePass
  refine foldl_inv _ (fun (p : SkippableText × Qt) => PassInv sigma G' w' (X + 1) p.1)
    ?_ _ _ hinv
  intro b a hb
  dsimp only
  by_cases hg : b.1.pairStartingAt (tp.get (P + a)) = AB
  · rw [if_pos hg]
    dsimp only
    obtain ⟨abs, hT, hW, hbnd, hdec⟩ := hb
    have hnb : b.1.pairStartingAt (tp.get (P + a)) ≠ blankPair := by
      rw [hg, blankPair_eq_nullPair]
      exact hABn
    rcases psa_cases b.1 abs hT hW _ hnb with ⟨k, hk, hik, hpsa⟩ | ⟨hoob, hzero⟩
    · rw [hik]
      exact passInv_replace sigma G' w' X AB b.1 abs hT hW hbnd hdec hXs hXB hrlen
        hrule hAB1 hAB2 k hk (by rw [← hg]; exact hpsa)
    · obtain ⟨hTT, hTB, hTn⟩ := hT
      have hlT : b.1.T.length = b.1.n := by rw [hTT, hTn]
      have hlB : b.1.blank.length = b.1.n := by rw [hTB, encB_length, hTn]
      rw [replace_oob b.1 _ X (by omega) (by omega) hoob]
      exact ⟨abs, ⟨hTT, hTB, hTn⟩, hW, hbnd, hdec⟩
  · rw [if_neg hg]
    exact hb

/-- when the selected pair contains the fresh symbol `X`, the guard of the
replace pass can never fire (the text holds only symbols strictly below `X`),
so the pass leaves the text unchanged. -/
theorem replacePass_skip {Qt : Type} (ops : QOps Qt) (tp : TextPositions)
    (AB : CPair) (X P L : Nat) (T0 : SkippableText) (Q0 : Qt)
    (sigma : Nat) (G' : List CPair) (w' : List Nat)
    (hX1 : 1 ≤ X) (hXB : X < BLANK)
    (hABX : AB.1 = X ∨ AB.2 = X)
    (hinv : PassInv sigma G' w' X T0) :
    (replacePass ops tp AB X P L T0 Q0).1 = T0 := by
  unfold replacePass
  refine foldl_inv _ (fun (p : SkippableText × Qt) => p.1 = T0) ?_ _ _ rfl
  intro b a hb
  dsimp only
  by_cases hg : b.1.pairStartingAt (tp.get (P + a)) = AB
  · exfalso
    obtain ⟨abs, hT, hW, hbnd, hdec⟩ := hinv
    rw [hb] at hg
    have hABb : AB ≠ blankPair := by
      intro hbp
      rcases hABX with h1 | h1
      · rw [hbp] at h1
        have h2 : BLANK = X := h1
        omega
      · rw [hbp] at h1
        have h2 : BLANK = X := h1
        omega
    have hnb : T0.pairStartingAt (tp.get (P + a)) ≠ blankPair := by
      rw [hg]
      exact hABb
    rcases psa_cases T0 abs hT hW _ hnb with ⟨k, hk, hik, hpsa⟩ | ⟨hoob, hzero⟩
    · have hk0 : k < abs.length := by omega
      have hm1 := (hbnd _ (getD_mem' abs k (0, []) hk0)).1
      have hm2 := (hbnd _ (getD_mem' abs (k+1) (0, []) hk)).1
      have hAB : AB = ((abs.getD k (0, [])).1, (abs.getD (k+1) (0, [])).1) := by
        rw [← hg]
        exact hpsa
      rcases hABX with h1 | h1
      · rw [hAB] at h1
        have h2 : (abs.getD k (0, [])).1 = X := h1
        omega
      · rw [hAB] at h1
        have h2 : (abs.getD (k+1) (0, [])).1 = X := h1
        omega
    · have hAB0 : AB = (0, 0) := by
        rw [← hg]
        exact hzero
      rcases hABX with h1 | h1
      · rw [hAB0] at h1
        have h2 : (0 : Nat) = X := h1
        omega
      · rw [hAB0] at h1
        have h2 : (0 : Nat) = X := h1
        omega
  · rw [if_neg hg]
    exact hb

/-- one substitution round preserves the engine invariant, as long as the
selected pair is not the null pair and the fresh symbol is below the blank
sentinel. -/
theorem round_inv {Qt : Type} (ops : QOps Qt) (sigma : Nat) (w' : List Nat)
    (st : EngineSt Qt)
    (hinv : EngInv sigma w' st)
    (hAB : (ops.qmax st.Q).1 ≠ nullPair)
    (hXB : st.X < BLANK) :
    EngInv sigma w' (substitutionRound ops st) := by
  obtain ⟨hsig, hXeq, abs0, hT0, hW0, hbnd0, hdec0⟩ := hinv
  have hG' : (substitutionRound ops st).G = st.G ++ [(ops.qmax st.Q).1] := rfl
  have hX' : (substitutionRound ops st).X = st.X + 1 := rfl
  have hT' : (substitutionRound ops st).T
      = (replacePass ops st.tp (ops.qmax st.Q).1 st.X
          ((ops.getT (ops.qmax st.Q).2 (ops.qmax st.Q).1).1)
          ((ops.getT (ops.qmax st.Q).2 (ops.qmax st.Q).1).2.1)
          st.T (ops.qmax st.Q).2).1 := rfl
  have hbnd0' : ∀ e ∈ abs0, e.1 < st.X + 1
      ∧ SymWF sigma (st.G ++ [(ops.qmax st.Q).1]) e.1 := by
    intro e he
    exact ⟨by have := (hbnd0 e he).1; omega,
      SymWF_extend st.G sigma _ e.1 (hbnd0 e he).2⟩
  have hdec0' : expandList (st.G ++ [(ops.qmax st.Q).1]) sigma
      (abs0.map (fun e => e.1)) = w' := by
    have hl : ∀ x ∈ abs0.map (fun e => e.1), SymWF sigma st.G x := by
      intro x hx
      obtain ⟨e, he, hex⟩ := List.mem_map.mp hx
      rw [← hex]
      exact (hbnd0 e he).2
    rw [expandList_extend st.G sigma _ _ hl]
    exact hdec0
  refine ⟨hsig, ?_, ?_⟩
  · rw [hX', hG', List.length_append, hXeq]
    simp only [List.length_singleton]
    omega
  · by_cases hABX : (ops.qmax st.Q).1.1 = st.X ∨ (ops.qmax st.Q).1.2 = st.X
    · have hskip := replacePass_skip ops st.tp (ops.qmax st.Q).1 st.X
        ((ops.getT (ops.qmax st.Q).2 (ops.qmax st.Q).1).1)
        ((ops.getT (ops.qmax st.Q).2 (ops.qmax st.Q).1).2.1)
        st.T (ops.qmax st.Q).2
        sigma (st.G ++ [(ops.qmax st.Q).1]) w' (by omega) (by omega) hABX
        ⟨abs0, hT0, hW0, fun e he => ⟨(hbnd0 e he).1, (hbnd0' e he).2⟩, hdec0'⟩
      refine ⟨abs0, ?_, hW0, ?_, ?_⟩
      · rw [hT', hskip]
        exact hT0
      · rw [hX', hG']
        exact hbnd0'
      · rw [hG']
        exact hdec0'
    · push_neg at hABX
      have hrlen : st.X - sigma < (st.G ++ [(ops.qmax st.Q).1]).length := by
        rw [List.length_append]
        simp
        omega
      have hrule : (st.G ++ [(ops.qmax st.Q).1]).getD (st.X - sigma) (0, 0)
          = (ops.qmax st.Q).1 := by
        rw [hXeq]
        exact getD_append_new st.G sigma _
      have hpass := replacePass_inv ops st.tp (ops.qmax st.Q).1 st.X
        ((ops.getT (ops.qmax st.Q).2 (ops.qmax st.Q).1).1)
        ((ops.getT (ops.qmax st.Q).2 (ops.qmax st.Q).1).2.1)
        st.T (ops.qmax st.Q).2
        sigma (st.G ++ [(ops.qmax st.Q).1]) w' (by omega) hXB hrlen hrule hAB
        hABX.1 hABX.2
        ⟨abs0, hT0, hW0, hbnd0', hdec0'⟩
      obtain ⟨abs1, h1, h2, h3, h4⟩ := hpass
      refine ⟨abs1, ?_, h2, ?_, ?_⟩
      · rw [hT']
        exact h1
      · rw [hX', hG']
        exact h3
      · rw [hG']
        exact h4

/-- the engine loop preserves the engine invariant whenever the queue's
`max()` is idempotent and the fuel keeps the minted symbols below the blank
sentinel. -/
theorem engineLoop_inv {Qt : Type} (ops : QOps Qt)
    (hidem : ∀ q, ops.qmax (ops.qmax q).2 = ops.qmax q)
    (sigma : Nat) (w' : List Nat) :
    ∀ (fuel : Nat) (st : EngineSt Qt), EngInv sigma w' st →
      st.X + fuel ≤ BLANK → EngInv sigma w' (engineLoop ops fuel st) := by
  intro fuel
  induction fuel with
  | zero =>
    intro st h _
    exact h
  | succ fuel ih =>
    intro st hinv hfuel
    have hstep : engineLoop ops (fuel+1) st
        = if (ops.qmax st.Q).1 = nullPair then { st with Q := (ops.qmax st.Q).2 }
          else engineLoop ops fuel
            (substitutionRound ops { st with Q := (ops.qmax st.Q).2 }) := rfl
    rw [hstep]
    by_cases hm : (ops.qmax st.Q).1 = nullPair
    · rw [if_pos hm]
      exact hinv
    · rw [if_neg hm]
      apply ih
      · apply round_inv
        · exact hinv
        · show (ops.qmax (ops.qmax st.Q).2).1 ≠ nullPair
          rw [hidem]
          exact hm
        · show st.X < BLANK
          omega
      · show st.X + 1 + fuel ≤ BLANK
        omega

/-! ## The alphabet-remapping fill loop -/

theorem find_filter_ne {α β : Type} [DecidableEq α] (m : List (α × β))
    (k k' : α) (h : k' ≠ k) :
    (m.filter (fun e => ¬ e.1 = k)).find? (fun e => e.1 = k')
      = m.find? (fun e => e.1 = k') := by
  induction m with
  | nil => rfl
  | cons e m ih =>
    rw [List.filter_cons]
    by_cases he : e.1 = k
    · rw [if_neg (by simp [he])]
      rw [ih]
      rw [List.find?_cons_of_neg _ (by simp [he]; exact fun hc => h hc.symm)]
    · by_cases hek : e.1 = k'
      · rw [if_pos (by simp [he])]
        rw [List.find?_cons_of_pos _ (by simp [hek]),
          List.find?_cons_of_pos _ (by simp [hek])]
      · rw [if_pos (by simp [he])]
        rw [List.find?_cons_of_neg _ (by simp [hek]),
          List.find?_cons_of_neg _ (by simp [hek])]
        exact ih

theorem assocGet_assocSet_self {α β : Type} [DecidableEq α] (m : List (α × β))
    (k : α) (v d : β) : assocGet (assocSet m k v) k d = v := by
  unfold assocGet assocSet
  rw [List.find?_cons_of_pos _ (by simp)]

theorem assocGet_assocSet_ne {α β : Type} [DecidableEq α] (m : List (α × β))
    (k k' : α) (v d : β) (h : k' ≠ k) :
    assocGet (assocSet m k v) k' d = assocGet m k' d := by
  unfold assocGet assocSet
  rw [List.find?_cons_of_neg _ (by simp; intro hc; exact h hc.symm)]
  rw [find_filter_ne m k k' h]

/-- the fill loop of `compute_repair` establishes its invariant along any
suffix of the input, ending with the whole input processed. -/
theorem fill_go (n : Nat) (w : List Nat) (hn : n = w.length) :
    ∀ (l : List Nat)
      (st : List (Nat × Nat) × List Nat × Nat × SkippableText × Nat),
      FillSt n w st → st.2.2.2.2 + l.length = n → l = w.drop st.2.2.2.2 →
      FillSt n w (l.foldl fillStep st) ∧ (l.foldl fillStep st).2.2.2.2 = n := by
  intro l
  induction l with
  | nil =>
    intro st hFS hlen _
    rw [List.foldl_nil]
    exact ⟨hFS, by simpa using hlen⟩
  | cons c l ih =>
    intro st hFS hlen hdrop
    obtain ⟨H, A, sigma, T, j⟩ := st
    obtain ⟨h1, h2, h3, h4, h5, h6, h7, h8⟩ := hFS
    have h1' : sigma = A.length := h1
    have h2' : sigma ≤ j := h2
    have h4' : T.n = n := h4
    have h5' : T.blank = List.replicate n false := h5
    have h6' : T.T.length = n := h6
    have h7' : ∀ c0, assocGet H c0 NULLI ≠ NULLI →
        assocGet H c0 NULLI < sigma ∧ A.getD (assocGet H c0 NULLI) 0 = c0 := h7
    have h8' : ∀ i, i < j →
        T.T.getD i 0 < sigma ∧ A.getD (T.T.getD i 0) 0 = w.getD i 0 := h8
    have hlen' : j + (c :: l).length = n := hlen
    have hdrop2 : c :: l = w.drop j := hdrop
    have hjn : j < n := by
      simp only [List.length_cons] at hlen'
      omega
    have hw : w = w.take j ++ c :: l := by
      conv_lhs => rw [← List.take_append_drop j w]
      rw [← hdrop2]
    have htl : (w.take j).length = j := by
      rw [List.length_take]
      exact Nat.min_eq_left (by omega)
    have hwj : w.getD j 0 = c := by
      conv_lhs => rw [hw]
      rw [List.getD_append_right _ _ _ _ (le_of_eq htl), htl, Nat.sub_self,
        List.getD_cons_zero]
    have hdrop' : l = w.drop (j + 1) := by
      have hdd : w.drop (j + 1) = (w.drop j).drop 1 := by
        rw [List.drop_drop]
      rw [hdd, ← hdrop2]
      rfl
    have hlsum : j + 1 + l.length = n := by
      simp only [List.length_cons] at hlen'
      omega
    rw [List.foldl_cons]
    by_cases hnew : assocGet H c NULLI = NULLI
    · have hstep : fillStep (H, A, sigma, T, j) c
          = (assocSet H c sigma, A ++ [c], sigma + 1,
             T.set j (assocGet (assocSet H c sigma) c NULLI), j + 1) := by
        simp only [fillStep]
        rw [if_pos hnew]
      rw [hstep]
      have hself : assocGet (assocSet H c sigma) c NULLI = sigma :=
        assocGet_assocSet_self H c sigma NULLI
      refine ih _ ⟨?_, ?_, ?_, ?_, ?_, ?_, ?_, ?_⟩ ?_ ?_
      · show sigma + 1 = (A ++ [c]).length
        rw [List.length_append, List.length_singleton, h1']
      · show sigma + 1 ≤ j + 1
        omega
      · show j + 1 = 0 ∨ 1 ≤ sigma + 1
        exact Or.inr (by omega)
      · show (T.set j (assocGet (assocSet H c sigma) c NULLI)).n = n
        exact h4'
      · show (T.set j (assocGet (assocSet H c sigma) c NULLI)).blank
          = List.replicate n false
        exact h5'
      · show (T.T.set j (assocGet (assocSet H c sigma) c NULLI)).length = n
        rw [List.length_set]
        exact h6'
      · show ∀ c0, assocGet (assocSet H c sigma) c0 NULLI ≠ NULLI →
            assocGet (assocSet H c sigma) c0 NULLI < sigma + 1 ∧
            (A ++ [c]).getD (assocGet (assocSet H c sigma) c0 NULLI) 0 = c0
        intro c0 hc0
        by_cases hcc : c0 = c
        · rw [hcc, hself]
          refine ⟨by omega, ?_⟩
          rw [h1', List.getD_append_right _ _ _ _ (Nat.le_refl _), Nat.sub_self,
            List.getD_cons_zero]
        · rw [assocGet_assocSet_ne _ _ _ _ _ hcc] at hc0 ⊢
          obtain ⟨ha, hb⟩ := h7' c0 hc0
          refine ⟨by omega, ?_⟩
          rw [List.getD_append _ _ _ _ (by omega)]
          exact hb
      · show ∀ i, i < j + 1 →
            (T.T.set j (assocGet (assocSet H c sigma) c NULLI)).getD i 0 < sigma + 1 ∧
            (A ++ [c]).getD
              ((T.T.set j (assocGet (assocSet H c sigma) c NULLI)).getD i 0) 0
              = w.getD i 0
        rw [hself]
        intro i hi
        by_cases hij : i = j
        · rw [hij, getD_set_self _ _ _ _ (by rw [h6']; omega)]
          refine ⟨by omega, ?_⟩
          rw [hwj, h1', List.getD_append_right _ _ _ _ (Nat.le_refl _),
            Nat.sub_self, List.getD_cons_zero]
        · rw [getD_set_ne _ _ _ _ _ (fun hc => hij hc.symm)]
          have hii : i < j := by omega
          obtain ⟨ha, hb⟩ := h8' i hii
          refine ⟨by omega, ?_⟩
          rw [List.getD_append _ _ _ _ (by omega)]
          exact hb
      · show j + 1 + l.length = n
        exact hlsum
      · show l = w.drop (j + 1)
        exact hdrop'
    · have hstep : fillStep (H, A, sigma, T, j) c
          = (H, A, sigma, T.set j (assocGet H c NULLI), j + 1) := by
        simp only [fillStep]
        rw [if_neg hnew]
      rw [hstep]
      obtain ⟨ha, hb⟩ := h7' c hnew
      refine ih _ ⟨?_, ?_, ?_, ?_, ?_, ?_, ?_, ?_⟩ ?_ ?_
      · show sigma = A.length
        exact h1'
      · show sigma ≤ j + 1
        omega
      · show j + 1 = 0 ∨ 1 ≤ sigma
        exact Or.inr (by omega)
      · show (T.set j (assocGet H c NULLI)).n = n
        exact h4'
      · show (T.set j (assocGet H c NULLI)).blank = List.replicate n false
        exact h5'
      · show (T.T.set j (assocGet H c NULLI)).length = n
        rw [List.length_set]
        exact h6'
      · show ∀ c0, assocGet H c0 NULLI ≠ NULLI →
            assocGet H c0 NULLI < sigma ∧ A.getD (assocGet H c0 NULLI) 0 = c0
        exact h7'
      · show ∀ i, i < j + 1 →
            (T.T.set j (assocGet H c NULLI)).getD i 0 < sigma ∧
            A.getD ((T.T.set j (assocGet H c NULLI)).getD i 0) 0 = w.getD i 0
        intro i hi
        by_cases hij : i = j
        · rw [hij, getD_set_self _ _ _ _ (by rw [h6']; omega)]
          rw [hwj]
          exact ⟨ha, hb⟩
        · rw [getD_set_ne _ _ _ _ _ (fun hc => hij hc.symm)]
          have hii : i < j := by omega
          exact h8' i hii
      · show j + 1 + l.length = n
        exact hlsum
      · show l = w.drop (j + 1)
        exact hdrop'

/-! ## From the engine states of `compute_repair` to the decompressor -/

theorem computeRepair_A (f1 f2 : Nat) (w : List Nat) :
    (computeRepairCore f1 f2 w).A = (repairFill w).2.1 := rfl

theorem computeRepair_G (f1 f2 : Nat) (w : List Nat) :
    (computeRepairCore f1 f2 w).G = (repairLf f1 f2 w).G := rfl

theorem computeRepair_Tc (f1 f2 : Nat) (w : List Nat) :
    (computeRepairCore f1 f2 w).Tc
      = (List.range (repairLf f1 f2 w).T.size).foldl
          (fun acc i => if ¬ (repairLf f1 f2 w).T.isBlank i then
            acc ++ [(repairLf f1 f2 w).T.get i] else acc) [] := rfl

theorem engineLoop_X_le {Qt : Type} (ops : QOps Qt) :
    ∀ (fuel : Nat) (st : EngineSt Qt),
      (engineLoop ops fuel st).X ≤ st.X + fuel := by
  intro fuel
  induction fuel with
  | zero =>
    intro st
    show st.X ≤ st.X + 0
    omega
  | succ fuel ih =>
    intro st
    have hstep : engineLoop ops (fuel+1) st
        = if (ops.qmax st.Q).1 = nullPair then { st with Q := (ops.qmax st.Q).2 }
          else engineLoop ops fuel
            (substitutionRound ops { st with Q := (ops.qmax st.Q).2 }) := rfl
    rw [hstep]
    by_cases hm : (ops.qmax st.Q).1 = nullPair
    · rw [if_pos hm]
      show st.X ≤ st.X + (fuel + 1)
      omega
    · rw [if_neg hm]
      have h := ih (substitutionRound ops { st with Q := (ops.qmax st.Q).2 })
      have hX : (substitutionRound ops { st with Q := (ops.qmax st.Q).2 }).X
          = st.X + 1 := rfl
      omega

theorem decompressRun_nil (A : List Nat) (G : List CPair) (fuel : Nat)
    (buf : List Nat) : decompressRun A G fuel [] buf = buf := by
  cases fuel <;> rfl

theorem decompressRun_cons (A : List Nat) (G : List CPair) (fuel X : Nat)
    (S2 buf : List Nat) :
    decompressRun A G (fuel+1) (X :: S2) buf
      = if X < A.length then decompressRun A G fuel S2 (buf ++ [A.getD X 0])
        else decompressRun A G fuel
          ((G.getD (X - A.length) (0, 0)).1
            :: (G.getD (X - A.length) (0, 0)).2 :: S2) buf := rfl

/-- the stack loop of `decompress` emits exactly the mapped expansion of the
stack, provided every stacked symbol is well-formed and the fuel covers the
total derivation-tree size. -/
theorem decompressRun_expand (A : List Nat) (G : List CPair) :
    ∀ (fuel : Nat) (S buf : List Nat),
      (∀ x ∈ S, SymWF A.length G x) →
      (S.map (nodesD G A.length)).sum ≤ fuel →
      decompressRun A G fuel S buf
        = buf ++ (expandList G A.length S).map (fun v => A.getD v 0) := by
  intro fuel
  induction fuel with
  | zero =>
    intro S buf hWF hsum
    cases S with
    | nil =>
      rw [decompressRun_nil, expandList_nil]
      simp
    | cons X S2 =>
      exfalso
      have h1 := nodesD_pos G A.length X
      rw [List.map_cons, List.sum_cons] at hsum
      omega
  | succ fuel ih =>
    intro S buf hWF hsum
    cases S with
    | nil =>
      rw [decompressRun_nil, expandList_nil]
      simp
    | cons X S2 =>
      rw [decompressRun_cons]
      have hX := hWF X (List.mem_cons_self X S2)
      by_cases hlt : X < A.length
      · rw [if_pos hlt]
        have hS2 : ∀ x ∈ S2, SymWF A.length G x :=
          fun x hx => hWF x (List.mem_cons_of_mem _ hx)
        have hsum2 : (S2.map (nodesD G A.length)).sum ≤ fuel := by
          rw [List.map_cons, List.sum_cons, nodesD_lt G A.length X hlt] at hsum
          omega
        rw [ih S2 (buf ++ [A.getD X 0]) hS2 hsum2]
        rw [expandList_cons, expandSym_lt G A.length X hlt]
        simp [List.append_assoc]
      · rw [if_neg hlt]
        cases hX with
        | base _ h => omega
        | rule _ hs hidx h1 h2 hwa hwb =>
          have hrule : SymWF A.length G X := SymWF.rule X hs hidx h1 h2 hwa hwb
          have hS' : ∀ x ∈ (G.getD (X - A.length) (0, 0)).1
              :: (G.getD (X - A.length) (0, 0)).2 :: S2, SymWF A.length G x := by
            intro x hx
            rcases List.mem_cons.mp hx with h | hx2
            · rw [h]; exact hwa
            rcases List.mem_cons.mp hx2 with h | hx3
            · rw [h]; exact hwb
            · exact hWF x (List.mem_cons_of_mem _ hx3)
          have hsum' : (((G.getD (X - A.length) (0, 0)).1
              :: (G.getD (X - A.length) (0, 0)).2 :: S2).map
                (nodesD G A.length)).sum ≤ fuel := by
            rw [List.map_cons, List.sum_cons] at hsum
            rw [List.map_cons, List.sum_cons, List.map_cons, List.sum_cons]
            rw [nodesD_ruleW G A.length X hrule hs] at hsum
            omega
          rw [ih _ buf hS' hsum']
          rw [expandList_cons, expandList_cons, expandList_cons]
          rw [expandSym_ruleW G A.length X hrule hs]
          simp [List.append_assoc]

/-- `decompress` emits the mapped expansion of any well-formed symbol
sequence. -/
theorem decompress_expand (A : List Nat) (G : List CPair) :
    ∀ (Tc buf : List Nat), (∀ x ∈ Tc, SymWF A.length G x) →
      Tc.foldl (fun buf X => decompressRun A G (nodesD G A.length X) [X] buf) buf
        = buf ++ (expandList G A.length Tc).map (fun v => A.getD v 0) := by
  intro Tc
  induction Tc with
  | nil =>
    intro buf h
    rw [List.foldl_nil, expandList_nil]
    simp
  | cons X Tc ih =>
    intro buf h
    rw [List.foldl_cons]
    have hXw := h X (List.mem_cons_self X Tc)
    have hrun : decompressRun A G (nodesD G A.length X) [X] buf
        = buf ++ (expandList G A.length [X]).map (fun v => A.getD v 0) := by
      refine decompressRun_expand A G _ [X] buf ?_ ?_
      · intro x hx
        rw [List.mem_singleton.mp hx]
        exact hXw
      · simp
    rw [hrun, ih _ (fun x hx => h x (List.mem_cons_of_mem _ hx))]
    simp [expandList_cons, expandList_nil, List.map_append, List.append_assoc]

theorem decompress_spec (A : List Nat) (G : List CPair) (Tc : List Nat)
    (h : ∀ x ∈ Tc, SymWF A.length G x) :
    decompress A G Tc = (expandList G A.length Tc).map (fun v => A.getD v 0) := by
  unfold decompress
  rw [decompress_expand A G Tc [] h]
  rw [List.nil_append]

theorem expandList_terminal (G : List CPair) (sigma : Nat) :
    ∀ (l : List Nat), (∀ v ∈ l, v < sigma) → expandList G sigma l = l := by
  intro l
  induction l with
  | nil => intro _; rfl
  | cons x l ih =>
    intro h
    rw [expandList_cons, expandSym_lt G sigma x (h x (List.mem_cons_self x l)),
      ih (fun v hv => h v (List.mem_cons_of_mem _ hv))]
    rfl

theorem encT_singletons : ∀ (l : List Nat), encT (l.map (fun v => (v, []))) = l := by
  intro l
  induction l with
  | nil => rfl
  | cons x l ih =>
    rw [List.map_cons, encT_cons, ih]
    rfl

theorem encB_singletons : ∀ (l : List Nat),
    encB (l.map (fun v => (v, []))) = List.replicate l.length false := by
  intro l
  induction l with
  | nil => rfl
  | cons x l ih =>
    rw [List.map_cons, encB_cons, ih, List.length_cons, List.replicate_succ]
    rfl

/-- the emission fold of `compute_repair` is exactly the live content. -/
theorem emit_eq_liveSyms (S : SkippableText) :
    (List.range S.size).foldl
        (fun acc i => if ¬ S.isBlank i then acc ++ [S.get i] else acc) []
      = S.liveSyms := by
  rw [foldl_filter_map (fun i => ¬ S.isBlank i) (fun i => S.get i),
    List.nil_append]
  show ((List.range S.n).filter (fun i => ¬ S.isBlank i)).map (fun i => S.get i)
      = S.liveSyms
  unfold SkippableText.liveSyms
  refine List.map_congr_left ?_
  intro i hi
  have hblk := (List.mem_filter.mp hi).2
  have hb2 : S.isBlank i = false := by
    simp at hblk
    exact hblk
  unfold SkippableText.get
  rw [if_neg (by rw [hb2]; exact Bool.false_ne_true)]

/-- from the engine invariant at the final state, the emitted live text
decompresses to the original input. -/
theorem EngInv_emit_decode (sigma : Nat) (A : List Nat) (G : List CPair)
    (w w' : List Nat) (S : SkippableText)
    (hAlen : sigma = A.length)
    (hex : ∃ abs, TextEnc S abs ∧ absWF abs ∧
        (∀ e ∈ abs, SymWF sigma G e.1) ∧
        expandList G sigma (abs.map (fun e => e.1)) = w')
    (hw : w'.map (fun v => A.getD v 0) = w) :
    decompress A G
      ((List.range S.size).foldl
        (fun acc i => if ¬ S.isBlank i then acc ++ [S.get i] else acc) []) = w := by
  obtain ⟨abs, hTE, hWF, hbnd, hdec⟩ := hex
  rw [emit_eq_liveSyms S, liveSyms_eq S abs hTE]
  rw [decompress_spec A G _ ?_]
  · rw [← hAlen, hdec, hw]
  · intro x hx
    obtain ⟨e, he, hex2⟩ := List.mem_map.mp hx
    rw [← hAlen, ← hex2]
    exact hbnd e he

/-- the full pipeline of `compute_repair` decodes: the emitted live text,
expanded through the emitted grammar and mapped through the alphabet `A`,
is the original input. -/
theorem repair_decode (fuelHF fuelLF : Nat) (w : List Nat)
    (hne : w ≠ []) (hfuel : w.length + fuelHF + fuelLF ≤ BLANK) :
    decompress (repairFill w).2.1 (repairLf fuelHF fuelLF w).G
      ((List.range (repairLf fuelHF fuelLF w).T.size).foldl
        (fun acc i => if ¬ (repairLf fuelHF fuelLF w).T.isBlank i then
          acc ++ [(repairLf fuelHF fuelLF w).T.get i] else acc) []) = w := by
  have hn0 : 0 < w.length := List.length_pos.mpr hne
  have hFS0 : FillSt w.length w ([], [], 0, SkippableText.init w.length, 0) := by
    refine ⟨rfl, Nat.le_refl 0, Or.inl rfl, rfl, rfl, ?_, ?_, ?_⟩
    · show (List.replicate w.length (0 : Nat)).length = w.length
      exact List.length_replicate _ _
    · intro c0 hc0
      exact absurd rfl hc0
    · intro i hi
      exact absurd hi (Nat.not_lt_zero i)
  obtain ⟨hFSf, hjf⟩ := fill_go w.length w rfl w
    ([], [], 0, SkippableText.init w.length, 0) hFS0 (Nat.zero_add w.length) rfl
  obtain ⟨k1, k2, k3, k4, k5, k6, k7, k8⟩ := hFSf
  have hRF : w.foldl fillStep ([], [], 0, SkippableText.init w.length, 0)
      = repairFill w := rfl
  rw [hRF] at k1 k2 k3 k4 k5 k6 k7 k8 hjf
  have hsig1 : 1 ≤ (repairFill w).2.2.1 := by
    rcases k3 with h | h
    · omega
    · exact h
  have hsign : (repairFill w).2.2.1 ≤ w.length := by
    rw [← hjf]
    exact k2
  have k8' : ∀ i, i < w.length →
      (repairFill w).2.2.2.1.T.getD i 0 < (repairFill w).2.2.1 ∧
      (repairFill w).2.1.getD ((repairFill w).2.2.2.1.T.getD i 0) 0
        = w.getD i 0 := by
    intro i hi
    exact k8 i (by omega)
  have hmemT0 : ∀ v ∈ (repairFill w).2.2.2.1.T, v < (repairFill w).2.2.1 := by
    intro v hv
    obtain ⟨i, hi, hvi⟩ := List.getElem_of_mem hv
    have hilen : i < w.length := by omega
    have h := (k8' i hilen).1
    rw [List.getD_eq_getElem _ _ hi] at h
    rw [hvi] at h
    exact h
  have hw : (repairFill w).2.2.2.1.T.map (fun v => (repairFill w).2.1.getD v 0)
      = w := by
    apply List.ext_getElem
    · rw [List.length_map]
      exact k6
    · intro i h1 h2
      rw [List.getElem_map]
      have hT : i < (repairFill w).2.2.2.1.T.length := by
        rw [List.length_map] at h1
        exact h1
      have h8i := (k8' i h2).2
      rw [List.getD_eq_getElem ((repairFill w).2.2.2.1.T) 0 hT,
        List.getD_eq_getElem w 0 h2] at h8i
      exact h8i
  have hTE0 : TextEnc (repairFill w).2.2.2.1
      ((repairFill w).2.2.2.1.T.map (fun v => (v, []))) := by
    refine ⟨?_, ?_, ?_⟩
    · rw [encT_singletons]
    · rw [encB_singletons, k6]
      exact k5
    · rw [encT_singletons, k6]
      exact k4
  have hWF0 : absWF ((repairFill w).2.2.2.1.T.map (fun v => (v, []))) := by
    intro e he
    obtain ⟨v, hv, hev⟩ := List.mem_map.mp he
    have hvB : v < BLANK := by
      have h := hmemT0 v hv
      omega
    rw [← hev]
    exact ⟨Nat.ne_of_lt hvB, rfl, rfl⟩
  have hmap0 : ((repairFill w).2.2.2.1.T.map
        (fun v => (v, ([] : List Nat)))).map (fun e => e.1)
      = (repairFill w).2.2.2.1.T := by
    rw [List.map_map]
    have hcomp : ((fun (e : Nat × List Nat) => e.1) ∘ fun v => (v, ([] : List Nat)))
        = id := rfl
    rw [hcomp, List.map_id]
  have hHfInv : EngInv (repairFill w).2.2.1 (repairFill w).2.2.2.1.T
      (repairHf fuelHF w) := by
    unfold repairHf
    refine engineLoop_inv hfOps (fun q => rfl) _ _ fuelHF _ ⟨hsig1, rfl, ?_⟩ ?_
    · refine ⟨(repairFill w).2.2.2.1.T.map (fun v => (v, [])), hTE0, hWF0,
        ?_, ?_⟩
      · intro e he
        obtain ⟨v, hv, hev⟩ := List.mem_map.mp he
        rw [← hev]
        exact ⟨hmemT0 v hv, SymWF.base v (hmemT0 v hv)⟩
      · rw [hmap0]
        exact expandList_terminal [] (repairFill w).2.2.1 _ hmemT0
    · show (repairFill w).2.2.1 + fuelHF ≤ BLANK
      omega
  have hXhf : (repairHf fuelHF w).X ≤ (repairFill w).2.2.1 + fuelHF := by
    unfold repairHf
    exact engineLoop_X_le hfOps fuelHF _
  have hLfInv : EngInv (repairFill w).2.2.1 (repairFill w).2.2.2.1.T
      (repairLf fuelHF fuelLF w) := by
    unfold repairLf
    refine engineLoop_inv lfOps lfOps_qmax_idem _ _ fuelLF _ ?_ ?_
    · obtain ⟨a, b, c⟩ := hHfInv
      exact ⟨a, b, c⟩
    · show (repairHf fuelHF w).X + fuelLF ≤ BLANK
      omega
  obtain ⟨hs1, hs2, abs, hTE, hWF, hbnd, hdec⟩ := hLfInv
  refine EngInv_emit_decode (repairFill w).2.2.1 (repairFill w).2.1
    (repairLf fuelHF fuelLF w).G w (repairFill w).2.2.2.1.T
    (repairLf fuelHF fuelLF w).T k1 ⟨abs, hTE, hWF, ?_, hdec⟩ hw
  intro e he
  exact (hbnd e he).2

/-! # The claims -/

/-- **C1.** (confirmed) For every non-empty input byte string `w`,
decompressing the archive produced by compressing `w` yields `w` exactly:
`compute_repair` emits a triple `(A, G, T_c)` and the stack-based expansion
of that triple is `w`. The two engine loops are embedded with explicit fuel;
the round trip holds for every pair of fuel values whose total (together
with the input length) keeps the minted nonterminals below the reserved
blank sentinel — in particular the result does not depend on where the
loops stop. -/
theorem C1_round_trip (fuelHF fuelLF : Nat) (w : List Nat)
    (hne : w ≠ []) (hbyte : ∀ c ∈ w, c < 256)
    (hfuel : w.length + fuelHF + fuelLF ≤ BLANK) :
    ∃ r, repairFuel fuelHF fuelLF w = some r
      ∧ decompress r.A r.G r.Tc = w := by
  refine ⟨computeRepairCore fuelHF fuelLF w, ?_, ?_⟩
  · unfold repairFuel
    rw [if_neg (fun h => hne (List.length_eq_zero.mp h))]
  · rw [computeRepair_A, computeRepair_G, computeRepair_Tc]
    exact repair_decode fuelHF fuelLF w hne hfuel

theorem C1_round_trip_witness :
    ∃ r, repairFuel 1 1 [5] = some r ∧ decompress r.A r.G r.Tc = [5] :=
  C1_round_trip 1 1 [5] (by decide) (by decide) (by decide)

set_option maxRecDepth 1000000 in
/-- **C2.** (code_bug) On the input `"cabcabdab"` the engine terminates with
both queues empty, the emitted triple decompresses back to the input, and yet
the ordered pair `(0, 4)` (`c` followed by the non-terminal for `ab`) occurs
twice among adjacent symbols of the final compressed sequence `T_c`:
terminality fails on the code. -/
theorem C2_terminality_fails :
    (adjacentPairs repairRunC2.Tc).count (0, 4) = 2 ∧
    repairRunC2.Tc = [0, 4, 0, 4, 3, 4] ∧
    repairRunC2.lfq.size = 0 ∧ repairRunC2.hfq.size = 0 ∧
    decompress repairRunC2.A repairRunC2.G repairRunC2.Tc = wC2 := by
  decide

set_option maxRecDepth 100000 in
/-- **C3.** (code_bug) In the replace pass of `repair.cpp`, the guard of
`decrease(By)` tests `xA != AB` instead of `By != AB`: on the text `"aaaa"`
with `AB = (0,0)`, at the first replaced occurrence the right context `By`
equals `AB` itself, the code guard nevertheless fires (the spec guard does
not), and the pass decreases the frequency of `AB`. -/
theorem C3_by_guard_tests_xA :
    textAAAA.nextPair 0 = (0, 0) ∧
    textAAAA.pairEndingAt 0 = blankPair ∧
    codeByGuard qC3 blankPair (0, 0) (0, 0) = true ∧
    specByGuard qC3 (0, 0) (0, 0) = false ∧
    (replacePassRepairCpp tpC3 (0, 0) 1 0 3 textAAAA qC3).2.getF (0, 0) = 2 := by
  decide

/-- **C4.** (counterexample) `decrease` of `hf_queue.hpp` does auto-remove:
on a queue holding `(0,1)` at the minimum frequency 2, one `decrease` call
removes the pair from the queue. -/
theorem C4_decrease_does_remove :
    qC4.contains (0, 1) = true ∧ qC4.getF (0, 1) = 2 ∧
    (qC4.decrease (0, 1)).contains (0, 1) = false := by
  decide

/-- **C6.** (counterexample) On the empty input `compute_repair` does not
return the empty triple: the constructors' preconditions fail (the embedding
returns `none`). -/
theorem C6_empty_input_fails : repairFuel 9 9 [] = none := rfl

/-- **C6.** (amended) For every fuel, `repair` of the empty input produces no
triple at all: `skippable_text` requires `n > 0` and the position-index
constructor reads out of bounds, instead of returning `(A, G, T_c) = ([], [], [])`. -/
theorem C6_empty_input_none : ∀ fuelHF fuelLF : Nat, repairFuel fuelHF fuelLF [] = none :=
  fun _ _ => rfl

set_option maxRecDepth 1000000 in
/-- **C7.** (code_bug) On the input `"abaaabbb"` the recorded frequencies of
the pairs selected by the successive low-frequency substitution rounds are
`[2, 2, 2^32 - 1]`: after the second round the corrupted arena chain makes
the engine select the nulled slot's pair with frequency `~0`, and the
sequence of selection frequencies within the low-frequency phase increases. -/
theorem C7_monotonicity_fails :
    repairRunC7.lfFreqs = [2, 2, 4294967295] ∧
    ¬ nonIncreasing repairRunC7.lfFreqs := by
  decide

/-- **C8.** (counterexample) For an input name without any dot the code
leaves the default output name unchanged, while the claim appends
`.decompressed`. -/
theorem C8_dotless_name_unchanged :
    defaultDecompressOut "archive".toList = "archive".toList ∧
    specDefaultDecompressOut "archive".toList = "archive.decompressed".toList ∧
    defaultDecompressOut "archive".toList ≠ specDefaultDecompressOut "archive".toList := by
  decide

/-- **C10.** (confirmed) `max()` on an empty low-frequency queue returns the
reserved null pair, and one step of the engine's low-frequency loop returns
without running a substitution round exactly when `max()` returns the null
pair. -/
theorem C10_lf_max_null_loop (q : LfQ) (st : EngineSt LfQ) (fuel : Nat)
    (h : q.n = 0) :
    (LfQ.qmax q).1 = nullPair ∧
    (engineLoop lfOps (fuel + 1) st = { st with Q := (lfOps.qmax st.Q).2 } ↔
       (lfOps.qmax st.Q).1 = nullPair) := by
  constructor
  · simp [LfQ.qmax, h]
  · constructor
    · intro heq
      by_contra hne
      have hstep : engineLoop lfOps (fuel + 1) st =
          engineLoop lfOps fuel
            (substitutionRound lfOps { st with Q := (lfOps.qmax st.Q).2 }) := by
        simp only [engineLoop]
        rw [if_neg hne]
      rw [hstep] at heq
      have h1 := engineLoop_G_mono lfOps fuel
        (substitutionRound lfOps { st with Q := (lfOps.qmax st.Q).2 })
      rw [heq] at h1
      rw [substitutionRound_G] at h1
      simp at h1
    · intro h0
      simp only [engineLoop]
      rw [if_pos h0]

/-- witness for `C10_lf_max_null_loop` at a concrete empty queue and state. -/
theorem C10_lf_max_null_loop_witness :
    (LfQ.init 2).n = 0 ∧
    ((LfQ.qmax (LfQ.init 2)).1 = nullPair ∧
      (engineLoop lfOps 1
          { Q := LfQ.init 2, tp := { TP := [], maxd := 256, Htab := [] },
            T := SkippableText.init 1, G := [], X := 1, freqs := [] } =
        { Q := (lfOps.qmax (LfQ.init 2)).2, tp := { TP := [], maxd := 256, Htab := [] },
          T := SkippableText.init 1, G := [], X := 1, freqs := [] } ↔
        (lfOps.qmax (LfQ.init 2)).1 = nullPair)) :=
  ⟨rfl, C10_lf_max_null_loop (LfQ.init 2)
    { Q := LfQ.init 2, tp := { TP := [], maxd := 256, Htab := [] },
      T := SkippableText.init 1, G := [], X := 1, freqs := [] } 0 rfl⟩

/-- **C9.** (confirmed) On a reachable skippable text (one satisfying the
representation invariant `TextInv`), every maximal run of blanked positions
stores its total length in the symbol array at both its first and its last
position; `replace` at a position currently starting a non-blank pair
preserves the invariant (hence the run property); and `pair_starting_at`
uses the stored length to skip an arbitrarily long run in one step, landing
exactly on the next live position. -/
theorem C9_blank_run_invariant (S : SkippableText) (i X : Nat)
    (hInv : TextInv S) (hX : X ≠ BLANK)
    (hg : S.pairStartingAt i ≠ SkippableText.blankPair) :
    runsStoreLen S ∧
    TextInv (S.replace i X) ∧
    runsStoreLen (S.replace i X) ∧
    (∀ j, j < S.n → S.isBlank j = false → S.isBlank (j+1) = true →
      j + S.rawT (j+1) + 1 < S.n →
      S.isBlank (j + S.rawT (j+1) + 1) = false ∧
      (∀ m, j + 1 ≤ m → m ≤ j + S.rawT (j+1) → S.isBlank m = true) ∧
      S.pairStartingAt j = (S.rawT j, S.rawT (j + S.rawT (j+1) + 1))) := by
  obtain ⟨abs, hTE, hW⟩ := hInv
  obtain ⟨hTT, hTB, hTn⟩ := hTE
  have hInv2 : TextInv (S.replace i X) := by
    rcases psa_cases S abs ⟨hTT, hTB, hTn⟩ hW i hg with ⟨k, hk, hik, _⟩ | ⟨hge, _⟩
    · refine ⟨absReplace abs k X, ?_, absReplace_WF abs k X hW hX⟩
      rw [hik]
      exact replace_live S abs ⟨hTT, hTB, hTn⟩ hW k hk X
    · have heq := replace_oob S i X (by rw [hTT]; omega)
        (by rw [hTB, encB_length]; omega) hge
      rw [heq]
      exact ⟨abs, ⟨hTT, hTB, hTn⟩, hW⟩
  refine ⟨runs_store_len S abs ⟨hTT, hTB, hTn⟩ hW, hInv2, ?_, ?_⟩
  · obtain ⟨abs2, hT2, hW2⟩ := hInv2
    exact runs_store_len _ abs2 hT2 hW2
  · intro j hj hlive hblk hin
    exact psa_skip S abs ⟨hTT, hTB, hTn⟩ hW j hj hlive hblk hin

/-- witness for C9 on the concrete text `SC9` (blank run of length 3),
replacing the pair `(5, 6)` starting at position 0 by the symbol 8. -/
theorem C9_blank_run_invariant_witness :
    (TextInv SC9 ∧ (8 : Nat) ≠ BLANK ∧
      SC9.pairStartingAt 0 ≠ SkippableText.blankPair) ∧
    (runsStoreLen SC9 ∧
     TextInv (SC9.replace 0 8) ∧
     runsStoreLen (SC9.replace 0 8) ∧
     (∀ j, j < SC9.n → SC9.isBlank j = false → SC9.isBlank (j+1) = true →
       j + SC9.rawT (j+1) + 1 < SC9.n →
       SC9.isBlank (j + SC9.rawT (j+1) + 1) = false ∧
       (∀ m, j + 1 ≤ m → m ≤ j + SC9.rawT (j+1) → SC9.isBlank m = true) ∧
       SC9.pairStartingAt j = (SC9.rawT j, SC9.rawT (j + SC9.rawT (j+1) + 1)))) :=
  have hInv : TextInv SC9 := ⟨absC9, ⟨rfl, rfl, rfl⟩, by unfold absWF gapWF; decide⟩
  ⟨⟨hInv, by decide, by decide⟩,
    C9_blank_run_invariant SC9 0 8 hInv (by decide) (by decide)⟩

/-- **C5.** (counterexample to the cached-symbol conjunct) On the all-live
text `[0, 1, 0, 1]`, after `replace(0, 2)` the slot at position 1 holds 1 —
the length of the blank run created at position 1 — while the symbol at the
next live position 2 is 0: the slot after `i` is a run length, not a cached
copy of the next live symbol. -/
theorem C5_slot_is_run_length :
    (SC5.replace 0 2).rawT 1 = 1 ∧
    (SC5.replace 0 2).isBlank 1 = true ∧
    (SC5.replace 0 2).isBlank 2 = false ∧
    (SC5.replace 0 2).rawT 2 = 0 ∧
    (SC5.replace 0 2).rawT 1 ≠ (SC5.replace 0 2).rawT 2 := by
  decide

/-- **C5.** (corrected) `replace(i, X)` at the position `i` of live entry `k`
of a well-formed text (with a live successor entry): `i` now holds `X` and
stays live; the next live position — the one that held the pair's second
symbol — becomes blank; the slot right after `i` holds the length of the
merged blank run now starting at `i + 1` (so `i + T[i+1] + 1` is the next
live position), not a cached copy of the next live symbol; and the number of
live positions (and the counter) decreases by exactly one. -/
theorem C5_replace_amended (S : SkippableText) (abs : AbsText) (k X : Nat)
    (hT : TextEnc S abs) (hW : absWF abs) (hk : k + 1 < abs.length)
    (hnb : 0 < S.nonBlank) :
    (S.replace (posOf abs k) X).rawT (posOf abs k) = X ∧
    (S.replace (posOf abs k) X).isBlank (posOf abs k) = false ∧
    S.isBlank (posOf abs (k+1)) = false ∧
    (S.replace (posOf abs k) X).isBlank (posOf abs (k+1)) = true ∧
    1 ≤ (S.replace (posOf abs k) X).rawT (posOf abs k + 1) ∧
    maxRun (S.replace (posOf abs k) X) (posOf abs k + 1)
      (posOf abs k + (S.replace (posOf abs k) X).rawT (posOf abs k + 1)) ∧
    (S.replace (posOf abs k) X).numberOfNonBlankCharacters
      = S.numberOfNonBlankCharacters - 1 ∧
    ((S.replace (posOf abs k) X).liveSyms).length + 1 = (S.liveSyms).length := by
  have hT2 := replace_live S abs hT hW k hk X
  obtain ⟨hTT2, hTB2, hTn2⟩ := hT2
  have hlen2 := absReplace_length abs k X hk
  have hk2 : k < (absReplace abs k X).length := by omega
  have hget2 := absReplace_getD abs k X hk
  have hpos2 := absReplace_posOf abs k X hk
  have hmlen := mergedGap_length (abs.getD k (0, [])).2 (abs.getD (k+1) (0, [])).1
    (abs.getD (k+1) (0, [])).2
  have hsucc := posOf_succ_eq abs k (by omega)
  have hglen2 : (((absReplace abs k X).getD k (0, [])).2).length
      = (abs.getD k (0, [])).2.length + 1 + (abs.getD (k+1) (0, [])).2.length := by
    rw [hget2]
    exact hmlen
  have ha : (S.replace (posOf abs k) X).rawT (posOf abs k) = X := by
    unfold SkippableText.rawT
    rw [hTT2]
    have h := (enc_getD_live (absReplace abs k X) k hk2).1
    rw [hpos2, hget2] at h
    exact h
  have hb : (S.replace (posOf abs k) X).isBlank (posOf abs k) = false := by
    unfold SkippableText.isBlank
    rw [hTB2]
    have h := (enc_getD_live (absReplace abs k X) k hk2).2
    rw [hpos2] at h
    exact h
  have hc : S.isBlank (posOf abs (k+1)) = false := by
    unfold SkippableText.isBlank
    rw [hT.2.1]
    exact (enc_getD_live abs (k+1) hk).2
  have hidx1 : posOf abs (k+1)
      = posOf (absReplace abs k X) k + 1 + (abs.getD k (0, [])).2.length := by
    rw [hpos2]; exact hsucc
  have hd : (S.replace (posOf abs k) X).isBlank (posOf abs (k+1)) = true := by
    unfold SkippableText.isBlank
    rw [hTB2, hidx1]
    exact (enc_getD_gap (absReplace abs k X) k (abs.getD k (0, [])).2.length hk2
      (by rw [hglen2]; omega)).2
  have hr : (S.replace (posOf abs k) X).rawT (posOf abs k + 1)
      = (abs.getD k (0, [])).2.length + 1 + (abs.getD (k+1) (0, [])).2.length := by
    unfold SkippableText.rawT
    rw [hTT2]
    rw [show posOf abs k + 1 = posOf (absReplace abs k X) k + 1 + 0 from by
      rw [hpos2]]
    have h := (enc_getD_gap (absReplace abs k X) k 0 hk2 (by rw [hglen2]; omega)).1
    rw [h, hget2]
    have hwf := (mergedGap_WF (abs.getD k (0, [])).2 (abs.getD (k+1) (0, [])).1
      (abs.getD (k+1) (0, [])).2).1
    rw [show ((X, mergedGap (abs.getD k (0, [])).2 (abs.getD (k+1) (0, [])).1
        (abs.getD (k+1) (0, [])).2) : Nat × List Nat).2
      = mergedGap (abs.getD k (0, [])).2 (abs.getD (k+1) (0, [])).1
        (abs.getD (k+1) (0, [])).2 from rfl]
    rw [hwf, hmlen]
  have hsucc2 : posOf (absReplace abs k X) (k+1)
      = posOf abs k + 1 +
        ((abs.getD k (0, [])).2.length + 1 + (abs.getD (k+1) (0, [])).2.length) := by
    rw [posOf_succ_eq (absReplace abs k X) k hk2, hpos2, hglen2]
  have hle2 := posOf_le_length (absReplace abs k X) (k+1)
  have hmr : maxRun (S.replace (posOf abs k) X) (posOf abs k + 1)
      (posOf abs k + ((abs.getD k (0, [])).2.length + 1
        + (abs.getD (k+1) (0, [])).2.length)) := by
    refine ⟨by omega, ?_, ?_, ?_, ?_⟩
    · rw [hTn2]; omega
    · intro j hj1 hj2
      unfold SkippableText.isBlank
      rw [hTB2]
      rw [show j = posOf (absReplace abs k X) k + 1 + (j - (posOf abs k + 1)) from by
        rw [hpos2]; omega]
      exact (enc_getD_gap (absReplace abs k X) k (j - (posOf abs k + 1)) hk2
        (by rw [hglen2]; omega)).2
    · right
      rw [show posOf abs k + 1 - 1 = posOf abs k from by omega]
      exact hb
    · by_cases hk1 : k + 1 < (absReplace abs k X).length
      · right
        have hlv := (enc_getD_live (absReplace abs k X) (k+1) hk1).2
        unfold SkippableText.isBlank
        rw [hTB2]
        rw [show posOf abs k + ((abs.getD k (0, [])).2.length + 1
            + (abs.getD (k+1) (0, [])).2.length) + 1
          = posOf (absReplace abs k X) (k+1) from by rw [hsucc2]; omega]
        exact hlv
      · left
        have hk1e : k + 1 = (absReplace abs k X).length := by omega
        have he : posOf (absReplace abs k X) (k+1) = (encT (absReplace abs k X)).length := by
          rw [hk1e, posOf_at_length]
        rw [hTn2]
        omega
  refine ⟨ha, hb, hc, hd, by rw [hr]; omega, by rw [hr]; exact hmr, ?_, ?_⟩
  · show dec32 S.nonBlank = S.nonBlank - 1
    unfold dec32
    rw [if_neg (by omega)]
  · rw [liveSyms_eq S abs hT, liveSyms_eq _ _ ⟨hTT2, hTB2, hTn2⟩]
    simp only [List.length_map]
    omega

/-- witness for the corrected C5 on `SC9`, replacing at live entry 0. -/
theorem C5_replace_amended_witness :
    (TextEnc SC9 absC9 ∧ absWF absC9 ∧ 0 + 1 < absC9.length ∧ 0 < SC9.nonBlank) ∧
    ((SC9.replace (posOf absC9 0) 8).rawT (posOf absC9 0) = 8 ∧
     (SC9.replace (posOf absC9 0) 8).isBlank (posOf absC9 0) = false ∧
     SC9.isBlank (posOf absC9 (0+1)) = false ∧
     (SC9.replace (posOf absC9 0) 8).isBlank (posOf absC9 (0+1)) = true ∧
     1 ≤ (SC9.replace (posOf absC9 0) 8).rawT (posOf absC9 0 + 1) ∧
     maxRun (SC9.replace (posOf absC9 0) 8) (posOf absC9 0 + 1)
       (posOf absC9 0 + (SC9.replace (posOf absC9 0) 8).rawT (posOf absC9 0 + 1)) ∧
     (SC9.replace (posOf absC9 0) 8).numberOfNonBlankCharacters
       = SC9.numberOfNonBlankCharacters - 1 ∧
     ((SC9.replace (posOf absC9 0) 8).liveSyms).length + 1 = (SC9.liveSyms).length) :=
  ⟨⟨⟨rfl, rfl, rfl⟩, by unfold absWF gapWF; decide, by decide, by decide⟩,
    C5_replace_amended SC9 absC9 0 8 ⟨rfl, rfl, rfl⟩
      (by unfold absWF gapWF; decide) (by decide) (by decide)⟩

/-- characterization of the `find_last_of(".")` fold: it returns the largest
index below `n` holding a dot, or `none` when there is no dot below `n`. -/
theorem lastDotAux (inp : List Char) : ∀ (n : Nat),
    ((List.range n).foldl
        (fun acc i => if inp.getD i ' ' = '.' then some i else acc) none = none
      → ∀ j, j < n → inp.getD j ' ' ≠ '.') ∧
    (∀ d, (List.range n).foldl
        (fun acc i => if inp.getD i ' ' = '.' then some i else acc) none = some d
      → d < n ∧ inp.getD d ' ' = '.' ∧
        ∀ j, d < j → j < n → inp.getD j ' ' ≠ '.') := by
  intro n
  induction n with
  | zero =>
    exact ⟨fun _ j hj => absurd hj (by omega), fun d h => by simp at h⟩
  | succ n ih =>
    constructor
    · intro h j hj
      rw [List.range_succ, List.foldl_append] at h
      simp only [List.foldl_cons, List.foldl_nil] at h
      by_cases hn : inp.getD n ' ' = '.'
      · rw [if_pos hn] at h
        exact absurd h (by simp)
      · rw [if_neg hn] at h
        rcases Nat.lt_succ_iff_lt_or_eq.mp hj with hlt | heq
        · exact ih.1 h j hlt
        · rw [heq]; exact hn
    · intro d h
      rw [List.range_succ, List.foldl_append] at h
      simp only [List.foldl_cons, List.foldl_nil] at h
      by_cases hn : inp.getD n ' ' = '.'
      · rw [if_pos hn] at h
        have hdn : n = d := Option.some.inj h
        refine ⟨by omega, by rw [← hdn]; exact hn, ?_⟩
        intro j hj1 hj2
        exact absurd hj2 (by omega)
      · rw [if_neg hn] at h
        obtain ⟨h1, h2, h3⟩ := ih.2 d h
        refine ⟨by omega, h2, ?_⟩
        intro j hj1 hj2
        rcases Nat.lt_succ_iff_lt_or_eq.mp hj2 with hlt | heq
        · exact h3 j hj1 hlt
        · rw [heq]; exact hn

/-- **C8.** (corrected) The default decompression output name: when the input
name contains a dot, `main` behaves as the spec describes (strip a final
`.rp` extension, otherwise append `.decompressed`); but a name without any
dot is returned unchanged — `find_last_of(".")` fails and the whole
extension handling is skipped, so no `.decompressed` is appended. -/
theorem C8_default_name_amended (inp : List Char) :
    defaultDecompressOut inp
      = if '.' ∈ inp then specDefaultDecompressOut inp else inp := by
  have haux := lastDotAux inp inp.length
  have hfold : findLastDot inp = (List.range inp.length).foldl
      (fun acc i => if inp.getD i ' ' = '.' then some i else acc) none := rfl
  by_cases hdot : '.' ∈ inp
  · rw [if_pos hdot]
    cases hfld : findLastDot inp with
    | none =>
      exfalso
      obtain ⟨m, hm, hgm⟩ := List.getElem_of_mem hdot
      have hnone := haux.1 (by rw [← hfold]; exact hfld) m hm
      rw [List.getD_eq_getElem inp ' ' hm] at hnone
      exact hnone hgm
    | some d =>
      obtain ⟨hd1, hd2, hd3⟩ := haux.2 d (by rw [← hfold]; exact hfld)
      unfold defaultDecompressOut
      rw [hfld]
      show (if (inp.drop d).take (inp.length - d) = ['.', 'r', 'p']
            then inp.take d else inp ++ ".decompressed".toList)
          = specDefaultDecompressOut inp
      have hext : (inp.drop d).take (inp.length - d) = inp.drop d :=
        List.take_of_length_le (by rw [List.length_drop])
      rw [hext]
      by_cases hrp : inp.drop d = ['.', 'r', 'p']
      · rw [if_pos hrp]
        have hlen3 : inp.length = d + 3 := by
          have hh := congrArg List.length hrp
          rw [List.length_drop] at hh
          simp at hh
          omega
        have hsuf : ['.', 'r', 'p'] <:+ inp :=
          ⟨inp.take d, by rw [← hrp]; exact List.take_append_drop d inp⟩
        unfold specDefaultDecompressOut
        rw [if_pos (List.isSuffixOf_iff_suffix.mpr hsuf)]
        congr 1
        omega
      · rw [if_neg hrp]
        have hnsuf : ¬ (['.', 'r', 'p'].isSuffixOf inp = true) := by
          intro hs
          have hsuf := List.isSuffixOf_iff_suffix.mp hs
          obtain ⟨t, ht⟩ := hsuf
          have hlent : inp.length = t.length + 3 := by
            rw [← ht]; simp
          have hdott : inp.getD t.length ' ' = '.' := by
            rw [← ht, List.getD_append_right _ _ _ _ (Nat.le_refl _), Nat.sub_self]
            rfl
          have hrr : inp.getD (t.length + 1) ' ' = 'r' := by
            rw [← ht, List.getD_append_right _ _ _ _ (by omega)]
            rw [show t.length + 1 - t.length = 1 from by omega]
            rfl
          have hpp : inp.getD (t.length + 2) ' ' = 'p' := by
            rw [← ht, List.getD_append_right _ _ _ _ (by omega)]
            rw [show t.length + 2 - t.length = 2 from by omega]
            rfl
          have hdge : t.length ≤ d := by
            by_contra hcon
            exact (hd3 t.length (by omega) (by omega)) hdott
          have hdeq : d = t.length := by
            rcases Nat.lt_or_ge d (t.length + 1) with h | h
            · omega
            · rcases Nat.lt_or_ge d (t.length + 2) with h' | h'
              · have hde : d = t.length + 1 := by omega
                rw [hde, hrr] at hd2
                exact absurd hd2 (by decide)
              · have hde : d = t.length + 2 := by omega
                rw [hde, hpp] at hd2
                exact absurd hd2 (by decide)
          apply hrp
          rw [hdeq, ← ht, List.drop_left]
        unfold specDefaultDecompressOut
        rw [if_neg hnsuf]
  · rw [if_neg hdot]
    cases hfld : findLastDot inp with
    | none =>
      unfold defaultDecompressOut
      rw [hfld]
    | some d =>
      exfalso
      obtain ⟨hd1, hd2, _⟩ := haux.2 d (by rw [← hfold]; exact hfld)
      exact hdot (by rw [← hd2]; exact getD_mem' inp d ' ' hd1)

/-! ## Association-table and arena lemmas -/

theorem assocMem_filter_ne {α β : Type} [DecidableEq α] (m : List (α × β))
    (k key : α) (h : key ≠ k) :
    assocMem (m.filter (fun e => ¬ e.1 = k)) key = assocMem m key := by
  induction m with
  | nil => rfl
  | cons e m ih =>
    rw [List.filter_cons]
    by_cases he : e.1 = k
    · rw [if_neg (by simp [he])]
      rw [ih]
      unfold assocMem
      rw [List.find?_cons_of_neg _ (by simp [he]; exact fun hc => h hc.symm)]
    · by_cases hek : e.1 = key
      · rw [if_pos (by simp [he])]
        unfold assocMem
        rw [List.find?_cons_of_pos _ (by simp [hek]),
          List.find?_cons_of_pos _ (by simp [hek])]
      · rw [if_pos (by simp [he])]
        unfold assocMem
        rw [List.find?_cons_of_neg _ (by simp [hek]),
          List.find?_cons_of_neg _ (by simp [hek])]
        exact ih

theorem assocMem_assocSet_ne {α β : Type} [DecidableEq α] (m : List (α × β))
    (k key : α) (v : β) (h : key ≠ k) :
    assocMem (assocSet m k v) key = assocMem m key := by
  unfold assocSet
  unfold assocMem
  rw [List.find?_cons_of_neg _ (by simp; exact fun hc => h hc.symm)]
  exact assocMem_filter_ne m k key h

theorem assocMem_assocDel_self {α β : Type} [DecidableEq α] (m : List (α × β))
    (k : α) : assocMem (assocDel m k) k = false := by
  unfold assocDel
  induction m with
  | nil => rfl
  | cons e m ih =>
    rw [List.filter_cons]
    by_cases he : e.1 = k
    · rw [if_neg (by simp [he])]
      exact ih
    · rw [if_pos (by simp [he])]
      unfold assocMem
      rw [List.find?_cons_of_neg _ (by simp [he])]
      exact ih

theorem LLEl_default_ab : ({} : LLEl).ab = (0, 0) := rfl

/-- every element produced by the compaction walk is some arena read. -/
theorem walk_mem (l : LLVec) : ∀ (fuel cur : Nat) (e : LLEl),
    e ∈ l.walk fuel cur → ∃ j, e = l.get j := by
  intro fuel
  induction fuel with
  | zero =>
    intro cur e he
    simp [LLVec.walk] at he
  | succ fuel ih =>
    intro cur e he
    unfold LLVec.walk at he
    by_cases hc : cur = NULLI
    · rw [if_pos hc] at he
      simp at he
    · rw [if_neg hc] at he
      rcases List.mem_cons.mp he with h | h
      · exact ⟨cur, h⟩
      · exact ih _ e h

/-- every slot of a compacted arena holds the default element or a value
read from the original arena. -/
theorem compact_get_ab (l : LLVec) (i : Nat) :
    l.compact.get i = ({} : LLEl) ∨ ∃ j, l.compact.get i = l.get j := by
  simp only [LLVec.compact]
  by_cases hn : l.n = 0
  · rw [if_pos hn]
    left
    unfold LLVec.get LLVec.init
    cases i with
    | zero => rfl
    | succ i =>
      rw [List.getD_cons_succ]
      exact List.getD_eq_default _ _ (by simp)
  · rw [if_neg hn]
    unfold LLVec.get
    simp only []
    by_cases hi : i < ((l.walk (l.V.length + 1) l.firstEl).take l.n
        ++ List.replicate (l.n - (l.walk (l.V.length + 1) l.firstEl).length)
            ({} : LLEl)).length
    · have hm := getD_mem' _ i ({} : LLEl) hi
      rcases List.mem_append.mp hm with h | h
      · obtain ⟨j, hj⟩ := walk_mem l _ _ _ (List.take_subset _ _ h)
        exact Or.inr ⟨j, hj⟩
      · exact Or.inl (List.mem_replicate.mp h).2
    · left
      exact List.getD_eq_default _ _ (by omega)

theorem llvec_remove_V (l : LLVec) (i : Nat) : (l.remove i).V = l.V.set i {} := by
  simp only [LLVec.remove]
  split <;> rfl

theorem llvec_setEl_V (l : LLVec) (i : Nat) (e : LLEl) :
    (l.setEl i e).V = l.V.set i e := rfl

/-- **C4.** (corrected) `decrease(ab)` of `hf_queue.hpp` for a pair that is
in the queue (at a valid arena slot, with a positive frequency, a pair value
distinct from the default element and stored in no other slot): the
frequency drops by exactly one; if the result is still at least the queue
minimum the pair stays in the queue with the decremented frequency, and
otherwise `decrease` itself removes the pair from the queue (possibly
compacting the arena) — no separate engine `remove` is needed. -/
theorem C4_decrease_amended (q : HfQueueHpp) (ab : CPair)
    (hc : q.contains ab = true)
    (hidx : assocGet q.H ab 0 < q.B.capacity)
    (hF : 1 ≤ q.getF ab)
    (hab0 : ab ≠ (0, 0))
    (huniq : ∀ j, j < q.B.capacity → j ≠ assocGet q.H ab 0 → (q.B.get j).ab ≠ ab) :
    (q.minFreq + 1 ≤ q.getF ab →
      (q.decrease ab).contains ab = true ∧
      (q.decrease ab).getF ab = q.getF ab - 1) ∧
    (q.getF ab < q.minFreq + 1 →
      (q.decrease ab).contains ab = false) := by
  have hgetF : q.getF ab = (q.B.get (assocGet q.H ab 0)).F := rfl
  have hget1 : ((q.B.setEl (assocGet q.H ab 0)
      { q.B.get (assocGet q.H ab 0) with F := dec32 (q.B.get (assocGet q.H ab 0)).F }).get
        (assocGet q.H ab 0))
      = { q.B.get (assocGet q.H ab 0) with F := dec32 (q.B.get (assocGet q.H ab 0)).F } := by
    unfold LLVec.get
    rw [llvec_setEl_V]
    exact getD_set_self _ _ _ _ hidx
  have hdec : dec32 (q.B.get (assocGet q.H ab 0)).F
      = (q.B.get (assocGet q.H ab 0)).F - 1 := by
    unfold dec32
    rw [if_neg (by rw [hgetF] at hF; omega)]
  constructor
  · intro hstay
    have hcond : ¬ (((q.B.setEl (assocGet q.H ab 0)
        { q.B.get (assocGet q.H ab 0) with F := dec32 (q.B.get (assocGet q.H ab 0)).F }).get
          (assocGet q.H ab 0)).F < q.minFreq) := by
      rw [hget1]
      show ¬ (dec32 (q.B.get (assocGet q.H ab 0)).F < q.minFreq)
      rw [hdec, ← hgetF]
      omega
    simp only [HfQueueHpp.decrease]
    rw [if_neg hcond]
    constructor
    · exact hc
    · show ((q.B.setEl (assocGet q.H ab 0)
        { q.B.get (assocGet q.H ab 0) with F := dec32 (q.B.get (assocGet q.H ab 0)).F }).get
          (assocGet q.H ab 0)).F = q.getF ab - 1
      rw [hget1]
      show dec32 (q.B.get (assocGet q.H ab 0)).F = q.getF ab - 1
      rw [hdec, hgetF]
  · intro hdrop
    have hcond : (((q.B.setEl (assocGet q.H ab 0)
        { q.B.get (assocGet q.H ab 0) with F := dec32 (q.B.get (assocGet q.H ab 0)).F }).get
          (assocGet q.H ab 0)).F < q.minFreq) := by
      rw [hget1]
      show dec32 (q.B.get (assocGet q.H ab 0)).F < q.minFreq
      rw [hdec, ← hgetF]
      omega
    simp only [HfQueueHpp.decrease]
    rw [if_pos hcond]
    -- the state after removal
    have hV2 : ∀ j, ((({ q with B := (q.B.setEl (assocGet q.H ab 0)
        { q.B.get (assocGet q.H ab 0) with
          F := dec32 (q.B.get (assocGet q.H ab 0)).F }) } : HfQueueHpp).remove ab).B.get j).ab
        ≠ ab := by
      intro j
      unfold HfQueueHpp.remove LLVec.get
      rw [llvec_remove_V, llvec_setEl_V, List.set_set]
      by_cases hj : j < q.B.V.length
      · by_cases hji : j = assocGet q.H ab 0
        · rw [hji, getD_set_self _ _ _ _ hidx]
          intro hcon
          apply hab0
          rw [← hcon]
        · rw [getD_set_ne _ _ _ _ _ (fun hcon => hji hcon.symm)]
          exact huniq j hj hji
      · rw [List.getD_eq_default _ _ (by rw [List.length_set]; omega)]
        intro hcon
        apply hab0
        rw [← hcon]
    have hmem2 : (({ q with B := (q.B.setEl (assocGet q.H ab 0)
        { q.B.get (assocGet q.H ab 0) with
          F := dec32 (q.B.get (assocGet q.H ab 0)).F }) } : HfQueueHpp).remove ab).contains ab
        = false := by
      unfold HfQueueHpp.contains HfQueueHpp.remove
      exact assocMem_assocDel_self _ ab
    split
    · -- compacted
      simp only [HfQueueHpp.contains, HfQueueHpp.compactLl]
      apply foldl_inv (P := fun h => assocMem h ab = false)
      · intro b a hb
        rw [assocMem_assocSet_ne]
        · exact hb
        · intro hcon
          rcases compact_get_ab _ a with h | ⟨j, hj⟩
          · rw [h, LLEl_default_ab] at hcon
            exact hab0 hcon
          · rw [hj] at hcon
            exact hV2 j hcon.symm
      · exact hmem2
    · exact hmem2

/-- witness for the corrected C4 on the concrete queue `qC4` (pair `(0,1)`
at the minimum frequency 2, so this `decrease` takes the removal branch). -/
theorem C4_decrease_amended_witness :
    (qC4.contains (0, 1) = true ∧ assocGet qC4.H (0, 1) 0 < qC4.B.capacity ∧
     1 ≤ qC4.getF (0, 1) ∧ ((0, 1) : CPair) ≠ (0, 0) ∧
     (∀ j, j < qC4.B.capacity → j ≠ assocGet qC4.H (0, 1) 0 →
       (qC4.B.get j).ab ≠ (0, 1))) ∧
    ((qC4.minFreq + 1 ≤ qC4.getF (0, 1) →
       (qC4.decrease (0, 1)).contains (0, 1) = true ∧
       (qC4.decrease (0, 1)).getF (0, 1) = qC4.getF (0, 1) - 1) ∧
     (qC4.getF (0, 1) < qC4.minFreq + 1 →
       (qC4.decrease (0, 1)).contains (0, 1) = false)) :=
  ⟨⟨by decide, by decide, by decide, by decide, by decide⟩,
    C4_decrease_amended qC4 (0, 1) (by decide) (by decide) (by decide) (by decide)
      (by decide)⟩

end RePair
